import Mathlib

/-!
Weighted round-robin balancer (`pkg/server/service/loadbalancer/wrr/wrr.go`)

A shallow embedding of the EDF (earliest deadline first) balancer and of the
parts of Go's `container/heap` it is built on.

Modelling conventions.

* A finite `float64` is a rational number, so weights and deadlines are values
  of `ℚ`.  The operations of this namespace compute with them exactly: this is
  the reading of deadlines as exact rationals, in which the properties that
  rest on the order of deadlines and the fairness of the schedule are stated.
  Go rounds every sum and quotient to the nearest `float64`; the namespace
  `wrr.float64` repeats `Add` and `nextServer` with that rounding, and the
  statements about the values stored are made there.  `Add` only ever stores
  positive weights, so the division `1 / weight` is by a positive number in
  every state the code can reach.
* The slice `handlers []*namedHandler` is a `List namedHandler`.  Every pointer
  in it is allocated by a distinct `Add`, so no two slots alias and updating
  the popped handler in `nextServer` is an update of that one value.
* `map[string]struct{}` is a `Finset String`; `len` is `Finset.card`.
* The two sticky maps are allocated by `New` exactly when the sticky cookie is
  configured and are never reassigned, so the three live together in
  `Balancer.sticky`.  The maps hold the same pointers as `handlers`; the only
  field written after `Add` is `deadline`, which is never read through a map,
  so a map entry is the handler as it was when `Add` stored it.
* An `http.Handler` and a status updater `func(bool)` are opaque capabilities;
  each is identified by a number.
* The mutex is not modelled: every operation is one atomic step.
-/

namespace wrr

/-! ## Data model -/

/-- The Go struct `namedHandler`; `Handler` identifies the embedded `http.Handler`. -/
structure namedHandler where
  Handler : Nat
  name : String
  hashedName : String
  weight : ℚ
  deadline : ℚ
deriving DecidableEq, Inhabited

/-- The Go struct `stickyCookie`. -/
structure stickyCookie where
  name : String
  secure : Bool
  httpOnly : Bool
  sameSite : String
  maxAge : Int
  path : String
  domain : String
deriving DecidableEq, Inhabited

/-- The sticky part of a `Balancer`: the cookie settings and the two maps
`stickyMap` and `compatibilityStickyMap`. -/
structure stickyState where
  stickyCookie : stickyCookie
  stickyMap : String → Option namedHandler
  compatibilityStickyMap : String → Option namedHandler

/-- The Go struct `Balancer` (without its mutex). -/
structure Balancer where
  sticky : Option stickyState
  wantsHealthCheck : Bool
  handlers : List namedHandler
  curDeadline : ℚ
  status : Finset String
  updaters : List Nat
  fenced : Finset String

/-- The fields of `dynamic.Cookie` read by `New`. -/
structure Cookie where
  Name : String
  Secure : Bool
  HTTPOnly : Bool
  SameSite : String
  MaxAge : Int
  Path : Option String
  Domain : String
deriving DecidableEq, Inhabited

/-- The Go struct `dynamic.Sticky`. -/
structure Sticky where
  Cookie : Option Cookie
deriving DecidableEq, Inhabited

/-- Outcome of running code that contains an unbounded loop with a step budget:
`running` when the budget is used up before the code returns, `panicked` when
it hits a Go run-time panic, `done` when it returns. -/
inductive Res (α : Type) where
  | running : Res α
  | panicked : Res α
  | done : α → Res α

/-! ## `container/heap` over `Balancer.handlers` -/

/-- The deadline stored at index `i` (0 outside the slice, where Go would panic). -/
def key (hs : List namedHandler) (i : Nat) : ℚ := (hs.getD i default).deadline

/-- `Balancer.Less`. -/
def Less (hs : List namedHandler) (i j : Nat) : Bool :=
  decide (key hs i < key hs j)

/-- `Balancer.Swap`. -/
def Swap (hs : List namedHandler) (i j : Nat) : List namedHandler :=
  (hs.set i (hs.getD j default)).set j (hs.getD i default)

/-- The loop of `heap.up`; every iteration consumes one unit of `fuel`. -/
def upLoop : Nat → List namedHandler → Nat → List namedHandler
  | 0, hs, _ => hs
  | fuel + 1, hs, j =>
    let i := (j - 1) / 2 -- parent
    if i = j ∨ ¬ Less hs j i then hs
    else upLoop fuel (Swap hs i j) i

/-- `heap.up`: the index at least halves on every iteration, so `j + 1`
iterations are never all used. -/
def up (hs : List namedHandler) (j : Nat) : List namedHandler :=
  upLoop (j + 1) hs j

/-- The loop of `heap.down`; every iteration consumes one unit of `fuel`. -/
def downLoop : Nat → List namedHandler → Nat → Nat → List namedHandler
  | 0, hs, _, _ => hs
  | fuel + 1, hs, i, n =>
    let j1 := 2 * i + 1
    if j1 ≥ n then hs
    else
      let j := if j1 + 1 < n ∧ Less hs (j1 + 1) j1 then j1 + 1 else j1
      if ¬ Less hs j i then hs
      else downLoop fuel (Swap hs i j) j n

/-- `heap.down`: the index strictly grows and stays below `n`, so `n`
iterations are never all used. -/
def down (hs : List namedHandler) (i0 n : Nat) : List namedHandler :=
  downLoop n hs i0 n

/-- `heap.Push(b, x)`: `Balancer.Push` appends, then `up` from the last index. -/
def heapPush (hs : List namedHandler) (x : namedHandler) : List namedHandler :=
  up (hs ++ [x]) hs.length

/-- `heap.Pop(b)`: swap first and last, `down` on the first `n` slots, then
`Balancer.Pop` removes and returns the last slot. -/
def heapPop (hs : List namedHandler) : Option (namedHandler × List namedHandler) :=
  let n := hs.length - 1
  let hs1 := down (Swap hs 0 n) 0 n
  match hs1.getLast? with
  | none => none
  | some h => some (h, hs1.dropLast)

/-! ## Hashes -/

/-- The UTF-8 bytes of a string (`[]byte(input)`). -/
def bytes (s : String) : List Nat :=
  s.data.flatMap fun c => (String.utf8EncodeChar c).map UInt8.toNat

/-- A hexadecimal digit, lower case. -/
def hexDigit (n : Nat) : Char :=
  if n < 10 then Char.ofNat (48 + n) else Char.ofNat (87 + n)

/-- `strconv.FormatUint(n, 16)`: most significant digit first, `fuel` bounds the
number of digits. -/
def formatHex : Nat → Nat → List Char
  | 0, _ => []
  | fuel + 1, n =>
    if n < 16 then [hexDigit n] else formatHex fuel (n / 16) ++ [hexDigit (n % 16)]

/-- `hash/fnv` `New64` followed by `Write` and `Sum64`: FNV-1, 64 bits. -/
def fnvSum64 (bs : List Nat) : Nat :=
  bs.foldl (fun h c => Nat.xor ((h * 1099511628211) % 2 ^ 64) c) 14695981039346656037

/-- `fnvHash`. -/
def fnvHash (input : String) : String :=
  ⟨formatHex 16 (fnvSum64 (bytes input))⟩

/-- Rotate a 32-bit word right. -/
def rotr (x n : Nat) : Nat := (x >>> n ||| x <<< (32 - n)) % 2 ^ 32

/-- The round constants of SHA-256. -/
def sha256K : List Nat :=
  [0x428a2f98, 0x71374491, 0xb5c0fbcf, 0xe9b5dba5, 0x3956c25b, 0x59f111f1, 0x923f82a4, 0xab1c5ed5,
   0xd807aa98, 0x12835b01, 0x243185be, 0x550c7dc3, 0x72be5d74, 0x80deb1fe, 0x9bdc06a7, 0xc19bf174,
   0xe49b69c1, 0xefbe4786, 0x0fc19dc6, 0x240ca1cc, 0x2de92c6f, 0x4a7484aa, 0x5cb0a9dc, 0x76f988da,
   0x983e5152, 0xa831c66d, 0xb00327c8, 0xbf597fc7, 0xc6e00bf3, 0xd5a79147, 0x06ca6351, 0x14292967,
   0x27b70a85, 0x2e1b2138, 0x4d2c6dfc, 0x53380d13, 0x650a7354, 0x766a0abb, 0x81c2c92e, 0x92722c85,
   0xa2bfe8a1, 0xa81a664b, 0xc24b8b70, 0xc76c51a3, 0xd192e819, 0xd6990624, 0xf40e3585, 0x106aa070,
   0x19a4c116, 0x1e376c08, 0x2748774c, 0x34b0bcb5, 0x391c0cb3, 0x4ed8aa4a, 0x5b9cca4f, 0x682e6ff3,
   0x748f82ee, 0x78a5636f, 0x84c87814, 0x8cc70208, 0x90befffa, 0xa4506ceb, 0xbef9a3f7, 0xc67178f2]

/-- The initial hash value of SHA-256. -/
def sha256Init : List Nat :=
  [0x6a09e667, 0xbb67ae85, 0x3c6ef372, 0xa54ff53a, 0x510e527f, 0x9b05688c, 0x1f83d9ab, 0x5be0cd19]

/-- The padded message: a 1 bit, zeros up to 56 mod 64 bytes, the bit length on 8 bytes. -/
def sha256Pad (m : List Nat) : List Nat :=
  let l := m.length
  m ++ [0x80] ++ List.replicate ((119 - l % 64) % 64) 0
    ++ (List.range 8).map fun i => (8 * l) >>> (8 * (7 - i)) % 256

/-- Big-endian 32-bit words of a byte string. -/
def beWords : Nat → List Nat → List Nat
  | 0, _ => []
  | n + 1, bs =>
    (bs.getD 0 0 * 2 ^ 24 + bs.getD 1 0 * 2 ^ 16 + bs.getD 2 0 * 2 ^ 8 + bs.getD 3 0)
      :: beWords n (bs.drop 4)

/-- The message schedule: `k` more words appended to `w`. -/
def sha256Schedule : Nat → List Nat → List Nat
  | 0, w => w
  | k + 1, w =>
    let t := w.length
    let w15 := w.getD (t - 15) 0
    let w2 := w.getD (t - 2) 0
    let s0 := Nat.xor (Nat.xor (rotr w15 7) (rotr w15 18)) (w15 >>> 3)
    let s1 := Nat.xor (Nat.xor (rotr w2 17) (rotr w2 19)) (w2 >>> 10)
    sha256Schedule k (w ++ [(w.getD (t - 16) 0 + s0 + w.getD (t - 7) 0 + s1) % 2 ^ 32])

/-- One round of the SHA-256 compression function on the working variables. -/
def sha256Round (v : List Nat) (kw : Nat × Nat) : List Nat :=
  match v with
  | [a, b, c, d, e, f, g, h] =>
    let S1 := Nat.xor (Nat.xor (rotr e 6) (rotr e 11)) (rotr e 25)
    let ch := Nat.xor (e &&& f) ((2 ^ 32 - 1 - e) &&& g)
    let t1 := (h + S1 + ch + kw.1 + kw.2) % 2 ^ 32
    let S0 := Nat.xor (Nat.xor (rotr a 2) (rotr a 13)) (rotr a 22)
    let maj := Nat.xor (Nat.xor (a &&& b) (a &&& c)) (b &&& c)
    let t2 := (S0 + maj) % 2 ^ 32
    [(t1 + t2) % 2 ^ 32, a, b, c, (d + t1) % 2 ^ 32, e, f, g]
  | _ => v

/-- The hash value after one more 64-byte block. -/
def sha256Block (hv : List Nat) (block : List Nat) : List Nat :=
  let w := sha256Schedule 48 (beWords 16 block)
  List.zipWith (fun x y => (x + y) % 2 ^ 32) hv ((sha256K.zip w).foldl sha256Round hv)

/-- All blocks of a padded message, `n` of them. -/
def sha256Blocks : Nat → List Nat → List Nat → List Nat
  | 0, hv, _ => hv
  | n + 1, hv, m => sha256Blocks n (sha256Block hv (m.take 64)) (m.drop 64)

/-- `sha256.New`, `Write`, `Sum(nil)`: the 32 bytes of the digest. -/
def sha256Sum (m : List Nat) : List Nat :=
  let p := sha256Pad m
  (sha256Blocks (p.length / 64) sha256Init p).flatMap fun w =>
    [w >>> 24 % 256, w >>> 16 % 256, w >>> 8 % 256, w % 256]

/-- `hex.EncodeToString`. -/
def hexEncode (bs : List Nat) : String :=
  ⟨bs.flatMap fun b => [hexDigit (b / 16), hexDigit (b % 16)]⟩

/-- `sha256Hash`. -/
def sha256Hash (input : String) : String :=
  let hashedInput := hexEncode (sha256Sum (bytes input))
  if hashedInput.length < 16 then hashedInput
  else ⟨hashedInput.data.take 16⟩

/-! ## The balancer -/

/-- `New`. -/
def New (sticky : Option Sticky) (wantHealthCheck : Bool) : Balancer :=
  let balancer : Balancer :=
    { sticky := none, wantsHealthCheck := wantHealthCheck, handlers := [], curDeadline := 0,
      status := ∅, updaters := [], fenced := ∅ }
  match sticky with
  | none => balancer
  | some sticky =>
    match sticky.Cookie with
    | none => balancer
    | some c =>
      { balancer with
        sticky := some
          { stickyCookie :=
              { name := c.Name, secure := c.Secure, httpOnly := c.HTTPOnly, sameSite := c.SameSite,
                maxAge := c.MaxAge, path := (match c.Path with | some p => p | none => "/"),
                domain := c.Domain }
            stickyMap := fun _ => none
            compatibilityStickyMap := fun _ => none } }

/-- `Balancer.SetStatus`: the new balancer and the updater calls made, in order,
each with its argument. -/
def SetStatus (b : Balancer) (childName : String) (up : Bool) : Balancer × List (Nat × Bool) :=
  let upBefore : Bool := decide (b.status.card > 0)
  let status := if up then insert childName b.status else b.status.erase childName
  let upAfter : Bool := decide (status.card > 0)
  if upBefore = upAfter then ({ b with status := status }, [])
  else ({ b with status := status }, b.updaters.map fun fn => (fn, upAfter))

/-- `Balancer.RegisterStatusUpdater`: the balancer afterwards and the error
returned, `none` for `nil`. -/
def RegisterStatusUpdater (b : Balancer) (fn : Nat) : Balancer × Option String :=
  if ¬ b.wantsHealthCheck then
    (b, some "healthCheck not enabled in config for this weighted service")
  else ({ b with updaters := b.updaters ++ [fn] }, none)

/-- The error `errNoAvailableServer`, by its message. -/
def errNoAvailableServer : String := "no available server"

/-- One iteration of the `for` loop of `Balancer.nextServer`, up to the test of
the handler: pop the handler with the closest deadline, set `curDeadline` to
its deadline, advance its deadline by `1 / weight`, push it back.  `none` when
`heap.Pop` panics on an empty slice. -/
def rotate (b : Balancer) : Option (namedHandler × Balancer) :=
  match heapPop b.handlers with
  | none => none
  | some (handler, hs) =>
    let handler1 := { handler with deadline := handler.deadline + 1 / handler.weight }
    some (handler1, { b with curDeadline := handler.deadline, handlers := heapPush hs handler1 })

/-- The `for` loop of `Balancer.nextServer`; every iteration consumes one unit
of `fuel`. -/
def nextServerLoop : Nat → Balancer → Res (namedHandler × Balancer)
  | 0, _ => .running
  | fuel + 1, b =>
    match rotate b with
    | none => .panicked
    | some (handler, b1) =>
      if handler.name ∈ b1.status ∧ handler.name ∉ b1.fenced then .done (handler, b1)
      else nextServerLoop fuel b1

/-- `Balancer.nextServer`, its loop run for at most `fuel` iterations. -/
def nextServer (fuel : Nat) (b : Balancer) : Res (Except String namedHandler × Balancer) :=
  if b.handlers.length = 0 ∨ b.status.card = 0 ∨ b.fenced.card = b.handlers.length then
    .done (.error errNoAvailableServer, b)
  else
    match nextServerLoop fuel b with
    | .running => .running
    | .panicked => .panicked
    | .done (handler, b1) => .done (.ok handler, b1)

/-- The weight `Add` works with: `w := 1`, overwritten by `*weight` when the
pointer is not nil. -/
def effectiveWeight (weight : Option Int) : Int :=
  match weight with
  | some v => v
  | none => 1

/-- `Balancer.Add`.  The handler is pushed by pointer before `hashedName` is
written, so the slice sees the hashed name; here it is set before the push. -/
def Add (b : Balancer) (name : String) (handler : Nat) (weight : Option Int) (fenced : Bool) :
    Balancer :=
  let w := effectiveWeight weight
  if w ≤ 0 then b -- non-positive weight is meaningless
  else
    let weight : ℚ := (w : ℚ)
    let deadline := b.curDeadline + 1 / weight
    let status := insert name b.status
    let fenced := if fenced then insert name b.fenced else b.fenced
    match b.sticky with
    | none =>
      let h : namedHandler :=
        { Handler := handler, name := name, hashedName := "", weight := weight,
          deadline := deadline }
      { b with handlers := heapPush b.handlers h, status := status, fenced := fenced }
    | some s =>
      let sha256HashedName := sha256Hash name
      let h : namedHandler :=
        { Handler := handler, name := name, hashedName := sha256HashedName, weight := weight,
          deadline := deadline }
      let stickyMap := Function.update s.stickyMap sha256HashedName (some h)
      let compat := Function.update s.compatibilityStickyMap name (some h)
      let hashedName := fnvHash name
      let compat := Function.update compat hashedName (some h)
      let hashedName := fnvHash hashedName
      let compat := Function.update compat hashedName (some h)
      { b with
        handlers := heapPush b.handlers h, status := status, fenced := fenced
        sticky := some { s with stickyMap := stickyMap, compatibilityStickyMap := compat } }

/-! ## Request dispatch -/

/-- The cookies of a request, as `(name, value)` pairs in header order. -/
structure Request where
  cookies : List (String × String)
deriving DecidableEq, Inhabited

/-- `http.Request.Cookie`: the value of the first cookie of that name; `none`
stands for `http.ErrNoCookie`. -/
def Request.Cookie (req : Request) (name : String) : Option String :=
  if name = "" then none
  else (req.cookies.find? fun c => c.1 = name).map fun c => c.2

/-- `http.SameSite`. -/
inductive SameSite where
  | SameSiteDefaultMode
  | SameSiteLaxMode
  | SameSiteStrictMode
  | SameSiteNoneMode
deriving DecidableEq, Inhabited

/-- `convertSameSite`. -/
def convertSameSite (sameSite : String) : SameSite :=
  if sameSite = "none" then .SameSiteNoneMode
  else if sameSite = "lax" then .SameSiteLaxMode
  else if sameSite = "strict" then .SameSiteStrictMode
  else .SameSiteDefaultMode

/-- The fields of `http.Cookie` set by `writeStickyCookie`. -/
structure httpCookie where
  Name : String
  Value : String
  Path : String
  HttpOnly : Bool
  Secure : Bool
  SameSite : SameSite
  MaxAge : Int
  Domain : String
deriving DecidableEq, Inhabited

/-- `Balancer.writeStickyCookie`: the cookie handed to `http.SetCookie`. -/
def writeStickyCookie (c : stickyCookie) (handler : namedHandler) : httpCookie :=
  { Name := c.name, Value := handler.hashedName, Path := c.path, HttpOnly := c.httpOnly,
    Secure := c.secure, SameSite := convertSameSite c.sameSite, MaxAge := c.maxAge,
    Domain := c.domain }

/-- What `ServeHTTP` did with the response writer: either it called
`http.SetCookie` (or not) and then the `ServeHTTP` of one handler, or it called
`http.Error` with a message and a status code. -/
inductive Reply where
  | served (setCookie : Option httpCookie) (handler : namedHandler)
  | error (message : String) (code : Nat)
deriving DecidableEq

/-- The sticky branch of `Balancer.ServeHTTP`: the reply when the request's
sticky cookie resolves to a healthy handler, `none` when control falls through
to `nextServer`. -/
def stickyDispatch (b : Balancer) (req : Request) : Option Reply :=
  match b.sticky with
  | none => none
  | some s =>
    match req.Cookie s.stickyCookie.name with
    | none => none
    | some value =>
      match (s.stickyMap value).filter fun handler => handler.name ∈ b.status with
      | some handler => some (.served none handler)
      | none =>
        match (s.compatibilityStickyMap value).filter fun handler => handler.name ∈ b.status with
        | some handler => some (.served (some (writeStickyCookie s.stickyCookie handler)) handler)
        | none => none

/-- `Balancer.ServeHTTP`, the loop of `nextServer` run for at most `fuel` iterations. -/
def ServeHTTP (fuel : Nat) (b : Balancer) (req : Request) : Res (Reply × Balancer) :=
  match stickyDispatch b req with
  | some reply => .done (reply, b)
  | none =>
    match nextServer fuel b with
    | .running => .running
    | .panicked => .panicked
    | .done (.error err, b1) =>
      if err = errNoAvailableServer then .done (.error errNoAvailableServer 503, b1)
      else .done (.error err 500, b1)
    | .done (.ok server, b1) =>
      match b1.sticky with
      | some s => .done (.served (some (writeStickyCookie s.stickyCookie server)) server, b1)
      | none => .done (.served none server, b1)

/-! ## Specification vocabulary -/

/-- Invariant I5, the min-heap property on `deadline`: every non-root index is
no earlier than its parent `(i - 1) / 2`. -/
def IsHeap (hs : List namedHandler) : Prop :=
  ∀ i, 0 < i → i < hs.length → key hs ((i - 1) / 2) ≤ key hs i

/-- The heap property on the first `n` slots. -/
def IsHeapBelow (hs : List namedHandler) (n : Nat) : Prop :=
  ∀ k, 0 < k → k < n → key hs ((k - 1) / 2) ≤ key hs k

/-- The heap property everywhere except between `j` and its parent, with the
children of `j` no earlier than the parent of `j`: the loop invariant of `heap.up`. -/
def HeapExceptUp (hs : List namedHandler) (j : Nat) : Prop :=
  (∀ k, 0 < k → k < hs.length → k ≠ j → key hs ((k - 1) / 2) ≤ key hs k) ∧
  (∀ k, 0 < k → k < hs.length → (k - 1) / 2 = j → 0 < j → key hs ((j - 1) / 2) ≤ key hs k)

/-- The heap property on the first `n` slots except between `i` and its
children, with the children of `i` no earlier than the parent of `i`: the loop
invariant of `heap.down`. -/
def HeapExceptDown (hs : List namedHandler) (n i : Nat) : Prop :=
  (∀ k, 0 < k → k < n → (k - 1) / 2 ≠ i → key hs ((k - 1) / 2) ≤ key hs k) ∧
  (∀ k, 0 < k → k < n → (k - 1) / 2 = i → 0 < i → key hs ((i - 1) / 2) ≤ key hs k)

/-- The fields of a handler that are never written after `Add`: all but `deadline`. -/
def namedHandler.fixed (h : namedHandler) : Nat × String × String × ℚ :=
  (h.Handler, h.name, h.hashedName, h.weight)

/-- The handler with its deadline advanced by `1 / weight`. -/
def namedHandler.advance (h : namedHandler) : namedHandler :=
  { h with deadline := h.deadline + 1 / h.weight }

/-- The states a balancer can be in: those `New` returns, and those left by
`Add`, `SetStatus` and a returning `nextServer` from such a state. -/
inductive Reachable : Balancer → Prop where
  | new (sticky : Option Sticky) (wantHealthCheck : Bool) : Reachable (New sticky wantHealthCheck)
  | add {b : Balancer} (name : String) (handler : Nat) (weight : Option Int) (fenced : Bool) :
      Reachable b → Reachable (Add b name handler weight fenced)
  | setStatus {b : Balancer} (childName : String) (up : Bool) :
      Reachable b → Reachable (SetStatus b childName up).1
  | nextServer {b b1 : Balancer} (fuel : Nat) (r : Except String namedHandler) :
      Reachable b → nextServer fuel b = .done (r, b1) → Reachable b1

/-- Every handler has a positive weight, and `curDeadline` lies between the
deadline a handler had before its last advance and its present deadline. -/
def DeadlineInv (b : Balancer) : Prop :=
  ∀ h ∈ b.handlers,
    0 < h.weight ∧ h.deadline - 1 / h.weight ≤ b.curDeadline ∧ b.curDeadline ≤ h.deadline

/-- The relation between the balancer before and after some iterations of the
selection loop: only `handlers` and `curDeadline` change, the handlers are the
same up to order and deadlines, and the heap and deadline invariants carry over. -/
structure Rotated (b b1 : Balancer) : Prop where
  status : b1.status = b.status
  fenced : b1.fenced = b.fenced
  updaters : b1.updaters = b.updaters
  wantsHealthCheck : b1.wantsHealthCheck = b.wantsHealthCheck
  sticky : b1.sticky = b.sticky
  fixed : (b1.handlers.map namedHandler.fixed).Perm (b.handlers.map namedHandler.fixed)
  heap : IsHeap b.handlers → IsHeap b1.handlers
  deadline : IsHeap b.handlers → DeadlineInv b → DeadlineInv b1 ∧ b.curDeadline ≤ b1.curDeadline

/-- The handler `Add` allocates when the effective weight is positive. -/
def addedHandler (b : Balancer) (name : String) (handler : Nat) (weight : Option Int) :
    namedHandler :=
  { Handler := handler, name := name,
    hashedName := if b.sticky.isSome then sha256Hash name else "",
    weight := (effectiveWeight weight : ℚ),
    deadline := b.curDeadline + 1 / (effectiveWeight weight : ℚ) }

/-- The reachable states when `SetStatus` is only ever told that a child is up
under the name of a handler added before. -/
inductive ReachableKnown : Balancer → Prop where
  | new (sticky : Option Sticky) (wantHealthCheck : Bool) :
      ReachableKnown (New sticky wantHealthCheck)
  | add {b : Balancer} (name : String) (handler : Nat) (weight : Option Int) (fenced : Bool) :
      ReachableKnown b → ReachableKnown (Add b name handler weight fenced)
  | setStatus {b : Balancer} (childName : String) (up : Bool) :
      ReachableKnown b → (up = true → ∃ h ∈ b.handlers, h.name = childName) →
      ReachableKnown (SetStatus b childName up).1
  | nextServer {b b1 : Balancer} (fuel : Nat) (r : Except String namedHandler) :
      ReachableKnown b → nextServer fuel b = .done (r, b1) → ReachableKnown b1

/-- `ServeHTTP` returned after calling the `ServeHTTP` of handler `h`: of the
very `namedHandler` that `h` is, whatever its deadline. -/
def DispatchedTo (r : Res (Reply × Balancer)) (h : namedHandler) : Prop :=
  ∃ c g b1, r = .done (.served c g, b1) ∧ g.fixed = h.fixed

/-- A balancer seeded by `Add`: one call per backend `(name, handler, weight)`,
in order, none fenced. -/
def seed (b : Balancer) : List (String × Nat × Int) → Balancer
  | [] => b
  | s :: rest => seed (Add b s.1 s.2.1 (some s.2.2) false) rest

/-- `K` consecutive `nextServer` calls, each with `fuel` iterations at its
disposal: the handlers returned, in order, and the balancer left. -/
def picks (fuel : Nat) : Nat → Balancer → Res (List namedHandler × Balancer)
  | 0, b => .done ([], b)
  | K + 1, b =>
    match nextServer fuel b with
    | .running => .running
    | .panicked => .panicked
    | .done (r, b1) =>
      match picks fuel K b1 with
      | .running => .running
      | .panicked => .panicked
      | .done (tr, b2) => .done ((match r with | .ok h => [h] | .error _ => []) ++ tr, b2)

/-- The number of times the backend called `name` occurs among the handlers returned. -/
def timesReturned (name : String) (tr : List namedHandler) : Nat :=
  (tr.map fun h => h.name).count name

/-- The balancer holds exactly the backends of `seeds`, all healthy and none
fenced, and the backend called `n` has been returned `cnt n` times: its
deadline is `(cnt n + 1) / weight`. -/
structure Scheduled (seeds : List (String × Nat × Int)) (cnt : String → Nat) (b : Balancer) :
    Prop where
  reachable : Reachable b
  handlers : (b.handlers.map fun h => (h.name, h.weight, h.deadline)).Perm
    (seeds.map fun s => (s.1, (s.2.2 : ℚ), ((cnt s.1 : ℚ) + 1) / (s.2.2 : ℚ)))
  healthy : ∀ s ∈ seeds, s.1 ∈ b.status
  fenced : b.fenced = ∅

/-! ## Concrete balancers -/

/-- A balancer without stickiness and three backends: `a` of weight 2, `b` of
weight 1 (nil pointer), and `c` of weight 3, fenced. -/
def threeBackends : Balancer :=
  Add (Add (Add (New none true) "a" 0 (some 2) false) "b" 1 none false) "c" 2 (some 3) true

/-- The handler the first `nextServer` on `threeBackends` returns. -/
def firstPick : namedHandler :=
  match nextServer 2 threeBackends with
  | .done (.ok h, _) => h
  | _ => default

/-- The balancer the first `nextServer` on `threeBackends` leaves. -/
def afterFirstPick : Balancer :=
  match nextServer 2 threeBackends with
  | .done (_, b) => b
  | _ => threeBackends

/-- Two backends, `a` fenced and `b` not, after `b` has been reported down. -/
def fencedAndDown : Balancer :=
  (SetStatus (Add (Add (New none false) "a" 0 none true) "b" 1 none false) "b" false).1

/-- The sticky configuration of the examples: a cookie named `lb`. -/
def lbSticky : Sticky :=
  { Cookie := some { Name := "lb", Secure := false, HTTPOnly := false, SameSite := "",
                     MaxAge := 0, Path := none, Domain := "" } }

/-- A sticky balancer to which the name `a` was added twice, with handlers 0 and 1. -/
def sameNameTwice : Balancer :=
  Add (Add (New (some lbSticky) false) "a" 0 none false) "a" 1 none false

/-- The `namedHandler` of the first `Add` to `sameNameTwice`. -/
def firstA : namedHandler :=
  { Handler := 0, name := "a", hashedName := sha256Hash "a", weight := 1, deadline := 1 }

/-- A sticky balancer with backends `a` and `b`. -/
def stickyPair : Balancer :=
  Add (Add (New (some lbSticky) false) "a" 0 none false) "b" 1 none false

/-- The sticky state of `stickyPair`. -/
def stickyPairState : stickyState :=
  match stickyPair.sticky with
  | some s => s
  | none => { stickyCookie := default, stickyMap := fun _ => none,
              compatibilityStickyMap := fun _ => none }

/-- Four backends: `a` of weight 4, and `b`, `c`, `d` of weight 1. -/
def fourSeeds : List (String × Nat × Int) :=
  [("a", 0, 4), ("b", 1, 1), ("c", 2, 1), ("d", 3, 1)]

/-- The handlers returned by the first three `nextServer` calls on `fourSeeds`. -/
def threePicks : List namedHandler :=
  match picks 1 3 (seed (New none false) fourSeeds) with
  | .done (tr, _) => tr
  | _ => []

/-- The balancer left by the first three `nextServer` calls on `fourSeeds`. -/
def afterThreePicks : Balancer :=
  match picks 1 3 (seed (New none false) fourSeeds) with
  | .done (_, b) => b
  | _ => New none false

/-- The states of a balancer that `New` created with the given
`wantHealthCheck`: those `New` returns, and those left by `Add`, `SetStatus`,
a returning `nextServer` and `RegisterStatusUpdater`. -/
inductive CreatedWith (wantHealthCheck : Bool) : Balancer → Prop where
  | new (sticky : Option Sticky) : CreatedWith wantHealthCheck (New sticky wantHealthCheck)
  | add {b : Balancer} (name : String) (handler : Nat) (weight : Option Int) (fenced : Bool) :
      CreatedWith wantHealthCheck b → CreatedWith wantHealthCheck (Add b name handler weight fenced)
  | setStatus {b : Balancer} (childName : String) (up : Bool) :
      CreatedWith wantHealthCheck b → CreatedWith wantHealthCheck (SetStatus b childName up).1
  | nextServer {b b1 : Balancer} (fuel : Nat) (r : Except String namedHandler) :
      CreatedWith wantHealthCheck b → nextServer fuel b = .done (r, b1) →
      CreatedWith wantHealthCheck b1
  | registerStatusUpdater {b : Balancer} (fn : Nat) :
      CreatedWith wantHealthCheck b → CreatedWith wantHealthCheck (RegisterStatusUpdater b fn).1

/-- The lower-case hexadecimal digits. -/
def isLowerHex (c : Char) : Bool :=
  ('0' ≤ c ∧ c ≤ '9') ∨ ('a' ≤ c ∧ c ≤ 'f')

/-- A sticky balancer whose only backend `a` is fenced. -/
def stickyFenced : Balancer :=
  Add (New (some lbSticky) false) "a" 0 none true

/-- The sticky state of `stickyFenced`. -/
def stickyFencedState : stickyState :=
  match stickyFenced.sticky with
  | some s => s
  | none => { stickyCookie := default, stickyMap := fun _ => none,
              compatibilityStickyMap := fun _ => none }

/-- A balancer with health checking and two registered updaters, 5 and 8. -/
def twoUpdaters : Balancer :=
  (RegisterStatusUpdater (RegisterStatusUpdater (New none true) 5).1 8).1

/-- The sum of the weights of the backends of `seeds`: the length of one cycle. -/
def totalWeight (seeds : List (String × Nat × Int)) : Nat :=
  (seeds.map fun s => s.2.2.toNat).sum

/-- Three backends of weights 2, 1 and 3. -/
def threeSeeds : List (String × Nat × Int) :=
  [("a", 0, 2), ("b", 1, 1), ("c", 2, 3)]

/-- A balancer with the backends `a` of weight 2 and `b` of weight 1, healthy
and not fenced, after two picks. -/
def twoHealthy : Balancer :=
  match picks 1 2 (seed (New none false) [("a", 0, 2), ("b", 1, 1)]) with
  | .done (_, b) => b
  | _ => New none false

/-! ## `float64` arithmetic

Go computes weights and deadlines in `float64`.  A finite `float64` is a
rational number, and the result of an operation is the exact result rounded to
the nearest `float64`, a tie going to the one with the even significand
(IEEE 754 binary64, the only rounding Go uses).  The definitions above read the
arithmetic as exact; the namespace `float64` repeats, with this rounding, the
operations of the balancer that compute with deadlines.

An exact result of magnitude `2 ^ 1024` or more, which Go rounds to an
infinity, does not arise: a Go `int` is below `2 ^ 63`, and no deadline passes
`2 ^ 53`, where adding a number up to 1 no longer changes a `float64`. -/

namespace float64

/-- The power `2 ^ k` for an integer `k`. -/
def pow2 (k : ℤ) : ℚ :=
  if 0 ≤ k then ((2 ^ k.toNat : ℕ) : ℚ) else 1 / ((2 ^ (-k).toNat : ℕ) : ℚ)

/-- The number of binary digits of `n`, at most `fuel` of them. -/
def bitLength : Nat → Nat → Nat
  | 0, _ => 0
  | fuel + 1, n => if n = 0 then 0 else bitLength fuel (n / 2) + 1

/-- The binary exponent of a positive rational `x`: the integer `e` with
`2 ^ e ≤ x < 2 ^ (e + 1)`.  The difference `k` of the digit counts of numerator
and denominator is `e` or `e + 1`. -/
def exponent (x : ℚ) : ℤ :=
  let k : ℤ := (bitLength x.num.natAbs x.num.natAbs : ℤ) - (bitLength x.den x.den : ℤ)
  if pow2 k ≤ x then k else k - 1

/-- The integer nearest to `m`, the even one of the two when `m` is halfway. -/
def roundHalfEven (m : ℚ) : ℤ :=
  let f := ⌊m⌋
  if m - f < 1 / 2 then f
  else if 1 / 2 < m - f then f + 1
  else if f % 2 = 0 then f else f + 1

/-- The `float64` nearest to a positive rational `x`: 53 significant bits from
the binary exponent of `x` down, the exponent being at least `-1022`. -/
def roundPos (x : ℚ) : ℚ :=
  let e := max (exponent x) (-1022)
  let ulp := pow2 (e - 52)
  (roundHalfEven (x / ulp) : ℚ) * ulp

/-- The `float64` nearest to `x`, ties to even. -/
def round (x : ℚ) : ℚ :=
  if x = 0 then 0 else if x < 0 then - roundPos (- x) else roundPos x

/-- The conversion `float64(w)` of an `int`. -/
def ofInt (w : ℤ) : ℚ := round (w : ℚ)

/-- The `float64` sum `x + y`. -/
def add (x y : ℚ) : ℚ := round (x + y)

/-- The `float64` quotient `x / y`, for `y` other than 0. -/
def div (x y : ℚ) : ℚ := round (x / y)

/-- The statement `handler.deadline += 1 / handler.weight` of `nextServer`. -/
def advance (h : namedHandler) : namedHandler :=
  { h with deadline := add h.deadline (div 1 h.weight) }

/-- One iteration of the `for` loop of `Balancer.nextServer`, up to the test of
the handler, in `float64`: pop the handler with the closest deadline, set
`curDeadline` to its deadline, add `1 / weight` to its deadline, push it back.
`none` when `heap.Pop` panics on an empty slice. -/
def rotate (b : Balancer) : Option (namedHandler × Balancer) :=
  match heapPop b.handlers with
  | none => none
  | some (handler, hs) =>
    let handler1 := { handler with deadline := add handler.deadline (div 1 handler.weight) }
    some (handler1, { b with curDeadline := handler.deadline, handlers := heapPush hs handler1 })

/-- The `for` loop of `Balancer.nextServer` in `float64`; every iteration
consumes one unit of `fuel`. -/
def nextServerLoop : Nat → Balancer → Res (namedHandler × Balancer)
  | 0, _ => .running
  | fuel + 1, b =>
    match rotate b with
    | none => .panicked
    | some (handler, b1) =>
      if handler.name ∈ b1.status ∧ handler.name ∉ b1.fenced then .done (handler, b1)
      else nextServerLoop fuel b1

/-- `Balancer.nextServer` in `float64`, its loop run for at most `fuel` iterations. -/
def nextServer (fuel : Nat) (b : Balancer) : Res (Except String namedHandler × Balancer) :=
  if b.handlers.length = 0 ∨ b.status.card = 0 ∨ b.fenced.card = b.handlers.length then
    .done (.error errNoAvailableServer, b)
  else
    match nextServerLoop fuel b with
    | .running => .running
    | .panicked => .panicked
    | .done (handler, b1) => .done (.ok handler, b1)

/-- `Balancer.Add` in `float64`: the weight is `float64(w)` and the deadline
the `float64` sum `b.curDeadline + 1 / weight`.  The handler is pushed by
pointer before `hashedName` is written, so the slice sees the hashed name; here
it is set before the push. -/
def Add (b : Balancer) (name : String) (handler : Nat) (weight : Option Int) (fenced : Bool) :
    Balancer :=
  let w := effectiveWeight weight
  if w ≤ 0 then b -- non-positive weight is meaningless
  else
    let weight : ℚ := ofInt w
    let deadline := add b.curDeadline (div 1 weight)
    let status := insert name b.status
    let fenced := if fenced then insert name b.fenced else b.fenced
    match b.sticky with
    | none =>
      let h : namedHandler :=
        { Handler := handler, name := name, hashedName := "", weight := weight,
          deadline := deadline }
      { b with handlers := heapPush b.handlers h, status := status, fenced := fenced }
    | some s =>
      let sha256HashedName := sha256Hash name
      let h : namedHandler :=
        { Handler := handler, name := name, hashedName := sha256HashedName, weight := weight,
          deadline := deadline }
      let stickyMap := Function.update s.stickyMap sha256HashedName (some h)
      let compat := Function.update s.compatibilityStickyMap name (some h)
      let hashedName := fnvHash name
      let compat := Function.update compat hashedName (some h)
      let hashedName := fnvHash hashedName
      let compat := Function.update compat hashedName (some h)
      { b with
        handlers := heapPush b.handlers h, status := status, fenced := fenced
        sticky := some { s with stickyMap := stickyMap, compatibilityStickyMap := compat } }

/-- The handler `Add` allocates in `float64` when the effective weight is positive. -/
def addedHandler (b : Balancer) (name : String) (handler : Nat) (weight : Option Int) :
    namedHandler :=
  { Handler := handler, name := name,
    hashedName := if b.sticky.isSome then sha256Hash name else "",
    weight := ofInt (effectiveWeight weight),
    deadline := add b.curDeadline (div 1 (ofInt (effectiveWeight weight))) }

/-- The states a balancer computing in `float64` can be in: those `New`
returns, and those left by `Add`, `SetStatus` and a returning `nextServer` from
such a state. -/
inductive Reachable : Balancer → Prop where
  | new (sticky : Option Sticky) (wantHealthCheck : Bool) : Reachable (New sticky wantHealthCheck)
  | add {b : Balancer} (name : String) (handler : Nat) (weight : Option Int) (fenced : Bool) :
      Reachable b → Reachable (Add b name handler weight fenced)
  | setStatus {b : Balancer} (childName : String) (up : Bool) :
      Reachable b → Reachable (SetStatus b childName up).1
  | nextServer {b b1 : Balancer} (fuel : Nat) (r : Except String namedHandler) :
      Reachable b → nextServer fuel b = .done (r, b1) → Reachable b1

/-- The deadlines of a balancer are sound `float64` values: `curDeadline` and
every deadline are `float64` numbers between 0 and `2 ^ 53`, no deadline is
before `curDeadline`, and every weight is at least 1. -/
def Sound (b : Balancer) : Prop :=
  0 ≤ b.curDeadline ∧ b.curDeadline ≤ 9007199254740992 ∧ round b.curDeadline = b.curDeadline ∧
  ∀ h ∈ b.handlers,
    1 ≤ h.weight ∧ b.curDeadline ≤ h.deadline ∧ h.deadline ≤ 9007199254740992 ∧
      round h.deadline = h.deadline

/-- The relation between the balancer before and after some iterations of the
selection loop in `float64`: only `handlers` and `curDeadline` change, the
handlers are the same up to order and deadlines, and the heap property and the
soundness of the deadlines carry over. -/
structure Turned (b b1 : Balancer) : Prop where
  status : b1.status = b.status
  fenced : b1.fenced = b.fenced
  updaters : b1.updaters = b.updaters
  wantsHealthCheck : b1.wantsHealthCheck = b.wantsHealthCheck
  sticky : b1.sticky = b.sticky
  fixed : (b1.handlers.map namedHandler.fixed).Perm (b.handlers.map namedHandler.fixed)
  heap : IsHeap b.handlers → IsHeap b1.handlers
  sound : IsHeap b.handlers → Sound b → Sound b1 ∧ b.curDeadline ≤ b1.curDeadline

/-- A balancer seeded by `Add` in `float64`: one call per backend
`(name, handler, weight)`, in order, none fenced. -/
def seed (b : Balancer) : List (String × Nat × Int) → Balancer
  | [] => b
  | s :: rest => seed (Add b s.1 s.2.1 (some s.2.2) false) rest

/-- `K` consecutive `nextServer` calls in `float64`, each with `fuel`
iterations at its disposal: the handlers returned, in order, and the balancer
left. -/
def picks (fuel : Nat) : Nat → Balancer → Res (List namedHandler × Balancer)
  | 0, b => .done ([], b)
  | K + 1, b =>
    match nextServer fuel b with
    | .running => .running
    | .panicked => .panicked
    | .done (r, b1) =>
      match picks fuel K b1 with
      | .running => .running
      | .panicked => .panicked
      | .done (tr, b2) => .done ((match r with | .ok h => [h] | .error _ => []) ++ tr, b2)

/-- One backend `a` of weight 3. -/
def oneThird : Balancer :=
  Add (New none false) "a" 0 (some 3) false

/-- The balancer `oneThird` leaves after one `nextServer` call. -/
def afterOneThird : Balancer :=
  match nextServer 1 oneThird with
  | .done (_, b) => b
  | _ => oneThird

/-- One backend `a` of weight 1 (nil pointer), after one pick: `curDeadline` is 1. -/
def afterUnitPick : Balancer :=
  match nextServer 1 (Add (New none false) "a" 0 none false) with
  | .done (_, b) => b
  | _ => New none false

/-- The backend `c` of weight `2 ^ 53` added to `afterUnitPick`: both healthy,
none fenced. -/
def stalled : Balancer :=
  Add afterUnitPick "c" 1 (some 9007199254740992) false

/-- The handler `c` as `Add` stored it in `stalled`. -/
def stalledRoot : namedHandler :=
  { Handler := 1, name := "c", hashedName := "", weight := 9007199254740992, deadline := 1 }

/-- The balancer `stalled` leaves after one `nextServer` call. -/
def afterStalled : Balancer :=
  match nextServer 1 stalled with
  | .done (_, b) => b
  | _ => stalled

/-- Two backends: `a` of weight 10 and `b` of weight 1. -/
def tenAndOne : List (String × Nat × Int) :=
  [("a", 0, 10), ("b", 1, 1)]

end float64

end wrr

/-!
Error classifier and forwarder director (`pkg/proxy/httputil/proxy.go`)

Modelling conventions.

* A Go `error` is a tree: what `errors.Is` and `errors.As` can see of it is
  which value or type each node is and what its `Unwrap` returns.  Custom `Is`
  and `As` methods are not modelled.  The `nil` error is `none`.
* `url.ParseRequestURI` is a parameter of the director.
* An `http.Header` is a function from keys to value lists, `none` for an absent
  key; a nil slice is the empty list.
* Strings are sequences of characters.  The library functions that work on
  bytes are applied here to ASCII arguments only (`";"`, `"Upgrade"`,
  `"websocket"`), for which bytes and characters agree.
-/

namespace httputil

/-! ## Errors -/

/-- The two error values `ComputeStatusCode` compares with: `io.EOF` and
`context.Canceled`. -/
inductive Sentinel where
  | EOF
  | Canceled
deriving DecidableEq, Inhabited

/-- A Go error.  `unwrap` is what `Unwrap()` returns: nothing, one error
(`Unwrap() error`) or several (`Unwrap() []error`).  `netError` is a value of
a type that implements `net.Error`, with what its `Timeout()` returns. -/
inductive GoError where
  | sentinel (s : Sentinel) : GoError
  | plain (msg : String) : GoError
  | netError (timeout : Bool) (unwrap : List GoError) : GoError
  | wrap (msg : String) (unwrap : List GoError) : GoError

mutual
/-- The traversal of `errors.Is` from a non-nil error: the error itself, then
depth first what it unwraps to. -/
def isChain : GoError → Sentinel → Bool
  | .sentinel s, target => decide (s = target)
  | .plain _, _ => false
  | .netError _ unwrap, target => isChainAny unwrap target
  | .wrap _ unwrap, target => isChainAny unwrap target
/-- The loop of `errors.Is` over the errors of an `Unwrap`. -/
def isChainAny : List GoError → Sentinel → Bool
  | [], _ => false
  | e :: rest, target => isChain e target || isChainAny rest target
end

mutual
/-- The traversal of `errors.As` with a `net.Error` target from a non-nil error:
the `Timeout()` of the first error, depth first, that is a `net.Error`. -/
def asChain : GoError → Option Bool
  | .sentinel _ => none
  | .plain _ => none
  | .netError timeout _ => some timeout
  | .wrap _ unwrap => asChainAny unwrap
/-- The loop of `errors.As` over the errors of an `Unwrap`. -/
def asChainAny : List GoError → Option Bool
  | [] => none
  | e :: rest =>
    match asChain e with
    | some timeout => some timeout
    | none => asChainAny rest
end

/-- `errors.Is(err, target)`. -/
def errorsIs (err : Option GoError) (target : Sentinel) : Bool :=
  match err with
  | none => false
  | some e => isChain e target

/-- `errors.As(err, &netErr)`: `some (netErr.Timeout())` when it succeeds. -/
def errorsAs (err : Option GoError) : Option Bool :=
  match err with
  | none => none
  | some e => asChain e

/-- `http.StatusBadGateway`. -/
def StatusBadGateway : Nat := 502

/-- `http.StatusGatewayTimeout`. -/
def StatusGatewayTimeout : Nat := 504

/-- `http.StatusInternalServerError`. -/
def StatusInternalServerError : Nat := 500

/-- `StatusClientClosedRequest`. -/
def StatusClientClosedRequest : Nat := 499

/-- `ComputeStatusCode`. -/
def ComputeStatusCode (err : Option GoError) : Nat :=
  if errorsIs err .EOF then StatusBadGateway
  else if errorsIs err .Canceled then StatusClientClosedRequest
  else
    match errorsAs err with
    | some timeout => if timeout then StatusGatewayTimeout else StatusBadGateway
    | none => StatusInternalServerError

/-- The error is, or wraps at some depth, the given error value. -/
inductive Wraps : GoError → Sentinel → Prop where
  | self (s : Sentinel) : Wraps (.sentinel s) s
  | netError {timeout : Bool} {unwrap : List GoError} {e : GoError} {s : Sentinel} :
      e ∈ unwrap → Wraps e s → Wraps (.netError timeout unwrap) s
  | wrap {msg : String} {unwrap : List GoError} {e : GoError} {s : Sentinel} :
      e ∈ unwrap → Wraps e s → Wraps (.wrap msg unwrap) s

/-- No error of the tree is a `net.Error`: neither the error itself nor
anything it unwraps to, at any depth. -/
inductive NoNetError : GoError → Prop where
  | sentinel (s : Sentinel) : NoNetError (.sentinel s)
  | plain (msg : String) : NoNetError (.plain msg)
  | wrap {msg : String} {unwrap : List GoError} :
      (∀ e ∈ unwrap, NoNetError e) → NoNetError (.wrap msg unwrap)

/-- The error exposes a `net.Error` whose `Timeout()` returns `timeout`: the
error is that `net.Error` itself, or it is of another type and one of the
errors it unwraps to exposes it, those listed before that one holding no
`net.Error` at all. -/
inductive Exposes : GoError → Bool → Prop where
  | self {timeout : Bool} {unwrap : List GoError} : Exposes (.netError timeout unwrap) timeout
  | wrap {msg : String} {before after : List GoError} {e : GoError} {timeout : Bool} :
      (∀ x ∈ before, NoNetError x) → Exposes e timeout →
      Exposes (.wrap msg (before ++ e :: after)) timeout

/-! ## Requests -/

/-- The fields of `url.URL` the director reads or writes, and `Fragment` as one
it leaves alone. -/
structure URL where
  Scheme : String
  Host : String
  Path : String
  RawPath : String
  RawQuery : String
  Fragment : String
deriving DecidableEq, Inhabited

/-- `http.Header`. -/
abbrev Header := String → Option (List String)

/-- The fields of `http.Request` the director reads or writes. -/
structure Request where
  URL : URL
  RequestURI : String
  Proto : String
  ProtoMajor : Nat
  ProtoMinor : Nat
  Host : String
  Header : Header

/-- The map read `h[key]`: the nil slice for an absent key. -/
def Header.values (h : Header) (key : String) : List String :=
  match h key with
  | some vs => vs
  | none => []

/-- `Header.Get` for a key in canonical form: the first value, or `""`. -/
def Header.Get (h : Header) (key : String) : String :=
  match Header.values h key with
  | v :: _ => v
  | [] => ""

/-! ## `httpguts` and `strings` -/

/-- `lowerASCII` of `httpguts`. -/
def lowerASCII (b : Char) : Char :=
  if 'A' ≤ b ∧ b ≤ 'Z' then Char.ofNat (b.toNat + 32) else b

/-- `tokenEqual` of `httpguts`, for an ASCII `t2`. -/
def tokenEqual (t1 t2 : List Char) : Bool :=
  t1.length = t2.length ∧
    (t1.zip t2).all fun p => decide (p.1.toNat < 128) && decide (lowerASCII p.1 = lowerASCII p.2)

/-- `trimOWS` of `httpguts`: without leading and trailing spaces and tabs. -/
def trimOWS (x : List Char) : List Char :=
  ((x.dropWhile fun c => c = ' ' ∨ c = '\t').reverse.dropWhile fun c => c = ' ' ∨ c = '\t').reverse

/-- The pieces of a header value between its commas. -/
def splitComma : List Char → List (List Char)
  | [] => [[]]
  | c :: cs =>
    match splitComma cs with
    | [] => [[]]
    | p :: ps => if c = ',' then [] :: p :: ps else (c :: p) :: ps

/-- `headerValueContainsToken` of `httpguts`. -/
def headerValueContainsToken (v : String) (token : String) : Bool :=
  (splitComma v.data).any fun piece => tokenEqual (trimOWS piece) token.data

/-- `httpguts.HeaderValuesContainsToken`. -/
def HeaderValuesContainsToken (values : List String) (token : String) : Bool :=
  values.any fun v => headerValueContainsToken v token

/-- One step of `strings.EqualFold` when `t` is ASCII: the characters are equal,
or differ by ASCII case, or `s` is the Kelvin sign against `k`, or the long s
against `s` (the only other characters that fold to an ASCII letter). -/
def foldEq (s t : Char) : Bool :=
  s = t ∨ lowerASCII s = lowerASCII t ∧ s.toNat < 128 ∧ ('a' ≤ lowerASCII t ∧ lowerASCII t ≤ 'z') ∨
    s.toNat = 0x212A ∧ lowerASCII t = 'k' ∨ s.toNat = 0x17F ∧ lowerASCII t = 's'

/-- `strings.EqualFold(s, t)` for an ASCII `t`. -/
def EqualFold (s t : String) : Bool :=
  s.data.length = t.data.length ∧ (s.data.zip t.data).all fun p => foldEq p.1 p.2

/-- `strings.ReplaceAll(s, old, new)` for one-byte `old` and `new`. -/
def ReplaceAll (s : String) (old new : Char) : String :=
  ⟨s.data.map fun c => if c = old then new else c⟩

/-! ## The director -/

/-- `isWebSocketUpgrade`. -/
def isWebSocketUpgrade (req : Request) : Bool :=
  HeaderValuesContainsToken (Header.values req.Header "Connection") "Upgrade" &&
    EqualFold (Header.Get req.Header "Upgrade") "websocket"

/-- The two statements `req.Header[canonical] = req.Header[wire]` and
`delete(req.Header, wire)`. -/
def moveHeader (h : Header) (canonical wire : String) : Header :=
  Function.update (Function.update h canonical (some (Header.values h wire))) wire none

/-- `cleanWebSocketHeaders`. -/
def cleanWebSocketHeaders (req : Request) : Request :=
  if ¬ isWebSocketUpgrade req then req
  else
    let h := moveHeader req.Header "Sec-WebSocket-Key" "Sec-Websocket-Key"
    let h := moveHeader h "Sec-WebSocket-Extensions" "Sec-Websocket-Extensions"
    let h := moveHeader h "Sec-WebSocket-Accept" "Sec-Websocket-Accept"
    let h := moveHeader h "Sec-WebSocket-Protocol" "Sec-Websocket-Protocol"
    let h := moveHeader h "Sec-WebSocket-Version" "Sec-Websocket-Version"
    { req with Header := h }

/-- The function `directorBuilder` returns, applied to `outReq`.  When
`ParseRequestURI` fails or `RequestURI` is empty, `u` is the request's own URL
(the same pointer), with `Scheme` and `Host` already set. -/
def directorBuilder (ParseRequestURI : String → Option URL) (target : URL)
    (passHostHeader : Bool) (outReq : Request) : Request :=
  let url0 : URL := { outReq.URL with Scheme := target.Scheme, Host := target.Host }
  let u : URL :=
    if outReq.RequestURI ≠ "" then
      match ParseRequestURI outReq.RequestURI with
      | some parsedURL => parsedURL
      | none => url0
    else url0
  let url1 : URL :=
    { url0 with Path := u.Path, RawPath := u.RawPath, RawQuery := ReplaceAll u.RawQuery ';' '&' }
  let r : Request :=
    { outReq with URL := url1, RequestURI := "", Proto := "HTTP/1.1", ProtoMajor := 1,
                  ProtoMinor := 1 }
  -- Do not pass client Host header unless optsetter PassHostHeader is set.
  let r : Request := if ¬ passHostHeader then { r with Host := r.URL.Host } else r
  cleanWebSocketHeaders r

/-- The raw query the director starts from: that of the parsed `RequestURI`
when it is not empty and parses, that of the request's URL otherwise. -/
def sourceRawQuery (ParseRequestURI : String → Option URL) (outReq : Request) : String :=
  if outReq.RequestURI ≠ "" then
    match ParseRequestURI outReq.RequestURI with
    | some parsedURL => parsedURL.RawQuery
    | none => outReq.URL.RawQuery
  else outReq.URL.RawQuery

/-- The five header names `cleanWebSocketHeaders` repairs: the spelling it
writes, and the canonical MIME spelling the request arrives with. -/
def webSocketKeys : List (String × String) :=
  [("Sec-WebSocket-Key", "Sec-Websocket-Key"),
   ("Sec-WebSocket-Extensions", "Sec-Websocket-Extensions"),
   ("Sec-WebSocket-Accept", "Sec-Websocket-Accept"),
   ("Sec-WebSocket-Protocol", "Sec-Websocket-Protocol"),
   ("Sec-WebSocket-Version", "Sec-Websocket-Version")]

/-! ## Concrete requests -/

/-- A parser for the examples: the path up to the first `?`, the raw query after
it; only origin-form request URIs parse. -/
def parseOriginForm (uri : String) : Option URL :=
  if uri.data.head? = some '/' then
    some { Scheme := "", Host := "", Path := ⟨uri.data.takeWhile fun c => c ≠ '?'⟩,
           RawPath := "", RawQuery := ⟨(uri.data.dropWhile fun c => c ≠ '?').drop 1⟩,
           Fragment := "" }
  else none

/-- The target of the examples. -/
def backendURL : URL :=
  { Scheme := "http", Host := "10.0.0.7:8080", Path := "", RawPath := "", RawQuery := "",
    Fragment := "" }

/-- A WebSocket upgrade request as the server hands it over: header keys in
canonical MIME form. -/
def upgradeRequest : Request :=
  { URL := { Scheme := "", Host := "", Path := "/chat", RawPath := "", RawQuery := "a=1;b=2",
             Fragment := "" }
    RequestURI := "/chat?x=1;y=2;z"
    Proto := "HTTP/2.0", ProtoMajor := 2, ProtoMinor := 0
    Host := "example.com"
    Header := fun k =>
      if k = "Connection" then some ["keep-alive, Upgrade"]
      else if k = "Upgrade" then some ["WebSocket"]
      else if k = "Sec-Websocket-Key" then some ["dGhlIHNhbXBsZSBub25jZQ=="]
      else if k = "Sec-Websocket-Version" then some ["13"]
      else none }

/-- A WebSocket upgrade request whose key is already stored under
`Sec-WebSocket-Key`. -/
def repairedRequest : Request :=
  { upgradeRequest with
    Header := fun k =>
      if k = "Connection" then some ["Upgrade"]
      else if k = "Upgrade" then some ["websocket"]
      else if k = "Sec-WebSocket-Key" then some ["dGhlIHNhbXBsZSBub25jZQ=="]
      else none }

end httputil

/-!
Overview API: provider names (`pkg/api/handler_overview.go`)

Modelling conventions.

* `getProviders` walks a struct by reflection.  A `reflect.Value` is modelled
  as far as `Kind`, `Elem` and `IsNil` can see it, and the struct
  `static.Providers`, whose declaration is in another package, is any list of
  named fields, in declaration order.
* A nil slice is the empty list: `getProviders` never returns an empty slice
  that is not nil.
-/

namespace api

/-- `reflect.Kind`. -/
inductive Kind where
  | Invalid | Bool | Int | Int8 | Int16 | Int32 | Int64
  | Uint | Uint8 | Uint16 | Uint32 | Uint64 | Uintptr
  | Float32 | Float64 | Complex64 | Complex128
  | Array | Chan | Func | Interface | Map | Ptr | Slice | String | Struct | UnsafePointer
deriving DecidableEq, Inhabited

/-- A `reflect.Value`: the zero Value, a nil pointer, a pointer to a value, or
a value of a kind other than `Ptr`. -/
inductive Value where
  | zero : Value
  | nilPointer : Value
  | pointer (elem : Value) : Value
  | other (kind : Kind) : Value
deriving DecidableEq, Inhabited

/-- `reflect.Value.Kind`. -/
def Value.Kind : Value → Kind
  | .zero => .Invalid
  | .nilPointer => .Ptr
  | .pointer _ => .Ptr
  | .other kind => kind

/-- `reflect.Value.Elem` on a pointer: the zero Value when the pointer is nil. -/
def Value.Elem : Value → Value
  | .pointer v => v
  | _ => .zero

/-- `reflect.Value.IsNil` on a pointer. -/
def Value.IsNil : Value → Bool
  | .nilPointer => true
  | _ => false

/-- A field of a struct as reflection shows it: `v.Type().Field(i).Name` and
`v.Field(i)`. -/
structure StructField where
  Name : String
  Value : Value
deriving DecidableEq, Inhabited

/-- The part of `static.Configuration` read by `getProviders`: the pointer
`Providers`, `none` when nil, else the fields of the struct it points to. -/
structure Configuration where
  Providers : Option (List StructField)
deriving DecidableEq, Inhabited

/-- The `for` loop of `getProviders` from field `i` on, with the slice
`providers` built so far. -/
def getProvidersLoop : List StructField → List String → List String
  | [], providers => providers
  | field :: rest, providers =>
    if field.Value.Kind = Kind.Ptr ∧ field.Value.Elem.Kind = Kind.Struct then
      if ¬ field.Value.IsNil then getProvidersLoop rest (providers ++ [field.Name])
      else getProvidersLoop rest providers
    else getProvidersLoop rest providers

/-- `getProviders`. -/
def getProviders (conf : Configuration) : List String :=
  match conf.Providers with
  | none => []
  | some fields => getProvidersLoop fields []

/-- The field is a non-nil pointer to a struct. -/
def populated (field : StructField) : Bool :=
  match field.Value with
  | .pointer v => decide (v.Kind = Kind.Struct)
  | _ => false

/-- A `Providers` struct in the shape of the real one: a duration, then pointers
to provider configurations, of which `File` and `Rest` are set. -/
def someProviders : List StructField :=
  [{ Name := "ProvidersThrottleDuration", Value := .other .Int64 },
   { Name := "Docker", Value := .nilPointer },
   { Name := "File", Value := .pointer (.other .Struct) },
   { Name := "Marathon", Value := .nilPointer },
   { Name := "Rest", Value := .pointer (.other .Struct) }]

end api

/-!
Entry point: path sanitising (`pkg/server`)

`sanitizePath` is exercised by `TestSanitizePath` in
`server_entrypoint_tcp_test.go`; its body is in `server_entrypoint_tcp.go`,
which is not part of the sources read here.  The definitions of this section
follow the specification (§4.5) and are checked against every row of the test
table.
-/

namespace server

/-- Modelled from the spec: the body of `sanitizePath` is missing
(`server_entrypoint_tcp.go`).  The segments of a path: the pieces between its
`/` characters, empty pieces included. -/
def segments : List Char → List (List Char)
  | [] => [[]]
  | c :: cs =>
    if c = '/' then [] :: segments cs
    else
      match segments cs with
      | [] => [[c]]
      | seg :: rest => (c :: seg) :: rest

/-- Modelled from the spec: the body of `sanitizePath` is missing
(`server_entrypoint_tcp.go`).  Resolving segments left to right over the stack
of segments kept so far (innermost first): an empty segment and `.` are
dropped, `..` removes the segment before it, and at the root removes nothing. -/
def resolve : List (List Char) → List (List Char) → List (List Char)
  | stack, [] => stack.reverse
  | stack, seg :: rest =>
    if seg = [] ∨ seg = ['.'] then resolve stack rest
    else if seg = ['.', '.'] then resolve stack.tail rest
    else resolve (seg :: stack) rest

/-- Modelled from the spec: the body of `sanitizePath` is missing
(`server_entrypoint_tcp.go`).  A path written from its segments, each after a
`/`, with a closing `/` when `trailing`. -/
def render (segs : List (List Char)) (trailing : Bool) : List Char :=
  (segs.map fun seg => '/' :: seg).flatten ++ if trailing then ['/'] else []

/-- Modelled from the spec: the body of `sanitizePath` is missing
(`server_entrypoint_tcp.go`).  The path ends with a `/`. -/
def endsWithSlash (p : String) : Bool :=
  p.data.getLast? = some '/'

/-- Modelled from the spec: the body of `sanitizePath` is missing
(`server_entrypoint_tcp.go`).  The canonical form of a path (§4.5): `.`, `..`
and empty segments resolved, a trailing slash kept, and the root `/` when no
segment remains. -/
def canonicalPath (p : String) : String :=
  let segs := resolve [] (segments p.data)
  if segs = [] then "/" else ⟨render segs (endsWithSlash p)⟩

/-- The part of `*http.Request` that `sanitizePath` reads and rewrites. -/
structure Request where
  Method : String
  Path : String
  RawQuery : String
deriving DecidableEq, Inhabited

/-- Modelled from the spec: the body of `sanitizePath` is missing
(`server_entrypoint_tcp.go`).  The calls `sanitizePath(h)` makes to the
downstream handler `h` for a request: one, with the path made canonical. -/
def sanitizePath (req : Request) : List Request :=
  [{ req with Path := canonicalPath req.Path }]

/-- The rows of `TestSanitizePath`: the path requested and the path the
downstream handler is expected to see. -/
def sanitizePathTests : List (String × String) :=
  [("/b", "/b"), ("/b/", "/b/"), ("/../../b/", "/b/"), ("/../../b", "/b"),
   ("/a/b/..", "/a"), ("/a/b/../", "/a/"), ("/a/../../b", "/b"),
   ("/..///b///", "/b/"), ("/a/../b", "/b"), ("/a/./b", "/a/b"),
   ("/a//b", "/a/b"), ("/a/../../b", "/b"), ("/a/../c/../b", "/b"),
   ("/a/../../../c/../b", "/b"), ("/a/../c/../../b", "/b"),
   ("/a/..//c/.././b", "/b")]

/-- A segment of a canonical path: not empty, not `.`, not `..`, and without
a `/` inside. -/
def ProperSegment (seg : List Char) : Prop :=
  seg ≠ [] ∧ seg ≠ ['.'] ∧ seg ≠ ['.', '.'] ∧ '/' ∉ seg

/-- No two adjacent characters are both `/`. -/
def NoRepeatedSlash (p : String) : Prop :=
  List.Chain' (fun a b => ¬ (a = '/' ∧ b = '/')) p.data

end server

namespace wrr

/-! ## `container/heap`: permutation and heap property -/

theorem length_Swap (hs : List namedHandler) (i j : Nat) : (Swap hs i j).length = hs.length := by
  simp [Swap]

theorem getD_Swap (hs : List namedHandler) (i j k : Nat) (hi : i < hs.length) (hj : j < hs.length) :
    (Swap hs i j).getD k default =
      if k = j then hs.getD i default else if k = i then hs.getD j default else hs.getD k default := by
  simp only [Swap, List.getD_eq_getElem?_getD, List.getElem?_set, List.length_set]
  by_cases h1 : k = j
  · subst h1; simp [hj]
  · by_cases h2 : k = i
    · subst h2; simp [hi, Ne.symm h1, h1]
    · simp [h1, h2, Ne.symm h1, Ne.symm h2]

theorem key_Swap (hs : List namedHandler) (i j k : Nat) (hi : i < hs.length) (hj : j < hs.length) :
    key (Swap hs i j) k = if k = j then key hs i else if k = i then key hs j else key hs k := by
  unfold key
  rw [getD_Swap hs i j k hi hj]
  split_ifs <;> rfl

theorem Swap_perm (hs : List namedHandler) (i j : Nat) (hi : i < hs.length) (hj : j < hs.length) :
    (Swap hs i j).Perm hs := by
  rw [List.perm_iff_count]
  intro b
  have gi : hs.getD i default = hs[i] := by simp [List.getD_eq_getElem?_getD, hi]
  have gj : hs.getD j default = hs[j] := by simp [List.getD_eq_getElem?_getD, hj]
  have hj2 : j < (hs.set i hs[j]).length := by simpa using hj
  unfold Swap
  rw [gi, gj, List.count_set _ _ _ _ hj2, List.count_set _ _ _ _ hi]
  have ci : hs[i] = b → 0 < hs.count b := fun h =>
    List.count_pos_iff.mpr (h ▸ List.getElem_mem hi)
  have cj : hs[j] = b → 0 < hs.count b := fun h =>
    List.count_pos_iff.mpr (h ▸ List.getElem_mem hj)
  have e : (hs.set i hs[j])[j] = hs[j] := by
    by_cases hij : i = j
    · subst hij; simp
    · simp [List.getElem_set_ne hij]
  rw [e]
  by_cases h1 : hs[i] = b <;> by_cases h2 : hs[j] = b
  · have := ci h1; simp [h1, h2]; omega
  · have := ci h1; simp [h1, h2]; omega
  · have := cj h2; simp [h1, h2]
  · simp [h1, h2]

theorem upLoop_perm (fuel : Nat) : ∀ (hs : List namedHandler) (j : Nat), j < hs.length →
    (upLoop fuel hs j).Perm hs := by
  induction fuel with
  | zero => intro hs j _; exact List.Perm.refl _
  | succ f ih =>
    intro hs j hj
    simp only [upLoop]
    split_ifs with h
    · exact List.Perm.refl _
    · have hi : (j - 1) / 2 < hs.length := by omega
      exact (ih _ _ (by rw [length_Swap]; exact hi)).trans (Swap_perm hs _ _ hi hj)

theorem upLoop_heap (fuel : Nat) : ∀ (hs : List namedHandler) (j : Nat), j < fuel → j < hs.length →
    HeapExceptUp hs j → IsHeap (upLoop fuel hs j) := by
  induction fuel with
  | zero => intro hs j h; omega
  | succ f ih =>
    intro hs j hf hj ⟨h1, h2⟩
    simp only [upLoop]
    split_ifs with h
    · -- the loop exits: `j` is the root or its parent is no later
      intro k hk0 hkl
      by_cases hkj : k = j
      · subst hkj
        rcases h with h | h
        · omega
        · simpa [Less] using h
      · exact h1 k hk0 hkl hkj
    · -- the loop swaps `j` with its parent and goes on from the parent
      have hne : (j - 1) / 2 ≠ j := fun e => h (Or.inl e)
      have hlt : key hs j < key hs ((j - 1) / 2) := by
        by_contra hc
        exact h (Or.inr (by simpa [Less] using hc))
      have hi : (j - 1) / 2 < hs.length := by omega
      apply ih _ _ (by omega) (by rw [length_Swap]; exact hi)
      constructor
      · intro k hk0 hkl hki
        rw [length_Swap] at hkl
        rw [key_Swap hs _ _ _ hi hj, key_Swap hs _ _ _ hi hj]
        by_cases hkj : k = j
        · subst hkj
          simp only [if_true, if_neg hne]
          exact le_of_lt hlt
        · simp only [if_neg hkj, if_neg hki]
          by_cases hp : (k - 1) / 2 = j
          · simp only [if_pos hp]
            exact h2 k hk0 hkl hp (by omega)
          · simp only [if_neg hp]
            by_cases hp2 : (k - 1) / 2 = (j - 1) / 2
            · rw [if_pos hp2]
              have := h1 k hk0 hkl hkj
              rw [hp2] at this
              exact le_trans (le_of_lt hlt) this
            · rw [if_neg hp2]
              exact h1 k hk0 hkl hkj
      · intro k hk0 hkl hp hi0
        rw [length_Swap] at hkl
        rw [key_Swap hs _ _ _ hi hj, key_Swap hs _ _ _ hi hj]
        have e1 : ((j - 1) / 2 - 1) / 2 ≠ j := by omega
        have e2 : ((j - 1) / 2 - 1) / 2 ≠ (j - 1) / 2 := by omega
        have hk2 : k ≠ (j - 1) / 2 := by omega
        simp only [if_neg e1, if_neg e2, if_neg hk2]
        have hpi := h1 ((j - 1) / 2) hi0 hi hne
        by_cases hkj : k = j
        · simp only [if_pos hkj]
          exact hpi
        · simp only [if_neg hkj]
          have := h1 k hk0 hkl hkj
          rw [hp] at this
          exact le_trans hpi this

theorem downLoop_length (fuel : Nat) : ∀ (hs : List namedHandler) (i n : Nat),
    (downLoop fuel hs i n).length = hs.length := by
  induction fuel with
  | zero => intro hs i n; rfl
  | succ f ih =>
    intro hs i n
    simp only [downLoop]
    split_ifs <;> first | rfl | (rw [ih, length_Swap])

theorem downLoop_perm (fuel : Nat) : ∀ (hs : List namedHandler) (i n : Nat), i < n →
    n ≤ hs.length → (downLoop fuel hs i n).Perm hs := by
  induction fuel with
  | zero => intro hs i n _ _; exact List.Perm.refl _
  | succ f ih =>
    intro hs i n hi hn
    simp only [downLoop]
    split_ifs with h1 h2 h3 h4
    all_goals first
      | exact List.Perm.refl _
      | exact (ih _ _ _ (by omega) (by rw [length_Swap]; exact hn)).trans
          (Swap_perm hs _ _ (by omega) (by omega))

/-- Slots from `n` on are not touched by `heap.down`. -/
theorem downLoop_getD_ge (fuel : Nat) : ∀ (hs : List namedHandler) (i n k : Nat), i < n →
    n ≤ hs.length → n ≤ k → (downLoop fuel hs i n).getD k default = hs.getD k default := by
  induction fuel with
  | zero => intro hs i n k _ _ _; rfl
  | succ f ih =>
    intro hs i n k hi hn hk
    simp only [downLoop]
    split_ifs with h1 h2 h3 h4
    all_goals first
      | rfl
      | rw [ih _ _ _ _ (by omega) (by rw [length_Swap]; exact hn) hk,
          getD_Swap hs _ _ _ (by omega) (by omega), if_neg (by omega), if_neg (by omega)]

/-- One step of `heap.down`: after swapping `i` with its earliest child `j`,
the invariant holds at `j`. -/
theorem HeapExceptDown_Swap (hs : List namedHandler) (n i j : Nat) (hn : n ≤ hs.length)
    (hj : j < n) (hpj : (j - 1) / 2 = i) (hj0 : 0 < j)
    (hsib : ∀ k, 0 < k → k < n → (k - 1) / 2 = i → key hs j ≤ key hs k)
    (hlt : key hs j < key hs i) (h : HeapExceptDown hs n i) :
    HeapExceptDown (Swap hs i j) n j := by
  obtain ⟨h1, h2⟩ := h
  have hil : i < hs.length := by omega
  have hjl : j < hs.length := by omega
  have hij : i ≠ j := by omega
  constructor
  · intro k hk0 hkn hp
    rw [key_Swap hs _ _ _ hil hjl, key_Swap hs _ _ _ hil hjl]
    simp only [if_neg hp]
    by_cases hkj : k = j
    · subst hkj
      simp only [if_true, if_pos hpj]
      exact le_of_lt hlt
    · simp only [if_neg hkj]
      by_cases hki : k = i
      · subst hki
        have e : (k - 1) / 2 ≠ k := by omega
        simp only [if_true, if_neg e]
        exact h2 j hj0 hj hpj hk0
      · simp only [if_neg hki]
        by_cases hpi : (k - 1) / 2 = i
        · simp only [if_pos hpi]
          exact hsib k hk0 hkn hpi
        · simp only [if_neg hpi]
          exact h1 k hk0 hkn hpi
  · intro k hk0 hkn hp _
    rw [key_Swap hs _ _ _ hil hjl, key_Swap hs _ _ _ hil hjl]
    have e1 : (j - 1) / 2 ≠ j := by omega
    have e2 : k ≠ j := by omega
    have e3 : k ≠ i := by omega
    simp only [if_neg e1, if_pos hpj, if_neg e2, if_neg e3]
    have := h1 k hk0 hkn (by omega)
    rw [hp] at this
    exact this

theorem downLoop_heap (fuel : Nat) : ∀ (hs : List namedHandler) (i n : Nat), n ≤ fuel + i →
    n ≤ hs.length → HeapExceptDown hs n i → IsHeapBelow (downLoop fuel hs i n) n := by
  induction fuel with
  | zero =>
    intro hs i n hf _ ⟨h1, _⟩ k hk0 hkn
    exact h1 k hk0 hkn (by omega)
  | succ f ih =>
    intro hs i n hf hn h
    have h1 := h.1
    simp only [downLoop]
    by_cases hc : 2 * i + 1 ≥ n
    · rw [if_pos hc]
      intro k hk0 hkn
      exact h1 k hk0 hkn (by omega)
    · rw [if_neg hc]
      by_cases hr : 2 * i + 1 + 1 < n ∧ Less hs (2 * i + 1 + 1) (2 * i + 1) = true
      · -- the right child is the earlier one
        simp only [if_pos hr]
        have hrl : key hs (2 * i + 2) < key hs (2 * i + 1) := by simpa [Less] using hr.2
        have hsib : ∀ k, 0 < k → k < n → (k - 1) / 2 = i → key hs (2 * i + 1 + 1) ≤ key hs k := by
          intro k _ _ hp
          have : k = 2 * i + 1 ∨ k = 2 * i + 2 := by omega
          rcases this with e | e
          · rw [e]; exact le_of_lt hrl
          · rw [e]
        by_cases hl : Less hs (2 * i + 1 + 1) i = true
        · rw [if_neg (by simpa using hl)]
          have hlt : key hs (2 * i + 1 + 1) < key hs i := by simpa [Less] using hl
          exact ih _ _ _ (by omega) (by rw [length_Swap]; exact hn)
            (HeapExceptDown_Swap hs n i _ hn hr.1 (by omega) (by omega) hsib hlt h)
        · rw [if_pos (by simpa using hl)]
          have hge : key hs i ≤ key hs (2 * i + 1 + 1) := by simpa [Less] using hl
          intro k hk0 hkn
          by_cases hp : (k - 1) / 2 = i
          · rw [hp]; exact le_trans hge (hsib k hk0 hkn hp)
          · exact h1 k hk0 hkn hp
      · -- the left child is the earliest
        simp only [if_neg hr]
        have hsib : ∀ k, 0 < k → k < n → (k - 1) / 2 = i → key hs (2 * i + 1) ≤ key hs k := by
          intro k _ hkn hp
          have : k = 2 * i + 1 ∨ k = 2 * i + 2 := by omega
          rcases this with e | e
          · rw [e]
          · rw [e]
            by_contra hc2
            exact hr ⟨by omega, by simpa [Less] using hc2⟩
        by_cases hl : Less hs (2 * i + 1) i = true
        · rw [if_neg (by simpa using hl)]
          have hlt : key hs (2 * i + 1) < key hs i := by simpa [Less] using hl
          exact ih _ _ _ (by omega) (by rw [length_Swap]; exact hn)
            (HeapExceptDown_Swap hs n i _ hn (by omega) (by omega) (by omega) hsib hlt h)
        · rw [if_pos (by simpa using hl)]
          have hge : key hs i ≤ key hs (2 * i + 1) := by simpa [Less] using hl
          intro k hk0 hkn
          by_cases hp : (k - 1) / 2 = i
          · rw [hp]; exact le_trans hge (hsib k hk0 hkn hp)
          · exact h1 k hk0 hkn hp

/-- In a heap the root carries the earliest deadline. -/
theorem IsHeap_root_le (hs : List namedHandler) (h : IsHeap hs) :
    ∀ k, k < hs.length → key hs 0 ≤ key hs k := by
  intro k
  induction k using Nat.strong_induction_on with
  | _ k ih =>
    intro hk
    by_cases h0 : k = 0
    · rw [h0]
    · exact le_trans (ih ((k - 1) / 2) (by omega) (by omega)) (h k (by omega) hk)

/-! ### The bounded loops return before their budget is used up

More fuel never changes the result: the loops of `heap.up` and `heap.down`
leave through a `break` within `j + 1`, respectively `n - i`, iterations. -/

theorem upLoop_fuel (f1 : Nat) : ∀ (f2 : Nat) (hs : List namedHandler) (j : Nat),
    j < f1 → j < f2 → upLoop f1 hs j = upLoop f2 hs j := by
  induction f1 with
  | zero => intro f2 hs j h; omega
  | succ a ih =>
    intro f2 hs j h1 h2
    obtain ⟨c, rfl⟩ : ∃ c, f2 = c + 1 := ⟨f2 - 1, by omega⟩
    simp only [upLoop]
    split_ifs with h
    · rfl
    · have hne : (j - 1) / 2 ≠ j := fun e => h (Or.inl e)
      exact ih c _ _ (by omega) (by omega)

theorem downLoop_fuel (f1 : Nat) : ∀ (f2 : Nat) (hs : List namedHandler) (i n : Nat),
    n ≤ f1 + i → n ≤ f2 + i → downLoop f1 hs i n = downLoop f2 hs i n := by
  induction f1 with
  | zero =>
    intro f2 hs i n h1 _
    cases f2 with
    | zero => rfl
    | succ c =>
      simp only [downLoop]
      rw [if_pos (by omega)]
  | succ a ih =>
    intro f2 hs i n h1 h2
    cases f2 with
    | zero =>
      simp only [downLoop]
      rw [if_pos (by omega)]
    | succ c =>
      simp only [downLoop]
      split_ifs with h3 h4 h5 h6
      all_goals first
        | rfl
        | exact ih c _ _ _ (by omega) (by omega)

theorem heapPush_perm (hs : List namedHandler) (x : namedHandler) :
    (heapPush hs x).Perm (x :: hs) := by
  unfold heapPush up
  exact (upLoop_perm _ _ _ (by simp)).trans (List.perm_append_singleton x hs)

theorem heapPush_length (hs : List namedHandler) (x : namedHandler) :
    (heapPush hs x).length = hs.length + 1 := by
  rw [(heapPush_perm hs x).length_eq]; rfl

theorem key_append_lt (hs : List namedHandler) (x : namedHandler) (k : Nat) (hk : k < hs.length) :
    key (hs ++ [x]) k = key hs k := by
  simp [key, List.getD_eq_getElem?_getD, List.getElem?_append_left hk]

/-- `heap.Push` keeps the heap property. -/
theorem heapPush_heap (hs : List namedHandler) (x : namedHandler) (h : IsHeap hs) :
    IsHeap (heapPush hs x) := by
  unfold heapPush up
  apply upLoop_heap _ _ _ (by omega) (by simp)
  constructor
  · intro k hk0 hkl hne
    have hk : k < hs.length := by
      simp only [List.length_append, List.length_singleton] at hkl; omega
    rw [key_append_lt hs x k hk, key_append_lt hs x _ (by omega)]
    exact h k hk0 hk
  · intro k _ hkl hp _
    simp only [List.length_append, List.length_singleton] at hkl
    omega

theorem heapPop_nil : heapPop [] = none := by
  simp [heapPop, down, downLoop, Swap]

/-- `heap.Pop` on a non-empty slice returns the root and leaves the other
elements; it keeps the heap property. -/
theorem heapPop_spec (hs : List namedHandler) (hne : hs ≠ []) :
    ∃ h rest, heapPop hs = some (h, rest) ∧ h = hs.getD 0 default ∧ (h :: rest).Perm hs ∧
      (IsHeap hs → IsHeap rest) := by
  have hlen : 0 < hs.length := List.length_pos.mpr hne
  have h0 : 0 < hs.length := hlen
  have hn : hs.length - 1 < hs.length := by omega
  have hlen1 : (down (Swap hs 0 (hs.length - 1)) 0 (hs.length - 1)).length = hs.length := by
    unfold down; rw [downLoop_length, length_Swap]
  have hne1 : down (Swap hs 0 (hs.length - 1)) 0 (hs.length - 1) ≠ [] := by
    intro e; rw [e] at hlen1; simp at hlen1; omega
  have hsplit := List.dropLast_append_getLast hne1
  have hlast : (down (Swap hs 0 (hs.length - 1)) 0 (hs.length - 1)).getLast hne1
      = hs.getD 0 default := by
    have e1 : (down (Swap hs 0 (hs.length - 1)) 0 (hs.length - 1)).getLast hne1
        = (down (Swap hs 0 (hs.length - 1)) 0 (hs.length - 1)).getD (hs.length - 1) default := by
      rw [List.getLast_eq_getElem, List.getD_eq_getElem?_getD, List.getElem?_eq_getElem (by omega)]
      simp [hlen1]
    rw [e1]
    have e2 : (down (Swap hs 0 (hs.length - 1)) 0 (hs.length - 1)).getD (hs.length - 1) default
        = (Swap hs 0 (hs.length - 1)).getD (hs.length - 1) default := by
      unfold down
      by_cases hz : hs.length - 1 = 0
      · rw [hz]; rfl
      · exact downLoop_getD_ge _ _ _ _ _ (by omega) (by rw [length_Swap]; omega) (le_refl _)
    rw [e2, getD_Swap hs _ _ _ h0 hn, if_pos rfl]
  refine ⟨hs.getD 0 default, (down (Swap hs 0 (hs.length - 1)) 0 (hs.length - 1)).dropLast,
    ?_, rfl, ?_, ?_⟩
  · simp only [heapPop]
    rw [List.getLast?_eq_getLast _ hne1, hlast]
  · have hp : (down (Swap hs 0 (hs.length - 1)) 0 (hs.length - 1)).Perm hs := by
      unfold down
      by_cases hz : hs.length - 1 = 0
      · rw [hz]
        exact Swap_perm hs _ _ h0 h0
      · exact (downLoop_perm _ _ _ _ (by omega) (by rw [length_Swap]; omega)).trans
          (Swap_perm hs _ _ h0 hn)
    rw [← hlast]
    refine List.Perm.trans ?_ hp
    conv_rhs => rw [← hsplit]
    exact (List.perm_append_singleton _ _).symm
  · intro hh
    have hb : IsHeapBelow (down (Swap hs 0 (hs.length - 1)) 0 (hs.length - 1)) (hs.length - 1) := by
      unfold down
      apply downLoop_heap _ _ _ _ (by omega) (by rw [length_Swap]; omega)
      constructor
      · intro k hk0 hkn hp
        rw [key_Swap hs _ _ _ h0 hn, key_Swap hs _ _ _ h0 hn]
        rw [if_neg (by omega), if_neg (by omega), if_neg (by omega), if_neg (by omega)]
        exact hh k hk0 (by omega)
      · intro k _ _ _ hi; omega
    intro k hk0 hkl
    simp only [List.length_dropLast, hlen1] at hkl
    have hk : ∀ m, m < hs.length - 1 →
        key (down (Swap hs 0 (hs.length - 1)) 0 (hs.length - 1)).dropLast m
          = key (down (Swap hs 0 (hs.length - 1)) 0 (hs.length - 1)) m := by
      intro m hm
      conv_rhs => rw [← hsplit]
      rw [key_append_lt _ _ _ (by simp [hlen1]; exact hm)]
    rw [hk k hkl, hk _ (by omega)]
    exact hb k hk0 hkl

/-! ## One rotation of the selection loop -/

theorem rotate_nil (b : Balancer) (h : b.handlers = []) : rotate b = none := by
  simp [rotate, h, heapPop_nil]

/-- On a non-empty slice a rotation pops the root `h0`, and pushes it back advanced. -/
theorem rotate_spec (b : Balancer) (hne : b.handlers ≠ []) :
    ∃ rest, (b.handlers.getD 0 default :: rest).Perm b.handlers ∧
      (IsHeap b.handlers → IsHeap rest) ∧
      rotate b = some ((b.handlers.getD 0 default).advance,
        { b with curDeadline := (b.handlers.getD 0 default).deadline,
                 handlers := heapPush rest (b.handlers.getD 0 default).advance }) := by
  obtain ⟨h, rest, hpop, hh, hperm, hheap⟩ := heapPop_spec b.handlers hne
  subst hh
  exact ⟨rest, hperm, hheap, by simp [rotate, hpop, namedHandler.advance]⟩

theorem mem_key_root_le (hs : List namedHandler) (hh : IsHeap hs) (h : namedHandler)
    (hm : h ∈ hs) : (hs.getD 0 default).deadline ≤ h.deadline := by
  obtain ⟨k, hk, e⟩ := List.getElem_of_mem hm
  have := IsHeap_root_le hs hh k hk
  simpa [key, List.getD_eq_getElem?_getD, List.getElem?_eq_getElem hk, e] using this

theorem root_mem (hs : List namedHandler) (hne : hs ≠ []) : hs.getD 0 default ∈ hs := by
  cases hs with
  | nil => exact absurd rfl hne
  | cons a l => simp

/-- What one rotation does to the balancer: the root `h0` is replaced by
`h0.advance`, which is also the handler the loop goes on to test. -/
theorem rotate_effect (b b1 : Balancer) (h : namedHandler) (hr : rotate b = some (h, b1)) :
    Rotated b b1 ∧ b1.curDeadline = h.deadline - 1 / h.weight ∧
    (∃ h0 rest, (h0 :: rest).Perm b.handlers ∧ b1.handlers.Perm (h0.advance :: rest) ∧
      h = h0.advance ∧ b1.curDeadline = h0.deadline ∧
      (IsHeap b.handlers → ∀ g ∈ b.handlers, h0.deadline ≤ g.deadline)) := by
  have hne : b.handlers ≠ [] := by
    intro e; rw [rotate_nil b e] at hr; exact Option.noConfusion hr
  obtain ⟨rest, hperm, hheap, hrot⟩ := rotate_spec b hne
  rw [hrot] at hr
  simp only [Option.some.injEq, Prod.mk.injEq] at hr
  obtain ⟨e1, e2⟩ := hr
  subst e1 e2
  have hroot := root_mem b.handlers hne
  have hpush := heapPush_perm rest (b.handlers.getD 0 default).advance
  refine ⟨⟨rfl, rfl, rfl, rfl, rfl, ?_, ?_, ?_⟩, ?_, ⟨_, rest, hperm, hpush, rfl, rfl, ?_⟩⟩
  · refine ((hpush.map namedHandler.fixed).trans ?_).trans (hperm.map namedHandler.fixed)
    simp only [List.map_cons]
    exact List.Perm.of_eq rfl
  · intro hh
    exact heapPush_heap _ _ (hheap hh)
  · intro hh hd
    have hw := (hd _ hroot).1
    have hpos : 0 ≤ 1 / (b.handlers.getD 0 default).weight := by positivity
    refine ⟨?_, (hd _ hroot).2.2⟩
    intro h hm
    have hm2 : h ∈ (b.handlers.getD 0 default).advance :: rest := hpush.subset hm
    rcases List.mem_cons.mp hm2 with e | hm3
    · subst e
      refine ⟨hw, ?_, ?_⟩
      · simp [namedHandler.advance]
      · simp only [namedHandler.advance]
        linarith
    · have hm4 : h ∈ b.handlers := hperm.subset (List.mem_cons_of_mem _ hm3)
      obtain ⟨hw4, hl4, hu4⟩ := hd h hm4
      refine ⟨hw4, ?_, ?_⟩
      · exact le_trans hl4 (hd _ hroot).2.2
      · exact mem_key_root_le b.handlers hh h hm4
  · simp [namedHandler.advance]
  · intro hh g hg
    exact mem_key_root_le b.handlers hh g hg

theorem Rotated.refl (b : Balancer) : Rotated b b :=
  ⟨rfl, rfl, rfl, rfl, rfl, List.Perm.refl _, id, fun _ hd => ⟨hd, le_refl _⟩⟩

theorem Rotated.trans {b b1 b2 : Balancer} (h1 : Rotated b b1) (h2 : Rotated b1 b2) :
    Rotated b b2 :=
  ⟨h2.status.trans h1.status, h2.fenced.trans h1.fenced, h2.updaters.trans h1.updaters,
    h2.wantsHealthCheck.trans h1.wantsHealthCheck, h2.sticky.trans h1.sticky,
    h2.fixed.trans h1.fixed, fun hh => h2.heap (h1.heap hh),
    fun hh hd =>
      ⟨(h2.deadline (h1.heap hh) (h1.deadline hh hd).1).1,
        le_trans (h1.deadline hh hd).2 (h2.deadline (h1.heap hh) (h1.deadline hh hd).1).2⟩⟩

/-! ## The selection loop and `nextServer` -/

/-- What the loop of `nextServer` guarantees when it returns: the handler `h`
it returns is a handler `h0` of the slice it started from, advanced once; it is
in the slice afterwards, healthy and not fenced, and `curDeadline` is the
deadline `h0` had. -/
theorem nextServerLoop_done (fuel : Nat) : ∀ (b b1 : Balancer) (h : namedHandler),
    nextServerLoop fuel b = .done (h, b1) →
    Rotated b b1 ∧ h ∈ b1.handlers ∧ b1.curDeadline = h.deadline - 1 / h.weight ∧
      h.name ∈ b.status ∧ h.name ∉ b.fenced ∧
      ∃ h0 ∈ b.handlers, h = h0.advance ∧ b1.curDeadline = h0.deadline := by
  induction fuel with
  | zero => intro b b1 h hl; simp [nextServerLoop] at hl
  | succ f ih =>
    intro b b1 h hl
    simp only [nextServerLoop] at hl
    cases hr : rotate b with
    | none => rw [hr] at hl; simp at hl
    | some p =>
      obtain ⟨h2, b2⟩ := p
      rw [hr] at hl
      obtain ⟨hrot, hcur, h0, rest, hp1, hp2, hadv, hcur0, _⟩ := rotate_effect b b2 h2 hr
      simp only at hl
      split_ifs at hl with hc
      · simp only [Res.done.injEq, Prod.mk.injEq] at hl
        obtain ⟨e1, e2⟩ := hl
        subst e1 e2
        rw [hrot.status, hrot.fenced] at hc
        exact ⟨hrot, hp2.symm.subset (hadv ▸ List.mem_cons_self _ _), hcur, hc.1, hc.2,
          h0, hp1.subset (List.mem_cons_self _ _), hadv, hcur0⟩
      · obtain ⟨hrot2, hmem2, hcur2, hs2, hf2, g0, hg0, hgadv, hgcur⟩ := ih b2 b1 h hl
        rw [hrot.status] at hs2
        rw [hrot.fenced] at hf2
        refine ⟨hrot.trans hrot2, hmem2, hcur2, hs2, hf2, g0, ?_, hgadv, hgcur⟩
        -- `g0` is not the handler just skipped, whose name is not eligible
        rcases List.mem_cons.mp (hp2.subset hg0) with e | hm
        · exfalso
          apply hc
          have hn : h2.name = h.name := by
            rw [hgadv, e, hadv]; rfl
          rw [hrot.status, hrot.fenced, hn]
          exact ⟨hs2, hf2⟩
        · exact hp1.subset (List.mem_cons_of_mem _ hm)

/-- Once the loop of `nextServer` has returned, more fuel does not change what it returns. -/
theorem nextServerLoop_fuel (f : Nat) : ∀ (b : Balancer) (r : namedHandler × Balancer) (k : Nat),
    nextServerLoop f b = .done r → nextServerLoop (f + k) b = .done r := by
  induction f with
  | zero => intro b r k h; simp [nextServerLoop] at h
  | succ a ih =>
    intro b r k h
    rw [show a + 1 + k = (a + k) + 1 by omega]
    simp only [nextServerLoop] at h ⊢
    cases hr : rotate b with
    | none => rw [hr] at h; simp at h
    | some p =>
      rw [hr] at h
      simp only at h ⊢
      split_ifs at h ⊢ with hc
      · exact h
      · exact ih _ r k h

/-- The pre-check of `nextServer`. -/
theorem nextServer_unavailable (fuel : Nat) (b : Balancer)
    (h : b.handlers.length = 0 ∨ b.status.card = 0 ∨ b.fenced.card = b.handlers.length) :
    nextServer fuel b = .done (.error errNoAvailableServer, b) := by
  simp only [nextServer, if_pos h]

/-- The two ways `nextServer` returns: from the pre-check, with the balancer
untouched, or from the loop. -/
theorem nextServer_done (fuel : Nat) (b b1 : Balancer) (r : Except String namedHandler)
    (h : nextServer fuel b = .done (r, b1)) :
    ((b.handlers.length = 0 ∨ b.status.card = 0 ∨ b.fenced.card = b.handlers.length) ∧
        r = .error errNoAvailableServer ∧ b1 = b) ∨
    (¬ (b.handlers.length = 0 ∨ b.status.card = 0 ∨ b.fenced.card = b.handlers.length) ∧
        ∃ g, r = .ok g ∧ nextServerLoop fuel b = .done (g, b1)) := by
  simp only [nextServer] at h
  split_ifs at h with hc
  · simp only [Res.done.injEq, Prod.mk.injEq] at h
    exact Or.inl ⟨hc, h.1.symm, h.2.symm⟩
  · right
    refine ⟨hc, ?_⟩
    cases hl : nextServerLoop fuel b with
    | running => rw [hl] at h; simp at h
    | panicked => rw [hl] at h; simp at h
    | done p =>
      obtain ⟨g, b2⟩ := p
      rw [hl] at h
      simp only [Res.done.injEq, Prod.mk.injEq] at h
      exact ⟨g, h.1.symm, by rw [h.2]⟩

/-- Whatever `nextServer` returns, the balancer it leaves is related to the
one it started from by `Rotated`. -/
theorem nextServer_rotated (fuel : Nat) (b b1 : Balancer) (r : Except String namedHandler)
    (h : nextServer fuel b = .done (r, b1)) : Rotated b b1 := by
  rcases nextServer_done fuel b b1 r h with ⟨_, _, e⟩ | ⟨_, g, _, hl⟩
  · rw [e]; exact Rotated.refl b
  · exact (nextServerLoop_done fuel b b1 g hl).1

/-! ## `Add` -/

/-- `Add` with a non-positive weight returns the balancer it was given. -/
theorem Add_nonpos (b : Balancer) (name : String) (handler : Nat) (weight : Option Int)
    (fenced : Bool) (hw : effectiveWeight weight ≤ 0) : Add b name handler weight fenced = b := by
  simp only [Add, if_pos hw]

/-- `Add` with a positive effective weight: what it does to every field but the sticky maps. -/
theorem Add_pos (b : Balancer) (name : String) (handler : Nat) (weight : Option Int)
    (fenced : Bool) (hw : 0 < effectiveWeight weight) :
    (Add b name handler weight fenced).handlers
        = heapPush b.handlers (addedHandler b name handler weight) ∧
      (Add b name handler weight fenced).status = insert name b.status ∧
      (Add b name handler weight fenced).fenced
        = (if fenced then insert name b.fenced else b.fenced) ∧
      (Add b name handler weight fenced).curDeadline = b.curDeadline ∧
      (Add b name handler weight fenced).updaters = b.updaters ∧
      (Add b name handler weight fenced).wantsHealthCheck = b.wantsHealthCheck := by
  have hw2 : ¬ effectiveWeight weight ≤ 0 := by omega
  simp only [Add, if_neg hw2, addedHandler]
  cases hs : b.sticky with
  | none => simp
  | some s => simp

/-! ## Invariants of reachable balancers -/

theorem New_fields (sticky : Option Sticky) (wantHealthCheck : Bool) :
    (New sticky wantHealthCheck).handlers = [] ∧ (New sticky wantHealthCheck).curDeadline = 0 ∧
      (New sticky wantHealthCheck).status = ∅ ∧ (New sticky wantHealthCheck).fenced = ∅ ∧
      (New sticky wantHealthCheck).updaters = [] ∧
      (New sticky wantHealthCheck).wantsHealthCheck = wantHealthCheck := by
  unfold New
  cases sticky with
  | none => simp
  | some s =>
    cases hc : s.Cookie with
    | none => simp [hc]
    | some c => simp [hc]

/-- `SetStatus` writes `status` only. -/
theorem SetStatus_fst (b : Balancer) (childName : String) (up : Bool) :
    (SetStatus b childName up).1 =
      { b with status := if up then insert childName b.status else b.status.erase childName } := by
  unfold SetStatus
  simp only
  split_ifs <;> rfl

theorem IsHeap_nil : IsHeap [] := by
  intro i _ hi
  simp at hi

/-- `Add` keeps the heap property. -/
theorem Add_heap (b : Balancer) (name : String) (handler : Nat) (weight : Option Int)
    (fenced : Bool) (h : IsHeap b.handlers) : IsHeap (Add b name handler weight fenced).handlers := by
  by_cases hw : effectiveWeight weight ≤ 0
  · rw [Add_nonpos b name handler weight fenced hw]; exact h
  · rw [(Add_pos b name handler weight fenced (by omega)).1]
    exact heapPush_heap _ _ h

/-- `Add` keeps the deadline invariant. -/
theorem Add_deadline (b : Balancer) (name : String) (handler : Nat) (weight : Option Int)
    (fenced : Bool) (h : DeadlineInv b) : DeadlineInv (Add b name handler weight fenced) := by
  by_cases hw : effectiveWeight weight ≤ 0
  · rw [Add_nonpos b name handler weight fenced hw]; exact h
  · have hp := Add_pos b name handler weight fenced (by omega)
    have hq : (0 : ℚ) < (effectiveWeight weight : ℚ) := by
      have : 0 < effectiveWeight weight := by omega
      exact_mod_cast this
    intro g hg
    rw [hp.1] at hg
    rw [hp.2.2.2.1]
    rcases List.mem_cons.mp ((heapPush_perm _ _).subset hg) with e | hm
    · subst e
      have : 0 ≤ 1 / (effectiveWeight weight : ℚ) := by positivity
      refine ⟨hq, ?_, ?_⟩
      · simp [addedHandler]
      · simp only [addedHandler]; linarith
    · exact h g hm

/-- Invariant I5 and the deadline invariant hold in every reachable state. -/
theorem Reachable_inv (b : Balancer) (hb : Reachable b) : IsHeap b.handlers ∧ DeadlineInv b := by
  induction hb with
  | new sticky wantHealthCheck =>
    obtain ⟨h1, _⟩ := New_fields sticky wantHealthCheck
    constructor
    · rw [h1]; exact IsHeap_nil
    · intro g hg; rw [h1] at hg; simp at hg
  | add name handler weight fenced _ ih =>
    exact ⟨Add_heap _ name handler weight fenced ih.1, Add_deadline _ name handler weight fenced ih.2⟩
  | setStatus childName up _ ih =>
    rw [SetStatus_fst]
    exact ih
  | nextServer fuel r _ hn ih =>
    have hrot := nextServer_rotated fuel _ _ r hn
    exact ⟨hrot.heap ih.1, (hrot.deadline ih.1 ih.2).1⟩

/-! ## Claims -/

/-- C1. Min-heap invariant: in every balancer state reachable from `New` by
`Add` and `nextServer` calls (and `SetStatus` calls as well), every non-root
index `i` of `handlers` has a deadline no earlier than that of its parent
`(i - 1) / 2`. -/
theorem heap_invariant (b : Balancer) (hb : Reachable b) (i : Nat) (h0 : 0 < i)
    (hi : i < b.handlers.length) :
    (b.handlers.getD ((i - 1) / 2) default).deadline ≤ (b.handlers.getD i default).deadline :=
  (Reachable_inv b hb).1 i h0 hi

/-- C1, at the state after three `Add` calls and one `nextServer` call, index 2. -/
theorem heap_invariant_witness :
    Reachable afterFirstPick ∧ 0 < 2 ∧ 2 < afterFirstPick.handlers.length ∧
      (afterFirstPick.handlers.getD ((2 - 1) / 2) default).deadline
        ≤ (afterFirstPick.handlers.getD 2 default).deadline :=
  have hr : Reachable afterFirstPick :=
    Reachable.nextServer 2 (.ok firstPick)
      (Reachable.add "c" 2 (some 3) true
        (Reachable.add "b" 1 none false
          (Reachable.add "a" 0 (some 2) false (Reachable.new none true))))
      (by with_unfolding_all rfl)
  ⟨hr, by decide, by decide!, heap_invariant afterFirstPick hr 2 (by decide) (by decide!)⟩

/-- C4. `nextServer` fails with `errNoAvailableServer` if and only if `handlers`
is empty, or `status` is empty, or `fenced` has as many elements as `handlers`;
it fails with no other error; and when it fails the balancer is unchanged. -/
theorem nextServer_error_iff (fuel : Nat) (b : Balancer) :
    ((∃ b1, nextServer fuel b = .done (.error errNoAvailableServer, b1)) ↔
      (b.handlers.length = 0 ∨ b.status.card = 0 ∨ b.fenced.card = b.handlers.length)) ∧
    (∀ e b1, nextServer fuel b = .done (.error e, b1) → e = errNoAvailableServer ∧ b1 = b) := by
  constructor
  · constructor
    · rintro ⟨b1, h⟩
      rcases nextServer_done fuel b b1 _ h with ⟨hc, _, _⟩ | ⟨_, g, hg, _⟩
      · exact hc
      · exact Except.noConfusion hg
    · intro hc
      exact ⟨b, nextServer_unavailable fuel b hc⟩
  · intro e b1 h
    rcases nextServer_done fuel b b1 _ h with ⟨_, he, hb⟩ | ⟨_, g, hg, _⟩
    · exact ⟨by simpa using he, hb⟩
    · exact Except.noConfusion hg

/-- C5. Whenever `nextServer` returns a handler `h` without error, `h` is one
of the registered handlers (a handler `h0` of the slice before the call, its
deadline advanced once, and an element of the slice after the call), `h.name`
is in `status` and `h.name` is not in `fenced`. -/
theorem nextServer_returns_eligible (fuel : Nat) (b b1 : Balancer) (h : namedHandler)
    (hret : nextServer fuel b = .done (.ok h, b1)) :
    (∃ h0 ∈ b.handlers, h = h0.advance) ∧ h ∈ b1.handlers ∧
      h.name ∈ b.status ∧ h.name ∉ b.fenced := by
  rcases nextServer_done fuel b b1 _ hret with ⟨_, he, _⟩ | ⟨_, g, hg, hl⟩
  · exact Except.noConfusion he
  · have e : h = g := by simpa using hg
    subst e
    obtain ⟨_, hmem, _, hs, hf, h0, hm0, hadv, _⟩ := nextServerLoop_done fuel b b1 h hl
    exact ⟨⟨h0, hm0, hadv⟩, hmem, hs, hf⟩

/-- C5, at the first pick from three backends: the fenced backend `c` has the
earliest deadline and is skipped, `a` is returned. -/
theorem nextServer_returns_eligible_witness :
    nextServer 2 threeBackends = .done (.ok firstPick, afterFirstPick) ∧ firstPick.name = "a" ∧
      (∃ h0 ∈ threeBackends.handlers, firstPick = h0.advance) ∧
      firstPick ∈ afterFirstPick.handlers ∧
      firstPick.name ∈ threeBackends.status ∧ firstPick.name ∉ threeBackends.fenced :=
  ⟨by with_unfolding_all rfl, by decide!,
    nextServer_returns_eligible 2 threeBackends afterFirstPick firstPick
      (by with_unfolding_all rfl)⟩

/-- C6. `Add` called with a weight pointer whose value is `≤ 0` leaves the
balancer exactly as it was: `handlers`, `status`, `fenced`, `curDeadline`,
`stickyMap`, `compatibilityStickyMap` and every other field. -/
theorem Add_nonpositive_weight_ignored (b : Balancer) (name : String) (handler : Nat) (w : Int)
    (fenced : Bool) (hw : w ≤ 0) : Add b name handler (some w) fenced = b :=
  Add_nonpos b name handler (some w) fenced hw

/-- C6, adding a backend of weight 0 and one of weight -3 to three backends. -/
theorem Add_nonpositive_weight_ignored_witness :
    (0 : Int) ≤ 0 ∧ Add threeBackends "d" 7 (some 0) true = threeBackends ∧
      Add threeBackends "d" 7 (some (-3)) false = threeBackends :=
  ⟨by decide, Add_nonpositive_weight_ignored threeBackends "d" 7 0 true (by decide),
    Add_nonpositive_weight_ignored threeBackends "d" 7 (-3) false (by decide)⟩

/-- In the exact reading, `Add` with effective weight `w > 0` (1 when the
pointer is nil) leaves one more entry in `handlers`, of the given name and
handler, weight `w` and deadline the prior `curDeadline + 1 / w`, the other
entries being those it held; `name` is in `status`; `fenced` has gained `name`
if fencing was requested and is otherwise unchanged; `curDeadline` is unchanged. -/
theorem Add_registers (b : Balancer) (name : String) (handler : Nat) (weight : Option Int)
    (fenced : Bool) (hw : 0 < effectiveWeight weight) :
    ∃ h : namedHandler,
      h.name = name ∧ h.Handler = handler ∧ h.weight = (effectiveWeight weight : ℚ) ∧
      h.deadline = b.curDeadline + 1 / (effectiveWeight weight : ℚ) ∧
      (Add b name handler weight fenced).handlers.Perm (h :: b.handlers) ∧
      (Add b name handler weight fenced).handlers.length = b.handlers.length + 1 ∧
      (Add b name handler weight fenced).status = insert name b.status ∧
      name ∈ (Add b name handler weight fenced).status ∧
      (Add b name handler weight fenced).fenced
        = (if fenced then insert name b.fenced else b.fenced) ∧
      (Add b name handler weight fenced).curDeadline = b.curDeadline := by
  obtain ⟨h1, h2, h3, h4, _, _⟩ := Add_pos b name handler weight fenced hw
  refine ⟨addedHandler b name handler weight, rfl, rfl, rfl, rfl, ?_, ?_, h2, ?_, h3, h4⟩
  · rw [h1]; exact heapPush_perm _ _
  · rw [h1]; exact heapPush_length _ _
  · rw [h2]; exact Finset.mem_insert_self _ _

/-- The exact reading of `Add`, adding a fenced backend of weight 4 to three backends. -/
theorem Add_registers_witness :
    0 < effectiveWeight (some 4) ∧
    ∃ h : namedHandler,
      h.name = "d" ∧ h.Handler = 7 ∧ h.weight = (effectiveWeight (some 4) : ℚ) ∧
      h.deadline = threeBackends.curDeadline + 1 / (effectiveWeight (some 4) : ℚ) ∧
      (Add threeBackends "d" 7 (some 4) true).handlers.Perm (h :: threeBackends.handlers) ∧
      (Add threeBackends "d" 7 (some 4) true).handlers.length
        = threeBackends.handlers.length + 1 ∧
      (Add threeBackends "d" 7 (some 4) true).status = insert "d" threeBackends.status ∧
      "d" ∈ (Add threeBackends "d" 7 (some 4) true).status ∧
      (Add threeBackends "d" 7 (some 4) true).fenced
        = (if true then insert "d" threeBackends.fenced else threeBackends.fenced) ∧
      (Add threeBackends "d" 7 (some 4) true).curDeadline = threeBackends.curDeadline :=
  ⟨by decide, Add_registers threeBackends "d" 7 (some 4) true (by decide)⟩

/-- C9. `curDeadline` never decreases: from any reachable state, `Add` and
`SetStatus` leave it as it is, and a returning `nextServer` leaves it no
smaller; when `nextServer` returns a handler `h`, `curDeadline` is the deadline
`h` had when it was popped (`h` is a handler `h0` of the slice, advanced by
`1 / weight`, and `curDeadline` is the deadline of `h0`). -/
theorem curDeadline_monotone (b : Balancer) (hb : Reachable b) :
    (∀ name handler weight fenced,
      b.curDeadline ≤ (Add b name handler weight fenced).curDeadline) ∧
    (∀ childName up, b.curDeadline ≤ (SetStatus b childName up).1.curDeadline) ∧
    (∀ fuel r b1, nextServer fuel b = .done (r, b1) →
      b.curDeadline ≤ b1.curDeadline ∧
      ∀ h, r = .ok h → ∃ h0 ∈ b.handlers, h = h0.advance ∧ b1.curDeadline = h0.deadline) := by
  refine ⟨?_, ?_, ?_⟩
  · intro name handler weight fenced
    by_cases hw : effectiveWeight weight ≤ 0
    · rw [Add_nonpos b name handler weight fenced hw]
    · rw [(Add_pos b name handler weight fenced (by omega)).2.2.2.1]
  · intro childName up
    rw [SetStatus_fst]
  · intro fuel r b1 hn
    have hinv := Reachable_inv b hb
    refine ⟨((nextServer_rotated fuel b b1 r hn).deadline hinv.1 hinv.2).2, ?_⟩
    intro h hr
    rcases nextServer_done fuel b b1 r hn with ⟨_, he, _⟩ | ⟨_, g, hg, hl⟩
    · rw [he] at hr; exact Except.noConfusion hr
    · have e : g = h := by rw [hg] at hr; simpa using hr
      subst e
      obtain ⟨_, _, _, _, _, h0, hm0, hadv, hcur⟩ := nextServerLoop_done fuel b b1 g hl
      exact ⟨h0, hm0, hadv, hcur⟩

/-- C9, at three backends: the first pick moves `curDeadline` from 0 to 1/2,
the deadline `a` had. -/
theorem curDeadline_monotone_witness :
    Reachable threeBackends ∧ threeBackends.curDeadline = 0 ∧ afterFirstPick.curDeadline = 1 / 2 ∧
    (∀ name handler weight fenced,
      threeBackends.curDeadline ≤ (Add threeBackends name handler weight fenced).curDeadline) ∧
    (∀ childName up,
      threeBackends.curDeadline ≤ (SetStatus threeBackends childName up).1.curDeadline) ∧
    (∀ fuel r b1, nextServer fuel threeBackends = .done (r, b1) →
      threeBackends.curDeadline ≤ b1.curDeadline ∧
      ∀ h, r = .ok h →
        ∃ h0 ∈ threeBackends.handlers, h = h0.advance ∧ b1.curDeadline = h0.deadline) :=
  ⟨Reachable.add "c" 2 (some 3) true
      (Reachable.add "b" 1 none false
        (Reachable.add "a" 0 (some 2) false (Reachable.new none true))),
    by decide!, by decide!,
    curDeadline_monotone threeBackends
      (Reachable.add "c" 2 (some 3) true
        (Reachable.add "b" 1 none false
          (Reachable.add "a" 0 (some 2) false (Reachable.new none true))))⟩

/-! ## The selection loop when no handler is eligible -/

/-- With no handler both healthy and not fenced, the loop of `nextServer` is
still running after any number of iterations. -/
theorem nextServerLoop_running (fuel : Nat) : ∀ b : Balancer, b.handlers ≠ [] →
    (∀ h ∈ b.handlers, ¬ (h.name ∈ b.status ∧ h.name ∉ b.fenced)) →
    nextServerLoop fuel b = .running := by
  induction fuel with
  | zero => intro b _ _; rfl
  | succ f ih =>
    intro b hne hno
    obtain ⟨rest, hperm, _, hrot⟩ := rotate_spec b hne
    have hroot := root_mem b.handlers hne
    have hpush := heapPush_perm rest (b.handlers.getD 0 default).advance
    simp only [nextServerLoop, hrot]
    have hskip : ¬ ((b.handlers.getD 0 default).advance.name ∈ b.status ∧
        (b.handlers.getD 0 default).advance.name ∉ b.fenced) :=
      hno (b.handlers.getD 0 default) hroot
    rw [if_neg hskip]
    apply ih
    · intro e
      have := heapPush_length rest (b.handlers.getD 0 default).advance
      simp only at e
      rw [e] at this
      simp at this
    · intro h hm
      rcases List.mem_cons.mp (hpush.subset hm) with e | hm2
      · rw [e]; exact hskip
      · exact hno h (hperm.subset (List.mem_cons_of_mem _ hm2))

/-- C2 (the code at the failing input). With `a` fenced and `b` down the
pre-check of `nextServer` passes, no handler is both healthy and not fenced,
and the loop never returns: it is still running after any number of iterations. -/
theorem nextServer_spins_fenced_and_down :
    Reachable fencedAndDown ∧
    ¬ (fencedAndDown.handlers.length = 0 ∨ fencedAndDown.status.card = 0 ∨
        fencedAndDown.fenced.card = fencedAndDown.handlers.length) ∧
    ∀ fuel, nextServer fuel fencedAndDown = .running := by
  refine ⟨?_, by decide!, ?_⟩
  · exact Reachable.setStatus "b" false
      (Reachable.add "b" 1 none false (Reachable.add "a" 0 none true (Reachable.new none false)))
  · intro fuel
    have hc : ¬ (fencedAndDown.handlers.length = 0 ∨ fencedAndDown.status.card = 0 ∨
        fencedAndDown.fenced.card = fencedAndDown.handlers.length) := by decide!
    simp only [nextServer, if_neg hc]
    rw [nextServerLoop_running fuel fencedAndDown (by decide!) (by decide!)]

/-! ## Registered names -/

/-- The names of the handlers are the same before and after `nextServer`. -/
theorem Rotated.names {b b1 : Balancer} (hr : Rotated b b1) (n : String) :
    (∃ h ∈ b1.handlers, h.name = n) ↔ (∃ h ∈ b.handlers, h.name = n) := by
  have key : ∀ l1 l2 : List namedHandler,
      (l1.map namedHandler.fixed).Perm (l2.map namedHandler.fixed) →
      (∃ h ∈ l1, h.name = n) → (∃ h ∈ l2, h.name = n) := by
    rintro l1 l2 hp ⟨h, hm, hn⟩
    have : h.fixed ∈ l2.map namedHandler.fixed := hp.subset (List.mem_map_of_mem _ hm)
    obtain ⟨g, hg, e⟩ := List.mem_map.mp this
    refine ⟨g, hg, ?_⟩
    have : g.fixed.2.1 = h.fixed.2.1 := by rw [e]
    exact this.trans hn
  exact ⟨key _ _ hr.fixed, key _ _ hr.fixed.symm⟩

/-- `Add` keeps the handlers there were, and a positive weight adds one of the given name. -/
theorem Add_names (b : Balancer) (name : String) (handler : Nat) (weight : Option Int)
    (fenced : Bool) :
    (∀ n, (∃ h ∈ b.handlers, h.name = n) →
      ∃ h ∈ (Add b name handler weight fenced).handlers, h.name = n) ∧
    (0 < effectiveWeight weight →
      ∃ h ∈ (Add b name handler weight fenced).handlers, h.name = name) := by
  by_cases hw : effectiveWeight weight ≤ 0
  · rw [Add_nonpos b name handler weight fenced hw]
    exact ⟨fun _ h => h, fun hp => absurd hp (by omega)⟩
  · have hp := (Add_pos b name handler weight fenced (by omega)).1
    have hperm := heapPush_perm b.handlers (addedHandler b name handler weight)
    rw [hp]
    constructor
    · rintro n ⟨h, hm, hn⟩
      exact ⟨h, hperm.symm.subset (List.mem_cons_of_mem _ hm), hn⟩
    · intro _
      exact ⟨_, hperm.symm.subset (List.mem_cons_self _ _), rfl⟩

/-- Every fenced name is the name of a handler, in every reachable state. -/
theorem Reachable_fenced (b : Balancer) (hb : Reachable b) :
    ∀ n ∈ b.fenced, ∃ h ∈ b.handlers, h.name = n := by
  induction hb with
  | new sticky wantHealthCheck =>
    intro n hn
    rw [(New_fields sticky wantHealthCheck).2.2.2.1] at hn
    simp at hn
  | @add b name handler weight fenced _ ih =>
    intro n hn
    have hnames := Add_names b name handler weight fenced
    by_cases hw : effectiveWeight weight ≤ 0
    · rw [Add_nonpos b name handler weight fenced hw] at hn ⊢
      exact ih n hn
    · rw [(Add_pos b name handler weight fenced (by omega)).2.2.1] at hn
      cases fenced with
      | false => exact hnames.1 n (ih n (by simpa using hn))
      | true =>
        rcases Finset.mem_insert.mp (by simpa using hn) with e | hm
        · rw [e]; exact hnames.2 (by omega)
        · exact hnames.1 n (ih n hm)
  | setStatus childName up _ ih =>
    rw [SetStatus_fst]
    exact ih
  | nextServer fuel r _ hn ih =>
    have hrot := nextServer_rotated fuel _ _ r hn
    intro n hm
    rw [hrot.fenced] at hm
    exact (hrot.names n).mpr (ih n hm)

/-- Every healthy name is the name of a handler, as long as `SetStatus` is
told that a child is up only under the name of a handler. -/
theorem ReachableKnown_status (b : Balancer) (hb : ReachableKnown b) :
    ∀ n ∈ b.status, ∃ h ∈ b.handlers, h.name = n := by
  induction hb with
  | new sticky wantHealthCheck =>
    intro n hn
    rw [(New_fields sticky wantHealthCheck).2.2.1] at hn
    simp at hn
  | @add b name handler weight fenced _ ih =>
    intro n hn
    have hnames := Add_names b name handler weight fenced
    by_cases hw : effectiveWeight weight ≤ 0
    · rw [Add_nonpos b name handler weight fenced hw] at hn ⊢
      exact ih n hn
    · rw [(Add_pos b name handler weight fenced (by omega)).2.1] at hn
      rcases Finset.mem_insert.mp hn with e | hm
      · rw [e]; exact hnames.2 (by omega)
      · exact hnames.1 n (ih n hm)
  | @setStatus b childName up _ hk ih =>
    rw [SetStatus_fst]
    intro n hn
    cases up with
    | false => exact ih n (Finset.mem_of_mem_erase (by simpa using hn))
    | true =>
      rcases Finset.mem_insert.mp (by simpa using hn) with e | hm
      · rw [e]; exact hk rfl
      · exact ih n hm
  | nextServer fuel r _ hn ih =>
    have hrot := nextServer_rotated fuel _ _ r hn
    intro n hm
    rw [hrot.status] at hm
    exact (hrot.names n).mpr (ih n hm)

/-- C8 as stated fails: `SetStatus` with a name that no handler carries puts
that name into `status`. -/
theorem status_subset_names_fails :
    ¬ ∀ b : Balancer, Reachable b →
      (∀ n ∈ b.fenced, ∃ h ∈ b.handlers, h.name = n) ∧
      (∀ n ∈ b.status, ∃ h ∈ b.handlers, h.name = n) := by
  intro hall
  obtain ⟨h, hm, _⟩ := (hall (SetStatus (New none false) "ghost" true).1
    (Reachable.setStatus "ghost" true (Reachable.new none false))).2 "ghost" (by decide)
  have : (SetStatus (New none false) "ghost" true).1.handlers = [] := by decide
  rw [this] at hm
  simp at hm

/-- C8, amended. In every state reachable from `New` by `Add`, `SetStatus` and
`nextServer` calls every name in `fenced` is the name of some handler; and
every name in `status` is the name of some handler when every
`SetStatus(childName, true)` call carried the name of a handler added before. -/
theorem registered_names (b : Balancer) :
    (Reachable b → ∀ n ∈ b.fenced, ∃ h ∈ b.handlers, h.name = n) ∧
    (ReachableKnown b → ∀ n ∈ b.status, ∃ h ∈ b.handlers, h.name = n) :=
  ⟨Reachable_fenced b, ReachableKnown_status b⟩

/-- C8 amended, at two backends of which one is fenced and one was reported down. -/
theorem registered_names_witness :
    Reachable fencedAndDown ∧ ReachableKnown fencedAndDown ∧
    (∀ n ∈ fencedAndDown.fenced, ∃ h ∈ fencedAndDown.handlers, h.name = n) ∧
    (∀ n ∈ fencedAndDown.status, ∃ h ∈ fencedAndDown.handlers, h.name = n) :=
  have h1 : Reachable fencedAndDown :=
    Reachable.setStatus "b" false
      (Reachable.add "b" 1 none false (Reachable.add "a" 0 none true (Reachable.new none false)))
  have h2 : ReachableKnown fencedAndDown :=
    ReachableKnown.setStatus "b" false
      (ReachableKnown.add "b" 1 none false
        (ReachableKnown.add "a" 0 none true (ReachableKnown.new none false)))
      (fun h => Bool.noConfusion h)
  ⟨h1, h2, (registered_names fencedAndDown).1 h1, (registered_names fencedAndDown).2 h2⟩

/-! ## Sticky dispatch -/

/-- The sticky branch only ever serves a healthy handler. -/
theorem stickyDispatch_healthy (b : Balancer) (req : Request) (reply : Reply)
    (h : stickyDispatch b req = some reply) :
    ∃ c g, reply = .served c g ∧ g.name ∈ b.status := by
  unfold stickyDispatch at h
  cases hs : b.sticky with
  | none => simp [hs] at h
  | some s =>
    simp only [hs] at h
    cases hc : req.Cookie s.stickyCookie.name with
    | none => simp [hc] at h
    | some value =>
      simp only [hc] at h
      cases h1 : (s.stickyMap value).filter fun handler => handler.name ∈ b.status with
      | some g =>
        simp only [h1, Option.some.injEq] at h
        have hg := Option.mem_filter_iff.mp (Option.mem_def.mpr h1)
        exact ⟨none, g, h.symm, by simpa using hg.2⟩
      | none =>
        simp only [h1] at h
        cases h2 : (s.compatibilityStickyMap value).filter fun handler => handler.name ∈ b.status with
        | some g =>
          simp only [h2, Option.some.injEq] at h
          have hg := Option.mem_filter_iff.mp (Option.mem_def.mpr h2)
          exact ⟨_, g, h.symm, by simpa using hg.2⟩
        | none => simp [h2] at h

/-- A cookie value that `stickyMap` resolves to a healthy handler is served by
that handler, with no cookie written and the balancer untouched. -/
theorem stickyDispatch_hit (b : Balancer) (s : stickyState) (req : Request) (value : String)
    (g : namedHandler) (hs : b.sticky = some s)
    (hreq : req.Cookie s.stickyCookie.name = some value) (hmap : s.stickyMap value = some g)
    (hup : g.name ∈ b.status) : stickyDispatch b req = some (.served none g) := by
  unfold stickyDispatch
  simp only [hs, hreq, hmap]
  have : (Option.filter (fun handler : namedHandler => decide (handler.name ∈ b.status)) (some g))
      = some g := by
    simp [Option.filter, hup]
  simp only [this]

/-- `ServeHTTP` only ever calls the `ServeHTTP` of a healthy handler. -/
theorem ServeHTTP_served_healthy (fuel : Nat) (b b1 : Balancer) (req : Request)
    (c : Option httpCookie) (g : namedHandler)
    (h : ServeHTTP fuel b req = .done (.served c g, b1)) : g.name ∈ b.status := by
  unfold ServeHTTP at h
  cases hd : stickyDispatch b req with
  | some reply =>
    simp only [hd, Res.done.injEq, Prod.mk.injEq] at h
    obtain ⟨c2, g2, e, hg⟩ := stickyDispatch_healthy b req reply hd
    rw [e] at h
    simp only [Reply.served.injEq] at h
    rw [← h.1.2]; exact hg
  | none =>
    simp only [hd] at h
    cases hn : nextServer fuel b with
    | running => simp [hn] at h
    | panicked => simp [hn] at h
    | done p =>
      obtain ⟨r, b2⟩ := p
      cases r with
      | error err =>
        simp only [hn] at h
        split_ifs at h <;> simp at h
      | ok server =>
        rcases nextServer_done fuel b b2 _ hn with ⟨_, he, _⟩ | ⟨_, g2, hg2, hl⟩
        · exact Except.noConfusion he
        · have e : server = g2 := by simpa using hg2
          subst e
          have hs := (nextServerLoop_done fuel b b2 server hl).2.2.2.1
          simp only [hn] at h
          cases hst : b2.sticky with
          | none =>
            simp only [hst, Res.done.injEq, Prod.mk.injEq, Reply.served.injEq] at h
            rw [← h.1.2]; exact hs
          | some s =>
            simp only [hst, Res.done.injEq, Prod.mk.injEq, Reply.served.injEq] at h
            rw [← h.1.2]; exact hs

/-- C10 as stated fails: after `Add("a", handler 0)` and `Add("a", handler 1)`
the cookie written for the first handler is dispatched to the second one,
although `a` is healthy. -/
theorem overwritten_cookie_misroutes :
    ¬ ∀ (b : Balancer) (s : stickyState) (h : namedHandler) (req : Request) (fuel : Nat),
      Reachable b → b.sticky = some s → h ∈ b.handlers →
      req.Cookie s.stickyCookie.name = some (writeStickyCookie s.stickyCookie h).Value →
      (DispatchedTo (ServeHTTP fuel b req) h ↔ h.name ∈ b.status) := by
  intro hall
  have hr : Reachable sameNameTwice :=
    Reachable.add "a" 1 none false (Reachable.add "a" 0 none false (Reachable.new _ false))
  have hs : sameNameTwice.sticky = some
      (match sameNameTwice.sticky with
        | some s => s
        | none => { stickyCookie := default, stickyMap := fun _ => none,
                    compatibilityStickyMap := fun _ => none }) := by
    with_unfolding_all rfl
  have key := hall sameNameTwice _ firstA { cookies := [("lb", sha256Hash "a")] } 0 hr hs
    (by decide!) (by with_unfolding_all rfl)
  obtain ⟨c, g, b1, he, hg⟩ := key.mpr (by decide!)
  have hserve : ServeHTTP 0 sameNameTwice { cookies := [("lb", sha256Hash "a")] }
      = .done (.served none { firstA with Handler := 1 }, sameNameTwice) := by
    with_unfolding_all rfl
  rw [hserve] at he
  simp only [Res.done.injEq, Prod.mk.injEq, Reply.served.injEq] at he
  rw [← he.1.2] at hg
  revert hg
  decide!

/-- C10, amended. In a sticky-enabled balancer let `h` be a handler whose cookie
value `h.hashedName` is still resolved by `stickyMap` to `h` itself (as it is
from `Add` on, until a later `Add` stores a name with the same `sha256Hash`).
A request carrying the sticky cookie with the value `writeStickyCookie` writes
for `h` is dispatched by `ServeHTTP` to `h` if and only if `h.name` is in `status`. -/
theorem sticky_round_trip (b : Balancer) (s : stickyState) (h g : namedHandler) (req : Request)
    (fuel : Nat) (hs : b.sticky = some s)
    (hmap : s.stickyMap h.hashedName = some g) (hg : g.fixed = h.fixed)
    (hreq : req.Cookie s.stickyCookie.name = some (writeStickyCookie s.stickyCookie h).Value) :
    DispatchedTo (ServeHTTP fuel b req) h ↔ h.name ∈ b.status := by
  have hname : g.name = h.name := by
    have : g.fixed.2.1 = h.fixed.2.1 := by rw [hg]
    exact this
  constructor
  · rintro ⟨c, g2, b1, he, hg2⟩
    have hn : g2.name = h.name := by
      have : g2.fixed.2.1 = h.fixed.2.1 := by rw [hg2]
      exact this
    rw [← hn]
    exact ServeHTTP_served_healthy fuel b b1 req c g2 he
  · intro hup
    refine ⟨none, g, b, ?_, hg⟩
    unfold ServeHTTP
    rw [stickyDispatch_hit b s req h.hashedName g hs hreq hmap (by rw [hname]; exact hup)]

/-- C10 amended, at a sticky balancer with backends `a` and `b`: the cookie of
`a` is dispatched to `a`. -/
theorem sticky_round_trip_witness :
    stickyPair.sticky = some stickyPairState ∧
    stickyPairState.stickyMap firstA.hashedName = some firstA ∧
    firstA.name ∈ stickyPair.status ∧
    (DispatchedTo (ServeHTTP 0 stickyPair { cookies := [("lb", sha256Hash "a")] }) firstA ↔
      firstA.name ∈ stickyPair.status) :=
  ⟨by with_unfolding_all rfl, by decide!, by decide!,
    sticky_round_trip stickyPair stickyPairState firstA firstA
      { cookies := [("lb", sha256Hash "a")] } 0 (by with_unfolding_all rfl) (by decide!) rfl
      (by with_unfolding_all rfl)⟩

/-! ## Weighted fairness -/

/-- Seeding a balancer whose clock is still 0: every backend of positive weight
`w` enters with deadline `1 / w`, healthy and not fenced. -/
theorem seed_spec (seeds : List (String × Nat × Int)) : ∀ b : Balancer,
    (∀ s ∈ seeds, 0 < s.2.2) → Reachable b → b.curDeadline = 0 →
    Reachable (seed b seeds) ∧ (seed b seeds).curDeadline = 0 ∧
    (seed b seeds).fenced = b.fenced ∧
    (∀ n, n ∈ b.status ∨ (∃ s ∈ seeds, s.1 = n) → n ∈ (seed b seeds).status) ∧
    ((seed b seeds).handlers.map fun h => (h.name, h.weight, h.deadline)).Perm
      ((b.handlers.map fun h => (h.name, h.weight, h.deadline)) ++
        seeds.map fun s => (s.1, (s.2.2 : ℚ), (((0 : Nat) : ℚ) + 1) / (s.2.2 : ℚ))) := by
  induction seeds with
  | nil =>
    intro b _ hb hc
    refine ⟨hb, hc, rfl, ?_, by simp [seed]⟩
    rintro n (h | ⟨s, hs, _⟩)
    · exact h
    · simp at hs
  | cons s rest ih =>
    intro b hpos hb hc
    have hs : 0 < effectiveWeight (some s.2.2) := hpos s (List.mem_cons_self _ _)
    obtain ⟨h1, h2, h3, h4, _, _⟩ := Add_pos b s.1 s.2.1 (some s.2.2) false hs
    obtain ⟨r1, r2, r3, r4, r5⟩ := ih (Add b s.1 s.2.1 (some s.2.2) false)
      (fun t ht => hpos t (List.mem_cons_of_mem _ ht)) (Reachable.add _ _ _ _ hb) (h4.trans hc)
    refine ⟨r1, r2, ?_, ?_, ?_⟩
    · rw [show seed b (s :: rest) = seed (Add b s.1 s.2.1 (some s.2.2) false) rest from rfl, r3, h3]
      simp
    · rintro n hn
      apply r4
      rw [h2]
      rcases hn with h | ⟨t, ht, e⟩
      · exact Or.inl (Finset.mem_insert_of_mem h)
      · rcases List.mem_cons.mp ht with e2 | ht2
        · left; rw [← e, e2]; exact Finset.mem_insert_self _ _
        · exact Or.inr ⟨t, ht2, e⟩
    · refine r5.trans ?_
      rw [h1]
      have hp := (heapPush_perm b.handlers (addedHandler b s.1 s.2.1 (some s.2.2))).map
        fun h => (h.name, h.weight, h.deadline)
      refine (List.Perm.append_right _ hp).trans ?_
      simp only [List.map_cons, List.cons_append]
      have e : ((addedHandler b s.1 s.2.1 (some s.2.2)).name,
          (addedHandler b s.1 s.2.1 (some s.2.2)).weight,
          (addedHandler b s.1 s.2.1 (some s.2.2)).deadline)
          = (s.1, (s.2.2 : ℚ), (((0 : Nat) : ℚ) + 1) / (s.2.2 : ℚ)) := by
        simp [addedHandler, effectiveWeight, hc]
      rw [e]
      exact List.perm_middle.symm

/-- Replacing the image of the one element with a given key: if `F1` agrees
with `F` away from the key of `s0`, then swapping `F s0` for `F1 s0` turns a
listing of `l.map F` into a listing of `l.map F1`. -/
theorem perm_map_update {α β κ : Type} [DecidableEq α] (l : List α) (k : α → κ)
    (hnd : (l.map k).Nodup) (F F1 : α → β) (s0 : α) (hs0 : s0 ∈ l)
    (hF : ∀ s ∈ l, k s ≠ k s0 → F1 s = F s) (rest : List β)
    (hp : (F s0 :: rest).Perm (l.map F)) : (F1 s0 :: rest).Perm (l.map F1) := by
  have he : l.Perm (s0 :: l.erase s0) := List.perm_cons_erase hs0
  have hrest : rest.Perm ((l.erase s0).map F) :=
    List.Perm.cons_inv (hp.trans (he.map F))
  have hnd2 : ((s0 :: l.erase s0).map k).Nodup := (he.map k).nodup_iff.mp hnd
  have hne : ∀ s ∈ l.erase s0, k s ≠ k s0 := by
    intro s hs e
    simp only [List.map_cons, List.nodup_cons] at hnd2
    exact hnd2.1 (e ▸ List.mem_map_of_mem k hs)
  have hmap : (l.erase s0).map F1 = (l.erase s0).map F :=
    List.map_congr_left fun s hs => hF s (List.mem_of_mem_erase hs) (hne s hs)
  refine List.Perm.trans ?_ (he.map F1).symm
  simp only [List.map_cons]
  rw [hmap]
  exact List.Perm.cons _ hrest

/-- One `nextServer` call on a scheduled balancer: it returns after one
rotation, with a backend of `seeds`, whose count goes up by one. -/
theorem Scheduled.step (seeds : List (String × Nat × Int)) (cnt : String → Nat) (b : Balancer)
    (hnd : (seeds.map fun s => s.1).Nodup) (hne : seeds ≠ []) (hs : Scheduled seeds cnt b)
    (fuel : Nat) (hf : 0 < fuel) :
    ∃ h b1, nextServer fuel b = .done (.ok h, b1) ∧ (∃ s ∈ seeds, s.1 = h.name) ∧
      Scheduled seeds (fun n => cnt n + if n = h.name then 1 else 0) b1 := by
  have hname : ∀ h ∈ b.handlers, ∃ s ∈ seeds, s.1 = h.name ∧ (s.2.2 : ℚ) = h.weight ∧
      ((cnt s.1 : ℚ) + 1) / (s.2.2 : ℚ) = h.deadline := by
    intro h hm
    have : (h.name, h.weight, h.deadline) ∈
        seeds.map fun s => (s.1, (s.2.2 : ℚ), ((cnt s.1 : ℚ) + 1) / (s.2.2 : ℚ)) :=
      hs.handlers.subset (List.mem_map_of_mem (fun h => (h.name, h.weight, h.deadline)) hm)
    obtain ⟨s, hsm, e⟩ := List.mem_map.mp this
    simp only [Prod.mk.injEq] at e
    exact ⟨s, hsm, e.1, e.2.1, e.2.2⟩
  have hlen : b.handlers.length = seeds.length := by
    have := hs.handlers.length_eq
    simpa using this
  have hbne : b.handlers ≠ [] := by
    intro e
    rw [e] at hlen
    exact hne (List.length_eq_zero.mp hlen.symm)
  obtain ⟨rest, hperm, _, hrot⟩ := rotate_spec b hbne
  have hroot := root_mem b.handlers hbne
  obtain ⟨s0, hs0, hn0, hw0, hd0⟩ := hname _ hroot
  have helig : (b.handlers.getD 0 default).advance.name ∈ b.status ∧
      (b.handlers.getD 0 default).advance.name ∉ b.fenced := by
    constructor
    · have := hs.healthy s0 hs0
      rw [hn0] at this
      exact this
    · rw [hs.fenced]; simp
  have hpre : ¬ (b.handlers.length = 0 ∨ b.status.card = 0 ∨ b.fenced.card = b.handlers.length) := by
    have h1 : b.handlers.length ≠ 0 := fun e => hbne (List.length_eq_zero.mp e)
    rintro (h | h | h)
    · exact h1 h
    · rw [Finset.card_eq_zero] at h
      have := helig.1
      rw [h] at this
      simp at this
    · rw [hs.fenced] at h
      simp at h
      exact h1 h.symm
  obtain ⟨f, rfl⟩ : ∃ f, fuel = f + 1 := ⟨fuel - 1, by omega⟩
  have hnext : nextServer (f + 1) b = .done (.ok (b.handlers.getD 0 default).advance,
      { b with curDeadline := (b.handlers.getD 0 default).deadline,
               handlers := heapPush rest (b.handlers.getD 0 default).advance }) := by
    simp only [nextServer, if_neg hpre, nextServerLoop, hrot]
    rw [if_pos helig]
  refine ⟨_, _, hnext, ⟨s0, hs0, hn0⟩, ?_⟩
  refine ⟨Reachable.nextServer (f + 1) _ hs.reachable hnext, ?_, hs.healthy, hs.fenced⟩
  have hpush := (heapPush_perm rest (b.handlers.getD 0 default).advance).map
    fun h => (h.name, h.weight, h.deadline)
  refine hpush.trans ?_
  simp only [List.map_cons]
  have e0 : (fun s : String × Nat × Int =>
        (s.1, (s.2.2 : ℚ), ((cnt s.1 : ℚ) + 1) / (s.2.2 : ℚ))) s0
      = ((b.handlers.getD 0 default).name, (b.handlers.getD 0 default).weight,
          (b.handlers.getD 0 default).deadline) := by
    simp only [Prod.mk.injEq]
    exact ⟨hn0, hw0, hd0⟩
  have hp0 : ((fun s : String × Nat × Int =>
        (s.1, (s.2.2 : ℚ), ((cnt s.1 : ℚ) + 1) / (s.2.2 : ℚ))) s0 ::
      rest.map fun h => (h.name, h.weight, h.deadline)).Perm
      (seeds.map fun s => (s.1, (s.2.2 : ℚ), ((cnt s.1 : ℚ) + 1) / (s.2.2 : ℚ))) := by
    refine List.Perm.trans ?_ hs.handlers
    refine List.Perm.trans ?_ (hperm.map fun h => (h.name, h.weight, h.deadline))
    rw [e0]
    exact List.Perm.refl _
  have e2 : ((b.handlers.getD 0 default).advance.name, (b.handlers.getD 0 default).advance.weight,
        (b.handlers.getD 0 default).advance.deadline)
      = (fun s : String × Nat × Int => (s.1, (s.2.2 : ℚ),
          (((cnt s.1 + if s.1 = (b.handlers.getD 0 default).advance.name then 1 else 0 : Nat) : ℚ)
            + 1) / (s.2.2 : ℚ))) s0 := by
    have e1 : s0.1 = (b.handlers.getD 0 default).advance.name := hn0
    simp only [Prod.mk.injEq, if_pos e1]
    refine ⟨hn0.symm, hw0.symm, ?_⟩
    simp only [namedHandler.advance]
    rw [← hd0, ← hw0]
    push_cast
    ring
  rw [e2]
  refine perm_map_update seeds (fun s => s.1) hnd
    (fun s => (s.1, (s.2.2 : ℚ), ((cnt s.1 : ℚ) + 1) / (s.2.2 : ℚ)))
    (fun s => (s.1, (s.2.2 : ℚ),
      (((cnt s.1 + if s.1 = (b.handlers.getD 0 default).advance.name then 1 else 0 : Nat) : ℚ)
        + 1) / (s.2.2 : ℚ))) s0 hs0 ?_ _ hp0
  intro s _ hk
  have e1 : (b.handlers.getD 0 default).advance.name = s0.1 := hn0.symm
  simp only [e1, if_neg hk, Nat.add_zero]

/-- `K` picks from a scheduled balancer all return, each after one rotation,
and the counts go up by the number of times each backend was returned. -/
theorem Scheduled.picks (seeds : List (String × Nat × Int))
    (hnd : (seeds.map fun s => s.1).Nodup) (hne : seeds ≠ []) (fuel : Nat) (hf : 0 < fuel)
    (K : Nat) : ∀ (cnt : String → Nat) (b : Balancer), Scheduled seeds cnt b →
    ∃ tr b1, picks fuel K b = .done (tr, b1) ∧ tr.length = K ∧
      (∀ h ∈ tr, ∃ s ∈ seeds, s.1 = h.name) ∧
      Scheduled seeds (fun n => cnt n + timesReturned n tr) b1 := by
  induction K with
  | zero =>
    intro cnt b hs
    refine ⟨[], b, rfl, rfl, ?_, ?_⟩
    · intro h hm; simp at hm
    · have : (fun n => cnt n + timesReturned n []) = cnt := by
        funext n; simp [timesReturned]
      rw [this]; exact hs
  | succ K ih =>
    intro cnt b hs
    obtain ⟨h, b1, hnext, hmem, hs1⟩ := Scheduled.step seeds cnt b hnd hne hs fuel hf
    obtain ⟨tr, b2, hp, hlen, hall, hs2⟩ := ih _ b1 hs1
    refine ⟨h :: tr, b2, ?_, by simp [hlen], ?_, ?_⟩
    · simp only [wrr.picks, hnext, hp]
      rfl
    · intro g hg
      rcases List.mem_cons.mp hg with e | hm
      · rw [e]; exact hmem
      · exact hall g hm
    · have : (fun n => cnt n + timesReturned n (h :: tr))
          = fun n => (cnt n + if n = h.name then 1 else 0) + timesReturned n tr := by
        funext n
        simp only [timesReturned, List.map_cons, List.count_cons, beq_iff_eq]
        by_cases e : n = h.name
        · rw [if_pos e, if_pos e.symm]; omega
        · rw [if_neg e, if_neg (fun e2 => e e2.symm)]; omega
      rw [this]; exact hs2

/-- Over a list without repeated keys the indicator of one key sums to 1. -/
theorem sum_indicator_eq_one {α κ : Type} [DecidableEq κ] (k : α → κ) (a : κ) :
    ∀ l : List α, (l.map k).Nodup → a ∈ l.map k →
      (l.map fun s => if a = k s then 1 else 0).sum = 1 := by
  intro l
  induction l with
  | nil => intro _ h; simp at h
  | cons x l ih =>
    intro hnd hm
    simp only [List.map_cons, List.nodup_cons] at hnd
    simp only [List.map_cons, List.sum_cons]
    by_cases e : a = k x
    · have hz : (l.map fun s => if a = k s then 1 else 0).sum = 0 := by
        apply List.sum_eq_zero
        intro v hv
        obtain ⟨s, hs, rfl⟩ := List.mem_map.mp hv
        rw [if_neg]
        intro e2
        exact hnd.1 (e ▸ e2 ▸ List.mem_map_of_mem k hs)
      rw [if_pos e, hz]
    · have : a ∈ l.map k := by
        simp only [List.map_cons, List.mem_cons] at hm
        exact hm.resolve_left e
      rw [if_neg e, ih hnd.2 this]

/-- The counts of the backends add up to the number of picks. -/
theorem sum_timesReturned (seeds : List (String × Nat × Int))
    (hnd : (seeds.map fun s => s.1).Nodup) : ∀ tr : List namedHandler,
    (∀ h ∈ tr, ∃ s ∈ seeds, s.1 = h.name) →
    (seeds.map fun s => timesReturned s.1 tr).sum = tr.length := by
  intro tr
  induction tr with
  | nil => intro _; simp [timesReturned]
  | cons h tr ih =>
    intro hall
    have h1 : (seeds.map fun s => timesReturned s.1 (h :: tr))
        = seeds.map fun s => timesReturned s.1 tr + if h.name = s.1 then 1 else 0 := by
      apply List.map_congr_left
      intro s _
      simp only [timesReturned, List.map_cons, List.count_cons, beq_iff_eq]
    have hm : h.name ∈ seeds.map fun s => s.1 := by
      obtain ⟨s, hs, e⟩ := hall h (List.mem_cons_self _ _)
      exact e ▸ List.mem_map_of_mem (fun s => s.1) hs
    rw [h1, List.sum_map_add, ih fun g hg => hall g (List.mem_cons_of_mem _ hg),
      sum_indicator_eq_one (fun s : String × Nat × Int => s.1) h.name seeds hnd hm]
    simp

/-- A sum is below another one, with room `d`, when it is so termwise and one
term leaves that room. -/
theorem sum_map_add_le {α : Type} (f g : α → ℚ) (a : α) (d : ℚ) : ∀ l : List α, a ∈ l →
    (∀ x ∈ l, f x ≤ g x) → f a + d ≤ g a → (l.map f).sum + d ≤ (l.map g).sum := by
  intro l
  induction l with
  | nil => intro h; simp at h
  | cons x l ih =>
    intro ha hfg hd
    have hle : (l.map f).sum ≤ (l.map g).sum :=
      List.sum_le_sum fun y hy => hfg y (List.mem_cons_of_mem _ hy)
    simp only [List.map_cons, List.sum_cons]
    rcases List.mem_cons.mp ha with e | hm
    · subst e
      linarith
    · have := ih hm (fun y hy => hfg y (List.mem_cons_of_mem _ hy)) hd
      have := hfg x (List.mem_cons_self _ _)
      linarith

/-- In a scheduled balancer no backend is more than one pick ahead of another,
weights taken into account: `c_i / w_i ≤ (c_j + 1) / w_j`. -/
theorem Scheduled.pairwise (seeds : List (String × Nat × Int)) (cnt : String → Nat)
    (b : Balancer) (hpos : ∀ s ∈ seeds, 0 < s.2.2) (hs : Scheduled seeds cnt b)
    (si sj : String × Nat × Int) (hi : si ∈ seeds) (hj : sj ∈ seeds) :
    (cnt si.1 : ℚ) * (sj.2.2 : ℚ) ≤ ((cnt sj.1 : ℚ) + 1) * (si.2.2 : ℚ) := by
  have hd := (Reachable_inv b hs.reachable).2
  have hfind : ∀ s ∈ seeds, ∃ h ∈ b.handlers, h.weight = (s.2.2 : ℚ) ∧
      h.deadline = ((cnt s.1 : ℚ) + 1) / (s.2.2 : ℚ) := by
    intro s hsm
    have : (s.1, (s.2.2 : ℚ), ((cnt s.1 : ℚ) + 1) / (s.2.2 : ℚ)) ∈
        b.handlers.map fun h => (h.name, h.weight, h.deadline) :=
      hs.handlers.symm.subset
        (List.mem_map_of_mem
          (fun s : String × Nat × Int => (s.1, (s.2.2 : ℚ), ((cnt s.1 : ℚ) + 1) / (s.2.2 : ℚ))) hsm)
    obtain ⟨h, hm, e⟩ := List.mem_map.mp this
    simp only [Prod.mk.injEq] at e
    exact ⟨h, hm, e.2.1, e.2.2⟩
  obtain ⟨gi, hgi, wi, di⟩ := hfind si hi
  obtain ⟨gj, hgj, wj, dj⟩ := hfind sj hj
  have hwi : (0 : ℚ) < (si.2.2 : ℚ) := by exact_mod_cast hpos si hi
  have hwj : (0 : ℚ) < (sj.2.2 : ℚ) := by exact_mod_cast hpos sj hj
  have h1 := (hd gi hgi).2.1
  have h2 := (hd gj hgj).2.2
  rw [wi, di] at h1
  rw [dj] at h2
  have h3 : (cnt si.1 : ℚ) / (si.2.2 : ℚ) ≤ ((cnt sj.1 : ℚ) + 1) / (sj.2.2 : ℚ) := by
    have e : ((cnt si.1 : ℚ) + 1) / (si.2.2 : ℚ) - 1 / (si.2.2 : ℚ)
        = (cnt si.1 : ℚ) / (si.2.2 : ℚ) := by ring
    rw [e] at h1
    exact le_trans h1 h2
  rwa [div_le_div_iff₀ hwi hwj] at h3

/-- The share bounds in product form: with `c` the number of times a backend
of weight `w` was returned in `K` picks, `W` the sum of the weights and `n` the
number of backends, `(K + 1) w ≤ (c + 1) W` and `c W + w ≤ (K + n) w`. -/
theorem Scheduled.share (seeds : List (String × Nat × Int)) (hpos : ∀ s ∈ seeds, 0 < s.2.2)
    (hnd : (seeds.map fun s => s.1).Nodup) (tr : List namedHandler) (b : Balancer)
    (hall : ∀ h ∈ tr, ∃ s ∈ seeds, s.1 = h.name)
    (hs : Scheduled seeds (fun n => 0 + timesReturned n tr) b)
    (si : String × Nat × Int) (hi : si ∈ seeds) :
    ((tr.length : ℚ) + 1) * (si.2.2 : ℚ)
        ≤ ((timesReturned si.1 tr : ℚ) + 1) * (seeds.map fun s => (s.2.2 : ℚ)).sum ∧
      (timesReturned si.1 tr : ℚ) * (seeds.map fun s => (s.2.2 : ℚ)).sum + (si.2.2 : ℚ)
        ≤ ((tr.length : ℚ) + (seeds.length : ℚ)) * (si.2.2 : ℚ) := by
  have hpair : ∀ s ∈ seeds, ∀ t ∈ seeds,
      (timesReturned s.1 tr : ℚ) * (t.2.2 : ℚ) ≤ ((timesReturned t.1 tr : ℚ) + 1) * (s.2.2 : ℚ) := by
    intro s hsm t htm
    have := Scheduled.pairwise seeds _ b hpos hs s t hsm htm
    simpa using this
  have hsum : (seeds.map fun s => (timesReturned s.1 tr : ℚ)).sum = (tr.length : ℚ) := by
    have := sum_timesReturned seeds hnd tr hall
    have h2 : ((seeds.map fun s => timesReturned s.1 tr).sum : ℚ) = (tr.length : ℚ) := by
      exact_mod_cast this
    rw [← h2, Nat.cast_list_sum, List.map_map]
    rfl
  have hlow := sum_map_add_le (fun s : String × Nat × Int => (timesReturned s.1 tr : ℚ) * (si.2.2 : ℚ))
    (fun s => ((timesReturned si.1 tr : ℚ) + 1) * (s.2.2 : ℚ)) si (si.2.2 : ℚ) seeds hi
    (fun s hsm => hpair s hsm si hi) (le_of_eq (by ring))
  have hup := sum_map_add_le (fun s : String × Nat × Int => (timesReturned si.1 tr : ℚ) * (s.2.2 : ℚ))
    (fun s => ((timesReturned s.1 tr : ℚ) + 1) * (si.2.2 : ℚ)) si (si.2.2 : ℚ) seeds hi
    (fun s hsm => hpair si hi s hsm) (le_of_eq (by ring))
  rw [List.sum_map_mul_right, List.sum_map_mul_left, hsum] at hlow
  rw [List.sum_map_mul_left, List.sum_map_mul_right, List.sum_map_add, hsum] at hup
  have hone : (seeds.map fun _ => (1 : ℚ)).sum = (seeds.length : ℚ) := by
    simp
  rw [hone] at hup
  constructor
  · linarith
  · linarith

/-- C3 as stated fails: with weights 4, 1, 1, 1 the first three picks all
return `a`, whose ideal share of three picks is `12 / 7`, more than 1 away. -/
theorem within_one_of_share_fails :
    ¬ ∀ (sticky : Option Sticky) (wantHealthCheck : Bool) (seeds : List (String × Nat × Int))
        (K fuel : Nat) (tr : List namedHandler) (b1 : Balancer),
      (∀ s ∈ seeds, 0 < s.2.2) → (seeds.map fun s => s.1).Nodup →
      picks fuel K (seed (New sticky wantHealthCheck) seeds) = .done (tr, b1) →
      ∀ s ∈ seeds,
        (K : ℚ) * (s.2.2 : ℚ) / (seeds.map fun s => (s.2.2 : ℚ)).sum - 1
            ≤ (timesReturned s.1 tr : ℚ) ∧
          (timesReturned s.1 tr : ℚ)
            ≤ (K : ℚ) * (s.2.2 : ℚ) / (seeds.map fun s => (s.2.2 : ℚ)).sum + 1 := by
  intro hall
  have h := hall none false fourSeeds 3 1 threePicks afterThreePicks (by decide) (by decide)
    (by with_unfolding_all rfl) ("a", 0, 4) (by decide)
  exact absurd h.2 (by decide!)

/-- C3, amended. Deadlines read as exact rationals: for a balancer seeded by
`Add` with backends of distinct names and positive integer weights `w_i` (all
healthy, none fenced), every run of `K` consecutive `nextServer` calls returns
`K` handlers, and the number `c_i` of
times backend `i` is returned satisfies
`K * w_i / W - 1 < c_i ≤ K * w_i / W + (n - 1) * w_i / W`,
with `W` the sum of the weights and `n` the number of backends: a backend is
never a full pick behind its ideal share, and is ahead of it by at most
`(n - 1) * w_i / W`, which is less than 1 for two backends but not in general. -/
theorem weighted_fairness (sticky : Option Sticky) (wantHealthCheck : Bool)
    (seeds : List (String × Nat × Int)) (hpos : ∀ s ∈ seeds, 0 < s.2.2)
    (hnd : (seeds.map fun s => s.1).Nodup) (hne : seeds ≠ []) (K fuel : Nat) (hf : 0 < fuel) :
    ∃ tr b1, picks fuel K (seed (New sticky wantHealthCheck) seeds) = .done (tr, b1) ∧
      tr.length = K ∧
      ∀ s ∈ seeds,
        (K : ℚ) * (s.2.2 : ℚ) / (seeds.map fun s => (s.2.2 : ℚ)).sum - 1
            < (timesReturned s.1 tr : ℚ) ∧
          (timesReturned s.1 tr : ℚ)
            ≤ (K : ℚ) * (s.2.2 : ℚ) / (seeds.map fun s => (s.2.2 : ℚ)).sum
              + ((seeds.length : ℚ) - 1) * (s.2.2 : ℚ) / (seeds.map fun s => (s.2.2 : ℚ)).sum := by
  obtain ⟨n1, n2, n3, n4, n5, _⟩ := New_fields sticky wantHealthCheck
  obtain ⟨r1, _, r3, r4, r5⟩ := seed_spec seeds (New sticky wantHealthCheck) hpos
    (Reachable.new sticky wantHealthCheck) n2
  have hs0 : Scheduled seeds (fun _ => 0) (seed (New sticky wantHealthCheck) seeds) := by
    refine ⟨r1, ?_, fun s hsm => r4 s.1 (Or.inr ⟨s, hsm, rfl⟩), r3.trans n4⟩
    rw [n1] at r5
    simpa using r5
  obtain ⟨tr, b1, hp, hlen, hall, hs1⟩ := Scheduled.picks seeds hnd hne fuel hf K _ _ hs0
  refine ⟨tr, b1, hp, hlen, ?_⟩
  intro s hsm
  obtain ⟨hlow, hup⟩ := Scheduled.share seeds hpos hnd tr b1 hall hs1 s hsm
  rw [hlen] at hlow hup
  have hw : (0 : ℚ) < (s.2.2 : ℚ) := by exact_mod_cast hpos s hsm
  have hc : (0 : ℚ) ≤ (timesReturned s.1 tr : ℚ) := Nat.cast_nonneg _
  have hK : (0 : ℚ) ≤ (K : ℚ) := Nat.cast_nonneg _
  have hW : (0 : ℚ) < (seeds.map fun s => (s.2.2 : ℚ)).sum := by
    by_contra hneg
    have h1 : ((timesReturned s.1 tr : ℚ) + 1) * (seeds.map fun s => (s.2.2 : ℚ)).sum ≤ 0 :=
      mul_nonpos_of_nonneg_of_nonpos (by linarith) (not_lt.mp hneg)
    have h2 : 0 < ((K : ℚ) + 1) * (s.2.2 : ℚ) := by positivity
    linarith
  constructor
  · rw [sub_lt_iff_lt_add, div_lt_iff₀ hW]
    linarith
  · rw [← add_div, le_div_iff₀ hW]
    linarith

/-- C3 amended, at weights 4, 1, 1, 1 and three picks: all three return `a`. -/
theorem weighted_fairness_witness :
    (∀ s ∈ fourSeeds, 0 < s.2.2) ∧ (fourSeeds.map fun s => s.1).Nodup ∧ fourSeeds ≠ [] ∧
    timesReturned "a" threePicks = 3 ∧
    picks 1 3 (seed (New none false) fourSeeds) = .done (threePicks, afterThreePicks) ∧
    ∃ tr b1, picks 1 3 (seed (New none false) fourSeeds) = .done (tr, b1) ∧
      tr.length = 3 ∧
      ∀ s ∈ fourSeeds,
        ((3 : Nat) : ℚ) * (s.2.2 : ℚ) / (fourSeeds.map fun s => (s.2.2 : ℚ)).sum - 1
            < (timesReturned s.1 tr : ℚ) ∧
          (timesReturned s.1 tr : ℚ)
            ≤ ((3 : Nat) : ℚ) * (s.2.2 : ℚ) / (fourSeeds.map fun s => (s.2.2 : ℚ)).sum
              + ((fourSeeds.length : ℚ) - 1) * (s.2.2 : ℚ)
                / (fourSeeds.map fun s => (s.2.2 : ℚ)).sum :=
  ⟨by decide, by decide, by decide, by decide!, by with_unfolding_all rfl,
    weighted_fairness none false fourSeeds (by decide) (by decide) (by decide) 3 1 (by decide)⟩

/-! ## Sticky dispatch: both maps -/

/-- A cookie value that `stickyMap` does not resolve to a healthy handler and
that `compatibilityStickyMap` resolves to a healthy one is served by that
handler, after `writeStickyCookie`. -/
theorem stickyDispatch_compat (b : Balancer) (s : stickyState) (req : Request) (value : String)
    (h : namedHandler) (hs : b.sticky = some s)
    (hreq : req.Cookie s.stickyCookie.name = some value)
    (hmiss : ∀ g, s.stickyMap value = some g → g.name ∉ b.status)
    (hmap : s.compatibilityStickyMap value = some h) (hup : h.name ∈ b.status) :
    stickyDispatch b req = some (.served (some (writeStickyCookie s.stickyCookie h)) h) := by
  unfold stickyDispatch
  simp only [hs, hreq, hmap]
  have h1 : (s.stickyMap value).filter (fun handler : namedHandler => decide (handler.name ∈ b.status))
      = none := by
    cases hv : s.stickyMap value with
    | none => rfl
    | some g => simp [Option.filter, hmiss g hv]
  have h2 : (Option.filter (fun handler : namedHandler => decide (handler.name ∈ b.status)) (some h))
      = some h := by
    simp [Option.filter, hup]
  simp only [h1, h2]

/-- Without a sticky configuration, or without the sticky cookie in the
request, the sticky branch falls through. -/
theorem stickyDispatch_none (b : Balancer) (req : Request)
    (h : ∀ s, b.sticky = some s → req.Cookie s.stickyCookie.name = none) :
    stickyDispatch b req = none := by
  unfold stickyDispatch
  cases hs : b.sticky with
  | none => rfl
  | some s => simp only [h s hs]

/-- What `Add` does to the sticky maps. -/
theorem Add_sticky (b : Balancer) (name : String) (handler : Nat) (weight : Option Int)
    (fenced : Bool) (hw : 0 < effectiveWeight weight) :
    (b.sticky = none → (Add b name handler weight fenced).sticky = none) ∧
    (∀ s, b.sticky = some s → (Add b name handler weight fenced).sticky = some
      { s with
        stickyMap := Function.update s.stickyMap (sha256Hash name)
          (some (addedHandler b name handler weight))
        compatibilityStickyMap :=
          Function.update
            (Function.update
              (Function.update s.compatibilityStickyMap name
                (some (addedHandler b name handler weight)))
              (fnvHash name) (some (addedHandler b name handler weight)))
            (fnvHash (fnvHash name)) (some (addedHandler b name handler weight)) }) := by
  have hw2 : ¬ effectiveWeight weight ≤ 0 := by omega
  constructor
  · intro hs
    simp only [Add, if_neg hw2, hs]
  · intro s hs
    simp only [Add, if_neg hw2, hs, addedHandler, Option.isSome_some, if_true]

/-- In a reachable balancer every entry of the two sticky maps carries the
truncated SHA-256 of its name as `hashedName`. -/
theorem Reachable_sticky_hashed (b : Balancer) (hb : Reachable b) :
    ∀ s, b.sticky = some s → ∀ k g,
      s.stickyMap k = some g ∨ s.compatibilityStickyMap k = some g →
      g.hashedName = sha256Hash g.name := by
  induction hb with
  | new sticky wantHealthCheck =>
    intro s hs k g hg
    unfold New at hs
    cases sticky with
    | none => simp at hs
    | some st =>
      cases hc : st.Cookie with
      | none => simp [hc] at hs
      | some c =>
        simp only [hc, Option.some.injEq] at hs
        subst hs
        simp at hg
  | @add b name handler weight fenced _ ih =>
    intro s hs k g hg
    by_cases hw : effectiveWeight weight ≤ 0
    · rw [Add_nonpos b name handler weight fenced hw] at hs
      exact ih s hs k g hg
    · obtain ⟨hn, hsome⟩ := Add_sticky b name handler weight fenced (by omega)
      cases hb0 : b.sticky with
      | none => rw [hn hb0] at hs; simp at hs
      | some s0 =>
        rw [hsome s0 hb0, Option.some.injEq] at hs
        subst hs
        have hadd : (addedHandler b name handler weight).hashedName
            = sha256Hash (addedHandler b name handler weight).name := by
          simp [addedHandler, hb0]
        simp only [Function.update_apply] at hg
        rcases hg with hg | hg
        · split_ifs at hg with h1
          · rw [← Option.some.inj hg]; exact hadd
          · exact ih s0 hb0 k g (Or.inl hg)
        · split_ifs at hg with h1 h2 h3
          · rw [← Option.some.inj hg]; exact hadd
          · rw [← Option.some.inj hg]; exact hadd
          · rw [← Option.some.inj hg]; exact hadd
          · exact ih s0 hb0 k g (Or.inr hg)
  | setStatus childName up _ ih =>
    rw [SetStatus_fst]
    exact ih
  | nextServer fuel r _ hn ih =>
    have hrot := nextServer_rotated fuel _ _ r hn
    intro s hs
    rw [hrot.sticky] at hs
    exact ih s hs

/-! ## The shape of `sha256Hash` -/

theorem sha256Round_length (v : List Nat) (kw : Nat × Nat) (h : v.length = 8) :
    (sha256Round v kw).length = 8 := by
  match v, h with
  | [_, _, _, _, _, _, _, _], _ => rfl

theorem sha256Round_foldl_length (l : List (Nat × Nat)) : ∀ v : List Nat, v.length = 8 →
    (l.foldl sha256Round v).length = 8 := by
  induction l with
  | nil => intro v h; exact h
  | cons kw l ih => intro v h; exact ih _ (sha256Round_length v kw h)

theorem sha256Block_length (hv block : List Nat) (h : hv.length = 8) :
    (sha256Block hv block).length = 8 := by
  simp [sha256Block, List.length_zipWith, h, sha256Round_foldl_length _ hv h]

theorem sha256Blocks_length (n : Nat) : ∀ hv m : List Nat, hv.length = 8 →
    (sha256Blocks n hv m).length = 8 := by
  induction n with
  | zero => intro hv m h; exact h
  | succ n ih => intro hv m h; exact ih _ _ (sha256Block_length hv _ h)

/-- The digest has 32 bytes. -/
theorem sha256Sum_length (m : List Nat) : (sha256Sum m).length = 32 := by
  have h8 := sha256Blocks_length ((sha256Pad m).length / 64) sha256Init (sha256Pad m) rfl
  have key : ∀ l : List Nat,
      (l.flatMap fun w => [w >>> 24 % 256, w >>> 16 % 256, w >>> 8 % 256, w % 256]).length
        = 4 * l.length := by
    intro l
    induction l with
    | nil => rfl
    | cons a l ih => simp only [List.flatMap_cons, List.length_append, ih, List.length_cons,
        List.length_nil]; omega
  unfold sha256Sum
  simp only [key, h8]

/-- Every byte of the digest is below 256. -/
theorem sha256Sum_lt (m : List Nat) : ∀ x ∈ sha256Sum m, x < 256 := by
  intro x hx
  unfold sha256Sum at hx
  simp only [List.mem_flatMap, List.mem_cons, List.mem_singleton, List.not_mem_nil,
    or_false] at hx
  obtain ⟨w, _, h | h | h | h⟩ := hx <;> (rw [h]; exact Nat.mod_lt _ (by decide))

theorem hexDigit_isLowerHex : ∀ n < 16, isLowerHex (hexDigit n) = true := by
  decide

/-- `hex.EncodeToString` writes two lower-case hexadecimal digits per byte. -/
theorem hexEncode_spec (bs : List Nat) (hb : ∀ x ∈ bs, x < 256) :
    (hexEncode bs).data.length = 2 * bs.length ∧
      ∀ c ∈ (hexEncode bs).data, isLowerHex c = true := by
  induction bs with
  | nil => exact ⟨rfl, fun c hc => by simp [hexEncode] at hc⟩
  | cons b bs ih =>
    obtain ⟨h1, h2⟩ := ih fun x hx => hb x (List.mem_cons_of_mem _ hx)
    have hlt := hb b (List.mem_cons_self _ _)
    simp only [hexEncode, List.flatMap_cons] at h1 h2 ⊢
    constructor
    · simp only [List.length_append, List.length_cons, List.length_nil, h1]; omega
    · intro c hc
      rcases List.mem_append.mp hc with hc | hc
      · simp only [List.mem_cons, List.mem_singleton, List.not_mem_nil, or_false] at hc
        rcases hc with e | e
        · rw [e]; exact hexDigit_isLowerHex _ (by omega)
        · rw [e]; exact hexDigit_isLowerHex _ (Nat.mod_lt _ (by decide))
      · exact h2 c hc

/-- `sha256Hash` returns exactly 16 lower-case hexadecimal characters. -/
theorem sha256Hash_shape (input : String) :
    (sha256Hash input).length = 16 ∧ ∀ c ∈ (sha256Hash input).data, isLowerHex c = true := by
  obtain ⟨h1, h2⟩ := hexEncode_spec (sha256Sum (bytes input)) (sha256Sum_lt _)
  rw [sha256Sum_length] at h1
  have hlen : ¬ (hexEncode (sha256Sum (bytes input))).length < 16 := by
    rw [String.length, h1]; decide
  simp only [sha256Hash, if_neg hlen]
  constructor
  · simp only [String.length, List.length_take, h1]; decide
  · intro c hc
    exact h2 c (List.mem_of_mem_take hc)

/-! ## Claims on dispatch, `Add` keys, `SetStatus` and `RegisterStatusUpdater` -/

/-- C11. For every request whose sticky cookie value is a key of `stickyMap`
resolving to a handler `h` with `h.name` in `status`, `ServeHTTP` invokes `h`
(whether or not `h.name` is in `fenced`), calls `http.SetCookie` not at all,
and leaves the balancer as it was, `handlers`, deadlines and `curDeadline`
included: the result does not depend on the fuel, `nextServer` is not run. -/
theorem sticky_hit_serves (fuel : Nat) (b : Balancer) (s : stickyState) (req : Request)
    (value : String) (h : namedHandler) (hs : b.sticky = some s)
    (hreq : req.Cookie s.stickyCookie.name = some value) (hmap : s.stickyMap value = some h)
    (hup : h.name ∈ b.status) :
    ServeHTTP fuel b req = .done (.served none h, b) := by
  unfold ServeHTTP
  rw [stickyDispatch_hit b s req value h hs hreq hmap hup]

/-- C11, at a sticky balancer whose only backend `a` is fenced: the cookie of
`a` is served by `a`, with no fuel at all. -/
theorem sticky_hit_serves_witness :
    stickyFenced.sticky = some stickyFencedState ∧ "a" ∈ stickyFenced.fenced ∧
      firstA.name ∈ stickyFenced.status ∧
      ServeHTTP 0 stickyFenced { cookies := [("lb", sha256Hash "a")] }
        = .done (.served none firstA, stickyFenced) :=
  ⟨by with_unfolding_all rfl, by decide!, by decide!,
    sticky_hit_serves 0 stickyFenced stickyFencedState { cookies := [("lb", sha256Hash "a")] }
      (sha256Hash "a") firstA (by with_unfolding_all rfl) (by with_unfolding_all rfl)
      (by decide!) (by decide!)⟩

/-- C12. Legacy cookie upgrade: for every request whose sticky cookie value
does not resolve to a healthy handler in `stickyMap` but is a key of
`compatibilityStickyMap` resolving to a handler `h` with `h.name` in `status`,
`ServeHTTP` calls `http.SetCookie` with the sticky cookie set to `h.hashedName`
and then invokes `h`; the balancer is left as it was and the result does not
depend on the fuel (`nextServer` is not run).  In a reachable balancer
`h.hashedName` is `sha256Hash h.name`, 16 lower-case hexadecimal characters. -/
theorem legacy_cookie_upgrade (fuel : Nat) (b : Balancer) (s : stickyState) (req : Request)
    (value : String) (h : namedHandler) (hs : b.sticky = some s)
    (hreq : req.Cookie s.stickyCookie.name = some value)
    (hmiss : ∀ g, s.stickyMap value = some g → g.name ∉ b.status)
    (hmap : s.compatibilityStickyMap value = some h) (hup : h.name ∈ b.status) :
    ServeHTTP fuel b req = .done (.served (some (writeStickyCookie s.stickyCookie h)) h, b) ∧
      (writeStickyCookie s.stickyCookie h).Name = s.stickyCookie.name ∧
      (writeStickyCookie s.stickyCookie h).Value = h.hashedName ∧
      (Reachable b → h.hashedName = sha256Hash h.name ∧ h.hashedName.length = 16 ∧
        ∀ c ∈ h.hashedName.data, isLowerHex c = true) := by
  refine ⟨?_, rfl, rfl, ?_⟩
  · unfold ServeHTTP
    rw [stickyDispatch_compat b s req value h hs hreq hmiss hmap hup]
  · intro hb
    have e := Reachable_sticky_hashed b hb s hs value h (Or.inr hmap)
    rw [e]
    exact ⟨rfl, sha256Hash_shape h.name⟩

/-- C12, at a sticky balancer with backends `a` and `b`: a request carrying the
FNV hash of `a`, as older versions wrote it, is served by `a` and gets the
cookie rewritten to `sha256Hash "a"`. -/
theorem legacy_cookie_upgrade_witness :
    stickyPair.sticky = some stickyPairState ∧
    stickyPairState.stickyMap (fnvHash "a") = none ∧
    stickyPairState.compatibilityStickyMap (fnvHash "a") = some firstA ∧
    ServeHTTP 0 stickyPair { cookies := [("lb", fnvHash "a")] }
        = .done (.served (some (writeStickyCookie stickyPairState.stickyCookie firstA)) firstA,
            stickyPair) ∧
      (writeStickyCookie stickyPairState.stickyCookie firstA).Name
        = stickyPairState.stickyCookie.name ∧
      (writeStickyCookie stickyPairState.stickyCookie firstA).Value = firstA.hashedName ∧
      (Reachable stickyPair → firstA.hashedName = sha256Hash firstA.name ∧
        firstA.hashedName.length = 16 ∧ ∀ c ∈ firstA.hashedName.data, isLowerHex c = true) :=
  have hnone : stickyPairState.stickyMap (fnvHash "a") = none := by decide!
  ⟨by with_unfolding_all rfl, hnone, by decide!,
    legacy_cookie_upgrade 0 stickyPair stickyPairState { cookies := [("lb", fnvHash "a")] }
      (fnvHash "a") firstA (by with_unfolding_all rfl) (by with_unfolding_all rfl)
      (fun g hg => by rw [hnone] at hg; exact Option.noConfusion hg) (by decide!) (by decide!)⟩

/-- C13. For every sticky-enabled balancer and every `Add(name, ...)` with a
positive effective weight, the handler `h` it creates is in `handlers` with
`h.hashedName = sha256Hash name`; afterwards `stickyMap[sha256Hash name]` is
`h` and `compatibilityStickyMap` maps each of `name`, `fnvHash name` and
`fnvHash (fnvHash name)` to `h`; and `sha256Hash name` is exactly 16
lower-case hexadecimal characters. -/
theorem Add_sticky_keys (b : Balancer) (s : stickyState) (name : String) (handler : Nat)
    (weight : Option Int) (fenced : Bool) (hs : b.sticky = some s)
    (hw : 0 < effectiveWeight weight) :
    ∃ (h : namedHandler) (s1 : stickyState),
      h ∈ (Add b name handler weight fenced).handlers ∧
      h.name = name ∧ h.Handler = handler ∧ h.hashedName = sha256Hash name ∧
      (Add b name handler weight fenced).sticky = some s1 ∧
      s1.stickyMap (sha256Hash name) = some h ∧
      s1.compatibilityStickyMap name = some h ∧
      s1.compatibilityStickyMap (fnvHash name) = some h ∧
      s1.compatibilityStickyMap (fnvHash (fnvHash name)) = some h ∧
      (sha256Hash name).length = 16 ∧ ∀ c ∈ (sha256Hash name).data, isLowerHex c = true := by
  obtain ⟨h1, _⟩ := Add_pos b name handler weight fenced hw
  have h2 := (Add_sticky b name handler weight fenced hw).2 s hs
  refine ⟨addedHandler b name handler weight, _, ?_, rfl, rfl, ?_, h2, ?_, ?_, ?_, ?_,
    sha256Hash_shape name⟩
  · rw [h1]
    exact (heapPush_perm _ _).symm.subset (List.mem_cons_self _ _)
  · simp [addedHandler, hs]
  · simp [Function.update_apply]
  · simp only [Function.update_apply]
    split_ifs <;> rfl
  · simp only [Function.update_apply]
    split_ifs <;> rfl
  · simp [Function.update_apply]

/-- C13, adding `b` to the sticky balancer that holds `a`. -/
theorem Add_sticky_keys_witness :
    stickyFenced.sticky = some stickyFencedState ∧ 0 < effectiveWeight (some 2) ∧
    sha256Hash "b" = "3e23e8160039594a" ∧ fnvHash "b" = "af63bd4c8601b7bd" ∧
    ∃ (h : namedHandler) (s1 : stickyState),
      h ∈ (Add stickyFenced "b" 1 (some 2) false).handlers ∧
      h.name = "b" ∧ h.Handler = 1 ∧ h.hashedName = sha256Hash "b" ∧
      (Add stickyFenced "b" 1 (some 2) false).sticky = some s1 ∧
      s1.stickyMap (sha256Hash "b") = some h ∧
      s1.compatibilityStickyMap "b" = some h ∧
      s1.compatibilityStickyMap (fnvHash "b") = some h ∧
      s1.compatibilityStickyMap (fnvHash (fnvHash "b")) = some h ∧
      (sha256Hash "b").length = 16 ∧ ∀ c ∈ (sha256Hash "b").data, isLowerHex c = true :=
  ⟨by with_unfolding_all rfl, by decide, by decide!, by decide!,
    Add_sticky_keys stickyFenced stickyFencedState "b" 1 (some 2) false
      (by with_unfolding_all rfl) (by decide)⟩

/-- With the pre-check passed and no handler both healthy and not fenced,
`nextServer` is still running after any number of iterations. -/
theorem nextServer_running (fuel : Nat) (b : Balancer)
    (hpre : ¬ (b.handlers.length = 0 ∨ b.status.card = 0 ∨ b.fenced.card = b.handlers.length))
    (hno : ∀ h ∈ b.handlers, ¬ (h.name ∈ b.status ∧ h.name ∉ b.fenced)) :
    nextServer fuel b = .running := by
  have hne : b.handlers ≠ [] := fun e => hpre (Or.inl (by rw [e]; rfl))
  simp only [nextServer, if_neg hpre, nextServerLoop_running fuel b hne hno]

/-- When the pre-check of `nextServer` fails and the sticky branch falls
through, `ServeHTTP` calls `http.Error` with `errNoAvailableServer` and 503,
and no handler. -/
theorem ServeHTTP_unavailable (fuel : Nat) (b : Balancer) (req : Request)
    (hsticky : stickyDispatch b req = none)
    (hpre : b.handlers.length = 0 ∨ b.status.card = 0 ∨ b.fenced.card = b.handlers.length) :
    ServeHTTP fuel b req = .done (.error "no available server" 503, b) := by
  simp only [ServeHTTP, hsticky, nextServer_unavailable fuel b hpre]
  rfl

/-- C14 (the code at the failing input). With `a` fenced and `b` down no
handler is both healthy and not fenced, the request carries no sticky cookie,
and `ServeHTTP` neither answers 503 nor anything else: it is still inside the
loop of `nextServer` after any number of iterations. -/
theorem ServeHTTP_spins_fenced_and_down :
    Reachable fencedAndDown ∧
    (∀ h ∈ fencedAndDown.handlers,
      ¬ (h.name ∈ fencedAndDown.status ∧ h.name ∉ fencedAndDown.fenced)) ∧
    ∀ fuel, ServeHTTP fuel fencedAndDown { cookies := [] } = .running := by
  refine ⟨?_, by decide!, ?_⟩
  · exact Reachable.setStatus "b" false
      (Reachable.add "b" 1 none false (Reachable.add "a" 0 none true (Reachable.new none false)))
  · intro fuel
    have hs : stickyDispatch fencedAndDown { cookies := [] } = none :=
      stickyDispatch_none _ _ (fun s hs => by
        have : fencedAndDown.sticky = none := by with_unfolding_all rfl
        rw [this] at hs
        exact Option.noConfusion hs)
    simp only [ServeHTTP, hs, nextServer_running fuel fencedAndDown (by decide!) (by decide!)]

/-- C15. `SetStatus` puts the name into `status` when `up` is true and takes
it out when false.  It invokes no updater when the aggregate `|status| > 0` is
the same before and after; when the aggregate differs it calls every
registered updater exactly once, in registration order, with the new
aggregate.  It leaves `handlers` (deadlines included), `curDeadline`,
`fenced` and every field other than `status` as they were. -/
theorem SetStatus_effect (b : Balancer) (childName : String) (up : Bool) :
    (∀ n, n ∈ (SetStatus b childName up).1.status ↔
      if up then n = childName ∨ n ∈ b.status else n ≠ childName ∧ n ∈ b.status) ∧
    ((0 < b.status.card ↔ 0 < (SetStatus b childName up).1.status.card) →
      (SetStatus b childName up).2 = []) ∧
    (¬ (0 < b.status.card ↔ 0 < (SetStatus b childName up).1.status.card) →
      (SetStatus b childName up).2
        = b.updaters.map fun fn => (fn, decide (0 < (SetStatus b childName up).1.status.card))) ∧
    (SetStatus b childName up).1.handlers = b.handlers ∧
    (SetStatus b childName up).1.curDeadline = b.curDeadline ∧
    (SetStatus b childName up).1.fenced = b.fenced ∧
    (SetStatus b childName up).1.updaters = b.updaters ∧
    (SetStatus b childName up).1.sticky = b.sticky ∧
    (SetStatus b childName up).1.wantsHealthCheck = b.wantsHealthCheck := by
  have hfst := SetStatus_fst b childName up
  refine ⟨?_, ?_, ?_, by rw [hfst], by rw [hfst], by rw [hfst], by rw [hfst], by rw [hfst],
    by rw [hfst]⟩
  · intro n
    rw [hfst]
    cases up with
    | true => simp
    | false => simp
  · intro hsame
    rw [hfst] at hsame
    unfold SetStatus
    simp only
    rw [if_pos]
    simpa [gt_iff_lt] using hsame
  · intro hdiff
    rw [hfst] at hdiff ⊢
    unfold SetStatus
    simp only
    rw [if_neg]
    simpa [gt_iff_lt] using hdiff

/-- The flag `wantsHealthCheck` is the one `New` was given. -/
theorem CreatedWith_wantsHealthCheck (wantHealthCheck : Bool) (b : Balancer)
    (hb : CreatedWith wantHealthCheck b) : b.wantsHealthCheck = wantHealthCheck := by
  induction hb with
  | new sticky => exact (New_fields sticky wantHealthCheck).2.2.2.2.2
  | @add b name handler weight fenced _ ih =>
    by_cases hw : effectiveWeight weight ≤ 0
    · rw [Add_nonpos b name handler weight fenced hw]; exact ih
    · rw [(Add_pos b name handler weight fenced (by omega)).2.2.2.2.2]; exact ih
  | setStatus childName up _ ih => rw [SetStatus_fst]; exact ih
  | nextServer fuel r _ hn ih =>
    rw [(nextServer_rotated fuel _ _ r hn).wantsHealthCheck]; exact ih
  | @registerStatusUpdater b fn _ ih =>
    unfold RegisterStatusUpdater
    split_ifs <;> exact ih

/-- C16. `RegisterStatusUpdater` returns an error if and only if the balancer
was created with `wantHealthCheck = false`; on error the balancer, its
`updaters` included, is unchanged; on success `fn` is appended as the last
element of `updaters` and nothing else changes. -/
theorem RegisterStatusUpdater_error_iff (wantHealthCheck : Bool) (b : Balancer)
    (hb : CreatedWith wantHealthCheck b) (fn : Nat) :
    ((RegisterStatusUpdater b fn).2 ≠ none ↔ wantHealthCheck = false) ∧
    ((RegisterStatusUpdater b fn).2 ≠ none → (RegisterStatusUpdater b fn).1 = b) ∧
    ((RegisterStatusUpdater b fn).2 = none →
      (RegisterStatusUpdater b fn).1 = { b with updaters := b.updaters ++ [fn] }) := by
  have hw := CreatedWith_wantsHealthCheck wantHealthCheck b hb
  unfold RegisterStatusUpdater
  cases wantHealthCheck with
  | false => simp [hw]
  | true => simp [hw]

/-- C16, at a balancer created without health checking (the call fails) and at
one created with it that already has updaters 5 and 8 (9 is appended). -/
theorem RegisterStatusUpdater_error_iff_witness :
    CreatedWith false (Add (New none false) "a" 0 none false) ∧
    (RegisterStatusUpdater (Add (New none false) "a" 0 none false) 9).2 ≠ none ∧
    CreatedWith true twoUpdaters ∧
    (RegisterStatusUpdater twoUpdaters 9).2 = none ∧
    (RegisterStatusUpdater twoUpdaters 9).1.updaters = [5, 8, 9] ∧
    (((RegisterStatusUpdater twoUpdaters 9).2 ≠ none ↔ true = false) ∧
      ((RegisterStatusUpdater twoUpdaters 9).2 ≠ none →
        (RegisterStatusUpdater twoUpdaters 9).1 = twoUpdaters) ∧
      ((RegisterStatusUpdater twoUpdaters 9).2 = none →
        (RegisterStatusUpdater twoUpdaters 9).1
          = { twoUpdaters with updaters := twoUpdaters.updaters ++ [9] })) :=
  ⟨CreatedWith.add "a" 0 none false (CreatedWith.new none), by decide,
    CreatedWith.registerStatusUpdater 8 (CreatedWith.registerStatusUpdater 5 (CreatedWith.new none)),
    by decide, by decide,
    RegisterStatusUpdater_error_iff true twoUpdaters
      (CreatedWith.registerStatusUpdater 8
        (CreatedWith.registerStatusUpdater 5 (CreatedWith.new none))) 9⟩

/-! ## Cookie attributes -/

/-- C22. `convertSameSite` maps exactly the strings `none`, `lax` and `strict`
(case-sensitively) to `SameSiteNoneMode`, `SameSiteLaxMode` and
`SameSiteStrictMode`, and every other string, the empty one and differently
cased ones included, to `SameSiteDefaultMode`; and a balancer created by `New`
with a sticky cookie whose `Path` is unset has `stickyCookie.path = "/"`
(and the configured path when it is set). -/
theorem convertSameSite_cases (sameSite : String) (c : Cookie) (wantHealthCheck : Bool)
    (p : String) :
    (convertSameSite sameSite = .SameSiteNoneMode ↔ sameSite = "none") ∧
    (convertSameSite sameSite = .SameSiteLaxMode ↔ sameSite = "lax") ∧
    (convertSameSite sameSite = .SameSiteStrictMode ↔ sameSite = "strict") ∧
    (convertSameSite sameSite = .SameSiteDefaultMode ↔
      sameSite ≠ "none" ∧ sameSite ≠ "lax" ∧ sameSite ≠ "strict") ∧
    convertSameSite "" = .SameSiteDefaultMode ∧
    convertSameSite "None" = .SameSiteDefaultMode ∧
    convertSameSite "LAX" = .SameSiteDefaultMode ∧
    convertSameSite "Strict" = .SameSiteDefaultMode ∧
    (New (some { Cookie := some { c with Path := none } }) wantHealthCheck).sticky.map
        (fun s => s.stickyCookie.path) = some "/" ∧
    (New (some { Cookie := some { c with Path := some p } }) wantHealthCheck).sticky.map
        (fun s => s.stickyCookie.path) = some p := by
  refine ⟨?_, ?_, ?_, ?_, by decide, by decide, by decide, by decide, rfl, rfl⟩
  all_goals
    unfold convertSameSite
    by_cases h1 : sameSite = "none"
    · subst h1; decide
    · by_cases h2 : sameSite = "lax"
      · subst h2; decide
      · by_cases h3 : sameSite = "strict"
        · subst h3; decide
        · simp [h1, h2, h3]

/-! ## The earliest-deadline step -/

/-- When the pre-check passes and the root of the heap is healthy and not
fenced, `nextServer` returns after one rotation: the root, advanced. -/
theorem nextServer_first_rotation (b : Balancer) (fuel : Nat) (hf : 0 < fuel)
    (hpre : ¬ (b.handlers.length = 0 ∨ b.status.card = 0 ∨ b.fenced.card = b.handlers.length))
    (helig : (b.handlers.getD 0 default).name ∈ b.status ∧
      (b.handlers.getD 0 default).name ∉ b.fenced) :
    ∃ rest, (b.handlers.getD 0 default :: rest).Perm b.handlers ∧
      nextServer fuel b = .done (.ok (b.handlers.getD 0 default).advance,
        { b with curDeadline := (b.handlers.getD 0 default).deadline,
                 handlers := heapPush rest (b.handlers.getD 0 default).advance }) := by
  have hbne : b.handlers ≠ [] := fun e => hpre (Or.inl (by rw [e]; rfl))
  obtain ⟨rest, hperm, _, hrot⟩ := rotate_spec b hbne
  obtain ⟨f, rfl⟩ : ∃ f, fuel = f + 1 := ⟨fuel - 1, by omega⟩
  refine ⟨rest, hperm, ?_⟩
  have helig2 : (b.handlers.getD 0 default).advance.name ∈ b.status ∧
      (b.handlers.getD 0 default).advance.name ∉ b.fenced := helig
  simp only [nextServer, if_neg hpre, nextServerLoop, hrot]
  rw [if_pos helig2]

/-- In the exact reading, the earliest-deadline step: in every reachable
balancer state with at least one handler where every handler is healthy and
none is fenced, `nextServer` returns (one loop iteration is enough) a handler
`h0.advance` where `h0` is a handler whose deadline before the call was no
later than any handler's; `curDeadline` becomes that former deadline; the
deadline of the handler returned is the former one plus `1 / weight`; and the
handlers afterwards are the advanced handler and the others, unchanged,
possibly in another order, so their number is the same. -/
theorem earliest_deadline_step (b : Balancer) (hb : Reachable b) (hne : b.handlers ≠ [])
    (hall : ∀ h ∈ b.handlers, h.name ∈ b.status ∧ h.name ∉ b.fenced) (fuel : Nat)
    (hf : 0 < fuel) :
    ∃ (h0 : namedHandler) (rest : List namedHandler) (b1 : Balancer),
      nextServer fuel b = .done (.ok h0.advance, b1) ∧
      (h0 :: rest).Perm b.handlers ∧
      (∀ g ∈ b.handlers, h0.deadline ≤ g.deadline) ∧
      b1.curDeadline = h0.deadline ∧
      h0.advance.deadline = h0.deadline + 1 / h0.weight ∧
      h0.advance.name = h0.name ∧ h0.advance.weight = h0.weight ∧
      b1.handlers.Perm (h0.advance :: rest) ∧
      b1.handlers.length = b.handlers.length := by
  have hroot := root_mem b.handlers hne
  have hfen : b.fenced = ∅ := by
    apply Finset.eq_empty_of_forall_not_mem
    intro n hn
    obtain ⟨h, hm, e⟩ := Reachable_fenced b hb n hn
    exact (hall h hm).2 (e ▸ hn)
  have hlen : b.handlers.length ≠ 0 := fun e => hne (List.length_eq_zero.mp e)
  have hpre : ¬ (b.handlers.length = 0 ∨ b.status.card = 0 ∨
      b.fenced.card = b.handlers.length) := by
    rintro (h | h | h)
    · exact hlen h
    · rw [Finset.card_eq_zero] at h
      have := (hall _ hroot).1
      rw [h] at this
      simp at this
    · rw [hfen] at h
      simp at h
      exact hlen h.symm
  obtain ⟨rest, hperm, hnext⟩ := nextServer_first_rotation b fuel hf hpre (hall _ hroot)
  have hpush := heapPush_perm rest (b.handlers.getD 0 default).advance
  refine ⟨_, rest, _, hnext, hperm, ?_, rfl, rfl, rfl, rfl, hpush, ?_⟩
  · intro g hg
    exact mem_key_root_le b.handlers (Reachable_inv b hb).1 g hg
  · rw [hpush.length_eq, ← hperm.length_eq]
    rfl

/-- The exact reading of the earliest-deadline step, at two healthy backends
after two picks. -/
theorem earliest_deadline_step_witness :
    Reachable twoHealthy ∧ twoHealthy.handlers ≠ [] ∧
    (∀ h ∈ twoHealthy.handlers, h.name ∈ twoHealthy.status ∧ h.name ∉ twoHealthy.fenced) ∧
    ∃ (h0 : namedHandler) (rest : List namedHandler) (b1 : Balancer),
      nextServer 1 twoHealthy = .done (.ok h0.advance, b1) ∧
      (h0 :: rest).Perm twoHealthy.handlers ∧
      (∀ g ∈ twoHealthy.handlers, h0.deadline ≤ g.deadline) ∧
      b1.curDeadline = h0.deadline ∧
      h0.advance.deadline = h0.deadline + 1 / h0.weight ∧
      h0.advance.name = h0.name ∧ h0.advance.weight = h0.weight ∧
      b1.handlers.Perm (h0.advance :: rest) ∧
      b1.handlers.length = twoHealthy.handlers.length :=
  have hr : Reachable twoHealthy := by
    obtain ⟨tr, b1, hp, _, _, hs⟩ := Scheduled.picks [("a", 0, 2), ("b", 1, 1)] (by decide)
      (by decide) 1 (by decide) 2 (fun _ => 0) (seed (New none false) [("a", 0, 2), ("b", 1, 1)])
      ⟨Reachable.add "b" 1 (some 1) false
          (Reachable.add "a" 0 (some 2) false (Reachable.new none false)),
        by decide!, by decide!, by decide!⟩
    have e : twoHealthy = b1 := by
      unfold twoHealthy
      rw [hp]
    rw [e]
    exact hs.reachable
  ⟨hr, by decide!, by decide!,
    earliest_deadline_step twoHealthy hr (by decide!) (by decide!) 1 (by decide)⟩

/-! ## Exact fairness over whole cycles -/

theorem timesReturned_append (n : String) (tr1 tr2 : List namedHandler) :
    timesReturned n (tr1 ++ tr2) = timesReturned n tr1 + timesReturned n tr2 := by
  simp [timesReturned, List.count_append]

/-- The freshly seeded balancer is scheduled, with every count at 0. -/
theorem seed_scheduled (sticky : Option Sticky) (wantHealthCheck : Bool)
    (seeds : List (String × Nat × Int)) (hpos : ∀ s ∈ seeds, 0 < s.2.2) :
    Scheduled seeds (fun _ => 0) (seed (New sticky wantHealthCheck) seeds) := by
  obtain ⟨n1, n2, _, n4, _, _⟩ := New_fields sticky wantHealthCheck
  obtain ⟨r1, _, r3, r4, r5⟩ := seed_spec seeds (New sticky wantHealthCheck) hpos
    (Reachable.new sticky wantHealthCheck) n2
  refine ⟨r1, ?_, fun s hsm => r4 s.1 (Or.inr ⟨s, hsm, rfl⟩), r3.trans n4⟩
  rw [n1] at r5
  simpa using r5

/-- The cycle length as a rational is the sum of the weights. -/
theorem totalWeight_cast (seeds : List (String × Nat × Int)) (hpos : ∀ s ∈ seeds, 0 < s.2.2) :
    ((totalWeight seeds : Nat) : ℚ) = (seeds.map fun s => (s.2.2 : ℚ)).sum := by
  induction seeds with
  | nil => simp [totalWeight]
  | cons s rest ih =>
    have h1 := ih fun t ht => hpos t (List.mem_cons_of_mem _ ht)
    have h2 : ((s.2.2.toNat : Nat) : ℚ) = (s.2.2 : ℚ) := by
      have : ((s.2.2.toNat : Nat) : Int) = s.2.2 :=
        Int.toNat_of_nonneg (le_of_lt (hpos s (List.mem_cons_self _ _)))
      exact_mod_cast this
    simp only [totalWeight, List.map_cons, List.sum_cons, Nat.cast_add] at h1 ⊢
    rw [h2, ← h1]

/-- Termwise below with equal sums is termwise equal. -/
theorem sum_eq_of_le {α : Type} (f g : α → ℚ) : ∀ l : List α, (∀ x ∈ l, g x ≤ f x) →
    (l.map f).sum = (l.map g).sum → ∀ x ∈ l, f x = g x := by
  intro l
  induction l with
  | nil => intro _ _ x hx; simp at hx
  | cons a l ih =>
    intro hle hsum x hx
    have h1 := hle a (List.mem_cons_self _ _)
    have h2 : (l.map g).sum ≤ (l.map f).sum :=
      List.sum_le_sum fun y hy => hle y (List.mem_cons_of_mem _ hy)
    simp only [List.map_cons, List.sum_cons] at hsum
    rcases List.mem_cons.mp hx with e | hm
    · rw [e]; linarith
    · exact ih (fun y hy => hle y (List.mem_cons_of_mem _ hy)) (by linarith) x hm

/-- After `m` whole cycles every backend has been returned `m` times its weight. -/
theorem Scheduled.cycle (seeds : List (String × Nat × Int)) (hpos : ∀ s ∈ seeds, 0 < s.2.2)
    (hnd : (seeds.map fun s => s.1).Nodup) (tr : List namedHandler) (b : Balancer)
    (hall : ∀ h ∈ tr, ∃ s ∈ seeds, s.1 = h.name)
    (hs : Scheduled seeds (fun n => 0 + timesReturned n tr) b) (m : Nat)
    (hlen : tr.length = m * totalWeight seeds) :
    ∀ s ∈ seeds, (timesReturned s.1 tr : ℚ) = (m : ℚ) * (s.2.2 : ℚ) := by
  have hW := totalWeight_cast seeds hpos
  have hlenq : (tr.length : ℚ) = (m : ℚ) * (seeds.map fun s => (s.2.2 : ℚ)).sum := by
    rw [← hW, hlen]; push_cast; ring
  have hWnn : (0 : ℚ) ≤ (seeds.map fun s => (s.2.2 : ℚ)).sum := by
    apply List.sum_nonneg
    intro x hx
    obtain ⟨s, hsm, rfl⟩ := List.mem_map.mp hx
    exact_mod_cast le_of_lt (hpos s hsm)
  have hge : ∀ s ∈ seeds, (m : ℚ) * (s.2.2 : ℚ) ≤ (timesReturned s.1 tr : ℚ) := by
    intro s hsm
    have hlow := (Scheduled.share seeds hpos hnd tr b hall hs s hsm).1
    rw [hlenq] at hlow
    have hw : (0 : ℚ) < (s.2.2 : ℚ) := by exact_mod_cast hpos s hsm
    by_contra hc
    have hlt : ((timesReturned s.1 tr : Nat) : Int) < (m : Int) * s.2.2 := by
      have := not_le.mp hc
      exact_mod_cast this
    have hle : ((timesReturned s.1 tr : Nat) : Int) + 1 ≤ (m : Int) * s.2.2 := hlt
    have hleq : (timesReturned s.1 tr : ℚ) + 1 ≤ (m : ℚ) * (s.2.2 : ℚ) := by exact_mod_cast hle
    have := mul_le_mul_of_nonneg_right hleq hWnn
    nlinarith
  have hsum : (seeds.map fun s => (timesReturned s.1 tr : ℚ)).sum
      = (seeds.map fun s => (m : ℚ) * (s.2.2 : ℚ)).sum := by
    have h1 := sum_timesReturned seeds hnd tr hall
    have h2 : ((seeds.map fun s => timesReturned s.1 tr).sum : ℚ) = (tr.length : ℚ) := by
      exact_mod_cast h1
    rw [Nat.cast_list_sum, List.map_map] at h2
    rw [List.sum_map_mul_left, ← hlenq, ← h2]
    rfl
  exact sum_eq_of_le (fun s : String × Nat × Int => (timesReturned s.1 tr : ℚ))
    (fun s => (m : ℚ) * (s.2.2 : ℚ)) seeds hge hsum

/-- C25. Exact cycle fairness, deadlines read as exact rationals: for a fresh
balancer from `New` to which `n ≥ 1` backends with distinct names and positive
integer weights are added (none fenced, none marked down), with `S` the sum of
the weights, the block of `S` consecutive `nextServer` calls that follows `m`
whole blocks returns backend `i` exactly `w_i` times, for every `i` and every
`m` (`m = 0` is the first block). -/
theorem exact_cycle_fairness (sticky : Option Sticky) (wantHealthCheck : Bool)
    (seeds : List (String × Nat × Int)) (hpos : ∀ s ∈ seeds, 0 < s.2.2)
    (hnd : (seeds.map fun s => s.1).Nodup) (hne : seeds ≠ []) (fuel : Nat) (hf : 0 < fuel)
    (m : Nat) :
    ∃ tr1 b1 tr2 b2,
      picks fuel (m * totalWeight seeds) (seed (New sticky wantHealthCheck) seeds)
        = .done (tr1, b1) ∧
      picks fuel (totalWeight seeds) b1 = .done (tr2, b2) ∧
      tr2.length = totalWeight seeds ∧
      ∀ s ∈ seeds, ((timesReturned s.1 tr2 : Nat) : Int) = s.2.2 := by
  have hs0 := seed_scheduled sticky wantHealthCheck seeds hpos
  obtain ⟨tr1, b1, hp1, hl1, ha1, hs1⟩ :=
    Scheduled.picks seeds hnd hne fuel hf (m * totalWeight seeds) _ _ hs0
  obtain ⟨tr2, b2, hp2, hl2, ha2, hs2⟩ :=
    Scheduled.picks seeds hnd hne fuel hf (totalWeight seeds) _ _ hs1
  refine ⟨tr1, b1, tr2, b2, hp1, hp2, hl2, ?_⟩
  have hfun : (fun n => 0 + timesReturned n tr1 + timesReturned n tr2)
      = fun n => 0 + timesReturned n (tr1 ++ tr2) := by
    funext n
    rw [timesReturned_append]; omega
  rw [hfun] at hs2
  have ha12 : ∀ h ∈ tr1 ++ tr2, ∃ s ∈ seeds, s.1 = h.name := by
    intro h hm
    rcases List.mem_append.mp hm with h1 | h2
    · exact ha1 h h1
    · exact ha2 h h2
  have hl12 : (tr1 ++ tr2).length = (m + 1) * totalWeight seeds := by
    rw [List.length_append, hl1, hl2]; ring
  have c1 := Scheduled.cycle seeds hpos hnd tr1 b1 ha1 hs1 m hl1
  have c12 := Scheduled.cycle seeds hpos hnd (tr1 ++ tr2) b2 ha12 hs2 (m + 1) hl12
  intro s hsm
  have e1 := c1 s hsm
  have e12 := c12 s hsm
  rw [timesReturned_append] at e12
  push_cast at e12
  have : (timesReturned s.1 tr2 : ℚ) = (s.2.2 : ℚ) := by linarith
  exact_mod_cast this

/-- C25, at weights 2, 1, 3: the second block of 6 picks returns `a` twice,
`b` once and `c` three times. -/
theorem exact_cycle_fairness_witness :
    (∀ s ∈ threeSeeds, 0 < s.2.2) ∧ (threeSeeds.map fun s => s.1).Nodup ∧ threeSeeds ≠ [] ∧
    totalWeight threeSeeds = 6 ∧
    ∃ tr1 b1 tr2 b2,
      picks 1 (1 * totalWeight threeSeeds) (seed (New none false) threeSeeds)
        = .done (tr1, b1) ∧
      picks 1 (totalWeight threeSeeds) b1 = .done (tr2, b2) ∧
      tr2.length = totalWeight threeSeeds ∧
      ∀ s ∈ threeSeeds, ((timesReturned s.1 tr2 : Nat) : Int) = s.2.2 :=
  ⟨by decide, by decide, by decide, by decide,
    exact_cycle_fairness none false threeSeeds (by decide) (by decide) (by decide) 1
      (by decide) 1⟩

namespace float64

/-! ## `float64` rounding -/

theorem pow2_eq (k : ℤ) : pow2 k = (2 : ℚ) ^ k := by
  unfold pow2
  split_ifs with h
  · obtain ⟨n, rfl⟩ := Int.eq_ofNat_of_zero_le h
    simp
  · obtain ⟨n, hn⟩ := Int.eq_ofNat_of_zero_le (show 0 ≤ -k by omega)
    have hk : k = -(n : ℤ) := by omega
    subst hk
    simp

theorem pow2_pos (k : ℤ) : 0 < pow2 k := by
  rw [pow2_eq]; positivity

/-- The digits counted are those of `n`: `2 ^ (d - 1) ≤ n < 2 ^ d`. -/
theorem bitLength_bounds (fuel : Nat) : ∀ n : Nat, n ≠ 0 → n ≤ fuel →
    2 ^ (bitLength fuel n - 1) ≤ n ∧ n < 2 ^ bitLength fuel n ∧ 0 < bitLength fuel n := by
  induction fuel with
  | zero => intro n h0 hn; omega
  | succ f ih =>
    intro n h0 hn
    simp only [bitLength, if_neg h0]
    by_cases h2 : n / 2 = 0
    · have h1 : n = 1 := by omega
      subst h1
      cases f <;> simp [bitLength]
    · obtain ⟨h3, h4, h5⟩ := ih (n / 2) h2 (by omega)
      refine ⟨?_, ?_, by omega⟩
      · have : bitLength f (n / 2) + 1 - 1 = (bitLength f (n / 2) - 1) + 1 := by omega
        rw [this, pow_succ]
        omega
      · rw [pow_succ]
        omega

/-- The binary exponent of a positive rational brackets it. -/
theorem exponent_bounds (x : ℚ) (hx : 0 < x) :
    (2 : ℚ) ^ exponent x ≤ x ∧ x < (2 : ℚ) ^ (exponent x + 1) := by
  have hnum : 0 < x.num := Rat.num_pos.mpr hx
  have hn0 : x.num.natAbs ≠ 0 := by omega
  have hd0 : x.den ≠ 0 := x.den_nz
  obtain ⟨ha1, ha2, ha3⟩ := bitLength_bounds x.num.natAbs x.num.natAbs hn0 le_rfl
  obtain ⟨hb1, hb2, hb3⟩ := bitLength_bounds x.den x.den hd0 le_rfl
  set a := bitLength x.num.natAbs x.num.natAbs with ha
  set d := bitLength x.den x.den with hd
  have hxeq : x = (x.num.natAbs : ℚ) / (x.den : ℚ) := by
    have h1 : (x.num.natAbs : ℤ) = x.num := Int.natAbs_of_nonneg hnum.le
    have h2 : (x.num.natAbs : ℚ) = (x.num : ℚ) :=
      (Int.cast_natCast _).symm.trans (congrArg Int.cast h1)
    rw [h2]
    exact (Rat.num_div_den x).symm
  have hdpos : (0 : ℚ) < (x.den : ℚ) := by exact_mod_cast Nat.pos_of_ne_zero hd0
  have hA1 : ((2 : ℚ) ^ (a - 1 : ℕ)) ≤ (x.num.natAbs : ℚ) := by exact_mod_cast ha1
  have hA2 : (x.num.natAbs : ℚ) < (2 : ℚ) ^ a := by exact_mod_cast ha2
  have hB1 : ((2 : ℚ) ^ (d - 1 : ℕ)) ≤ (x.den : ℚ) := by exact_mod_cast hb1
  have hB2 : (x.den : ℚ) < (2 : ℚ) ^ d := by exact_mod_cast hb2
  -- `2 ^ (k - 1) < x < 2 ^ (k + 1)` for `k = a - d`
  have hlow : (2 : ℚ) ^ ((a : ℤ) - (d : ℤ) - 1) ≤ x := by
    have e : (2 : ℚ) ^ ((a : ℤ) - (d : ℤ) - 1) = (2 : ℚ) ^ (a - 1 : ℕ) / (2 : ℚ) ^ d := by
      rw [show ((a : ℤ) - (d : ℤ) - 1) = ((a - 1 : ℕ) : ℤ) - (d : ℤ) by omega]
      rw [zpow_sub₀ (by norm_num : (2 : ℚ) ≠ 0), zpow_natCast, zpow_natCast]
    rw [e, hxeq, div_le_div_iff₀ (by positivity) hdpos]
    calc (2 : ℚ) ^ (a - 1) * (x.den : ℚ) ≤ (x.num.natAbs : ℚ) * (x.den : ℚ) := by gcongr
      _ ≤ (x.num.natAbs : ℚ) * (2 : ℚ) ^ d := by gcongr
  have hhigh : x < (2 : ℚ) ^ ((a : ℤ) - (d : ℤ) + 1) := by
    have e : (2 : ℚ) ^ ((a : ℤ) - (d : ℤ) + 1) = (2 : ℚ) ^ a / (2 : ℚ) ^ (d - 1 : ℕ) := by
      rw [show ((a : ℤ) - (d : ℤ) + 1) = (a : ℤ) - ((d - 1 : ℕ) : ℤ) by omega]
      rw [zpow_sub₀ (by norm_num : (2 : ℚ) ≠ 0), zpow_natCast, zpow_natCast]
    rw [e, hxeq, div_lt_div_iff₀ hdpos (by positivity)]
    calc (x.num.natAbs : ℚ) * (2 : ℚ) ^ (d - 1) ≤ (x.num.natAbs : ℚ) * (x.den : ℚ) := by gcongr
      _ < (2 : ℚ) ^ a * (x.den : ℚ) := by gcongr
  unfold exponent
  simp only [← ha, ← hd, pow2_eq]
  split_ifs with hc
  · exact ⟨hc, hhigh⟩
  · refine ⟨hlow, ?_⟩
    rw [show (a : ℤ) - (d : ℤ) - 1 + 1 = (a : ℤ) - (d : ℤ) by ring]
    exact not_le.mp hc

/-- The binary exponent is the only integer that brackets `x`. -/
theorem exponent_unique (x : ℚ) (e : ℤ) (h1 : (2 : ℚ) ^ e ≤ x) (h2 : x < (2 : ℚ) ^ (e + 1)) :
    exponent x = e := by
  have hx : 0 < x := lt_of_lt_of_le (by positivity) h1
  obtain ⟨h3, h4⟩ := exponent_bounds x hx
  have two : (1 : ℚ) < 2 := by norm_num
  have a1 : e < exponent x + 1 := (zpow_lt_zpow_iff_right₀ two).mp (lt_of_le_of_lt h1 h4)
  have a2 : exponent x < e + 1 := (zpow_lt_zpow_iff_right₀ two).mp (lt_of_le_of_lt h3 h2)
  omega

theorem exponent_mono (x y : ℚ) (hx : 0 < x) (hxy : x ≤ y) : exponent x ≤ exponent y := by
  obtain ⟨h1, _⟩ := exponent_bounds x hx
  obtain ⟨_, h4⟩ := exponent_bounds y (lt_of_lt_of_le hx hxy)
  have two : (1 : ℚ) < 2 := by norm_num
  have : exponent x < exponent y + 1 :=
    (zpow_lt_zpow_iff_right₀ two).mp (lt_of_le_of_lt (le_trans h1 hxy) h4)
  omega

/-- An integer is rounded to itself. -/
theorem roundHalfEven_intCast (k : ℤ) : roundHalfEven (k : ℚ) = k := by
  simp [roundHalfEven]

/-- The rounded value is the floor or the integer after it. -/
theorem roundHalfEven_floor (m : ℚ) : roundHalfEven m = ⌊m⌋ ∨ roundHalfEven m = ⌊m⌋ + 1 := by
  unfold roundHalfEven
  simp only
  split_ifs <;> simp

/-- Rounding to the nearest integer keeps the order. -/
theorem roundHalfEven_mono (m1 m2 : ℚ) (h : m1 ≤ m2) : roundHalfEven m1 ≤ roundHalfEven m2 := by
  have hf : ⌊m1⌋ ≤ ⌊m2⌋ := Int.floor_mono h
  rcases lt_or_eq_of_le hf with hlt | heq
  · rcases roundHalfEven_floor m1 with e1 | e1 <;> rcases roundHalfEven_floor m2 with e2 | e2 <;>
      omega
  · unfold roundHalfEven
    simp only
    rw [← heq]
    have hr : m1 - (⌊m1⌋ : ℚ) ≤ m2 - (⌊m1⌋ : ℚ) := by linarith
    split_ifs <;> first | omega | (exfalso; linarith)

end float64

namespace float64

/-- The unit in the last place used for a positive `x`. -/
theorem ulp_facts (x : ℚ) (hx : 0 < x) :
    0 < pow2 (max (exponent x) (-1022) - 52) ∧
    x / pow2 (max (exponent x) (-1022) - 52) < 2 ^ 53 ∧
    (2 : ℚ) ^ 53 * pow2 (max (exponent x) (-1022) - 52)
      = (2 : ℚ) ^ (max (exponent x) (-1022) + 1) ∧
    (-1022 ≤ exponent x → (2 : ℚ) ^ 52 ≤ x / pow2 (max (exponent x) (-1022) - 52)) ∧
    (2 : ℚ) ^ 52 * pow2 (max (exponent x) (-1022) - 52) = (2 : ℚ) ^ max (exponent x) (-1022) := by
  obtain ⟨h1, h2⟩ := exponent_bounds x hx
  have two : (2 : ℚ) ≠ 0 := by norm_num
  have one : (1 : ℚ) ≤ 2 := by norm_num
  set c := max (exponent x) (-1022) with hc
  have hu : 0 < pow2 (c - 52) := pow2_pos _
  have e53 : (2 : ℚ) ^ 53 * pow2 (c - 52) = (2 : ℚ) ^ (c + 1) := by
    rw [pow2_eq, show c + 1 = (53 : ℤ) + (c - 52) by ring, zpow_add₀ two]
    norm_num
  have e52 : (2 : ℚ) ^ 52 * pow2 (c - 52) = (2 : ℚ) ^ c := by
    rw [pow2_eq]
    nth_rewrite 2 [show c = (52 : ℤ) + (c - 52) by ring]
    rw [zpow_add₀ two]
    norm_num
  refine ⟨hu, ?_, e53, ?_, e52⟩
  · rw [div_lt_iff₀ hu, e53]
    exact lt_of_lt_of_le h2 (zpow_le_zpow_right₀ one (by omega))
  · intro he
    have hce : c = exponent x := by omega
    rw [le_div_iff₀ hu, e52, hce]
    exact h1

/-- A number that is a whole number of its units in the last place is a
`float64`: rounding leaves it as it is. -/
theorem roundPos_exact (x : ℚ) (k : ℤ)
    (hk : x = (k : ℚ) * pow2 (max (exponent x) (-1022) - 52)) : roundPos x = x := by
  have hu := pow2_pos (max (exponent x) (-1022) - 52)
  have hq : x / pow2 (max (exponent x) (-1022) - 52) = (k : ℚ) := by
    rw [div_eq_iff hu.ne']
    exact hk
  have hval : roundPos x = (roundHalfEven (x / pow2 (max (exponent x) (-1022) - 52)) : ℚ)
      * pow2 (max (exponent x) (-1022) - 52) := rfl
  rw [hval, hq, roundHalfEven_intCast]
  exact hk.symm

theorem roundPos_nonneg (x : ℚ) (hx : 0 < x) : 0 ≤ roundPos x := by
  obtain ⟨hu, _⟩ := ulp_facts x hx
  unfold roundPos
  simp only
  have h0 : (0 : ℤ) ≤ roundHalfEven (x / pow2 (max (exponent x) (-1022) - 52)) := by
    have := roundHalfEven_mono 0 (x / pow2 (max (exponent x) (-1022) - 52))
      (div_nonneg hx.le hu.le)
    rwa [show (0 : ℚ) = ((0 : ℤ) : ℚ) by simp, roundHalfEven_intCast] at this
  have : (0 : ℚ) ≤ (roundHalfEven (x / pow2 (max (exponent x) (-1022) - 52)) : ℚ) := by
    exact_mod_cast h0
  positivity

/-- Rounding does not pass the next power of two. -/
theorem roundPos_le (x : ℚ) (hx : 0 < x) :
    roundPos x ≤ (2 : ℚ) ^ (max (exponent x) (-1022) + 1) := by
  obtain ⟨hu, h53, e53, _, _⟩ := ulp_facts x hx
  unfold roundPos
  simp only
  have hn : roundHalfEven (x / pow2 (max (exponent x) (-1022) - 52)) ≤ (2 : ℤ) ^ 53 := by
    have := roundHalfEven_mono (x / pow2 (max (exponent x) (-1022) - 52)) (((2 : ℤ) ^ 53 : ℤ) : ℚ)
      (by push_cast; exact h53.le)
    rwa [roundHalfEven_intCast] at this
  have hq : (roundHalfEven (x / pow2 (max (exponent x) (-1022) - 52)) : ℚ) ≤ (2 : ℚ) ^ 53 := by
    exact_mod_cast hn
  rw [← e53]
  exact mul_le_mul_of_nonneg_right hq hu.le

/-- Rounding a normal number does not go below its power of two. -/
theorem le_roundPos (x : ℚ) (hx : 0 < x) (he : -1022 ≤ exponent x) :
    (2 : ℚ) ^ (exponent x) ≤ roundPos x := by
  obtain ⟨hu, _, _, h52, e52⟩ := ulp_facts x hx
  have hce : max (exponent x) (-1022) = exponent x := by omega
  have hval : roundPos x = (roundHalfEven (x / pow2 (max (exponent x) (-1022) - 52)) : ℚ)
      * pow2 (max (exponent x) (-1022) - 52) := rfl
  have hn : (2 : ℤ) ^ 52 ≤ roundHalfEven (x / pow2 (max (exponent x) (-1022) - 52)) := by
    have := roundHalfEven_mono (((2 : ℤ) ^ 52 : ℤ) : ℚ) (x / pow2 (max (exponent x) (-1022) - 52))
      (by push_cast; exact h52 he)
    rwa [roundHalfEven_intCast] at this
  have hq : (2 : ℚ) ^ 52 ≤ (roundHalfEven (x / pow2 (max (exponent x) (-1022) - 52)) : ℚ) := by
    exact_mod_cast hn
  calc (2 : ℚ) ^ (exponent x) = (2 : ℚ) ^ max (exponent x) (-1022) := by rw [hce]
    _ = (2 : ℚ) ^ 52 * pow2 (max (exponent x) (-1022) - 52) := e52.symm
    _ ≤ (roundHalfEven (x / pow2 (max (exponent x) (-1022) - 52)) : ℚ)
          * pow2 (max (exponent x) (-1022) - 52) := mul_le_mul_of_nonneg_right hq hu.le
    _ = roundPos x := hval.symm

/-- Rounding keeps the order of positive numbers. -/
theorem roundPos_mono (x y : ℚ) (hx : 0 < x) (hxy : x ≤ y) : roundPos x ≤ roundPos y := by
  have hy : 0 < y := lt_of_lt_of_le hx hxy
  have hexp := exponent_mono x y hx hxy
  have one : (1 : ℚ) ≤ 2 := by norm_num
  by_cases hc : max (exponent x) (-1022) = max (exponent y) (-1022)
  · obtain ⟨hu, _⟩ := ulp_facts x hx
    unfold roundPos
    simp only
    rw [← hc]
    have hm := roundHalfEven_mono (x / pow2 (max (exponent x) (-1022) - 52))
      (y / pow2 (max (exponent x) (-1022) - 52)) (div_le_div_of_nonneg_right hxy hu.le)
    have : (roundHalfEven (x / pow2 (max (exponent x) (-1022) - 52)) : ℚ)
        ≤ (roundHalfEven (y / pow2 (max (exponent x) (-1022) - 52)) : ℚ) := by exact_mod_cast hm
    exact mul_le_mul_of_nonneg_right this hu.le
  · have hlt : max (exponent x) (-1022) + 1 ≤ exponent y := by omega
    have hey : -1022 ≤ exponent y := by omega
    calc roundPos x ≤ (2 : ℚ) ^ (max (exponent x) (-1022) + 1) := roundPos_le x hx
      _ ≤ (2 : ℚ) ^ (exponent y) := zpow_le_zpow_right₀ one hlt
      _ ≤ roundPos y := le_roundPos y hy hey

/-- A positive rounded value is a `float64`: rounding it again changes nothing. -/
theorem roundPos_fixed (x : ℚ) (hx : 0 < x) (hv : 0 < roundPos x) :
    roundPos (roundPos x) = roundPos x := by
  obtain ⟨hu, h53, e53, h52, e52⟩ := ulp_facts x hx
  have two : (2 : ℚ) ≠ 0 := by norm_num
  have one : (1 : ℚ) < 2 := by norm_num
  set c := max (exponent x) (-1022) with hc
  set n := roundHalfEven (x / pow2 (c - 52)) with hn
  have hval : roundPos x = (n : ℚ) * pow2 (c - 52) := rfl
  have hnle : n ≤ (2 : ℤ) ^ 53 := by
    have := roundHalfEven_mono (x / pow2 (c - 52)) (((2 : ℤ) ^ 53 : ℤ) : ℚ)
      (by push_cast; exact h53.le)
    rwa [roundHalfEven_intCast] at this
  have hnpos : 0 < n := by
    have : (0 : ℚ) < (n : ℚ) := by
      by_contra hcon
      have : (n : ℚ) * pow2 (c - 52) ≤ 0 :=
        mul_nonpos_of_nonpos_of_nonneg (not_lt.mp hcon) hu.le
      rw [hval] at hv
      linarith
    exact_mod_cast this
  rcases lt_or_eq_of_le hnle with hlt | heq
  · -- below the next power of two: the unit in the last place is no coarser
    have hvlt : roundPos x < (2 : ℚ) ^ (c + 1) := by
      rw [hval, ← e53]
      have : (n : ℚ) < (2 : ℚ) ^ 53 := by exact_mod_cast hlt
      exact mul_lt_mul_of_pos_right this hu
    obtain ⟨hv1, hv2⟩ := exponent_bounds (roundPos x) hv
    have hev : exponent (roundPos x) ≤ c := by
      have : exponent (roundPos x) < c + 1 :=
        (zpow_lt_zpow_iff_right₀ one).mp (lt_of_le_of_lt hv1 hvlt)
      omega
    have hcv : max (exponent (roundPos x)) (-1022) ≤ c := by omega
    obtain ⟨j, hj⟩ := Int.eq_ofNat_of_zero_le (show 0 ≤ c - max (exponent (roundPos x)) (-1022) by
      omega)
    apply roundPos_exact (roundPos x) (n * (2 : ℤ) ^ j)
    have hsplit : pow2 (c - 52) = (2 : ℚ) ^ j * pow2 (max (exponent (roundPos x)) (-1022) - 52) := by
      rw [pow2_eq, pow2_eq, ← zpow_natCast, ← zpow_add₀ two]
      congr 1
      omega
    calc roundPos x = (n : ℚ) * pow2 (c - 52) := hval
      _ = ((n * (2 : ℤ) ^ j : ℤ) : ℚ) * pow2 (max (exponent (roundPos x)) (-1022) - 52) := by
        rw [hsplit]; push_cast; ring
  · -- the next power of two itself
    have hveq : roundPos x = (2 : ℚ) ^ (c + 1) := by
      rw [hval, ← e53, heq]
      push_cast
      ring
    have hev : exponent (roundPos x) = c + 1 := by
      apply exponent_unique
      · rw [hveq]
      · rw [hveq]
        exact (zpow_lt_zpow_iff_right₀ one).mpr (by omega)
    have hcv : max (exponent (roundPos x)) (-1022) = c + 1 := by omega
    apply roundPos_exact (roundPos x) ((2 : ℤ) ^ 52)
    rw [hcv]
    calc roundPos x = (2 : ℚ) ^ (c + 1) := hveq
      _ = (((2 : ℤ) ^ 52 : ℤ) : ℚ) * pow2 (c + 1 - 52) := by
        rw [pow2_eq]
        nth_rewrite 1 [show c + 1 = (52 : ℤ) + (c + 1 - 52) by ring]
        rw [zpow_add₀ two]
        norm_num

/-- Rounding is the identity at 0 and keeps the sign. -/
theorem round_nonneg (x : ℚ) (hx : 0 ≤ x) : 0 ≤ round x := by
  unfold round
  split_ifs with h0 hneg
  · exact le_rfl
  · exact absurd hx (not_le.mpr hneg)
  · exact roundPos_nonneg x (lt_of_le_of_ne hx (Ne.symm h0))

/-- Rounding keeps the order of non-negative numbers. -/
theorem round_mono (x y : ℚ) (hx : 0 ≤ x) (hxy : x ≤ y) : round x ≤ round y := by
  rcases eq_or_lt_of_le hx with h0 | hpos
  · rw [← h0]
    have : round 0 = 0 := by simp [round]
    rw [this]
    exact round_nonneg y (le_trans hx hxy)
  · have hy : 0 < y := lt_of_lt_of_le hpos hxy
    have ex : round x = roundPos x := by
      simp [round, hpos.ne', not_lt.mpr hpos.le]
    have ey : round y = roundPos y := by
      simp [round, hy.ne', not_lt.mpr hy.le]
    rw [ex, ey]
    exact roundPos_mono x y hpos hxy

/-- A rounded value is a `float64`: rounding it again changes nothing. -/
theorem round_round (x : ℚ) : round (round x) = round x := by
  have key : ∀ z : ℚ, 0 < z → round (roundPos z) = roundPos z := by
    intro z hz
    rcases eq_or_lt_of_le (roundPos_nonneg z hz) with h0 | hpos
    · rw [← h0]; simp [round]
    · simp only [round, hpos.ne', not_lt.mpr hpos.le, if_false]
      exact roundPos_fixed z hz hpos
  rcases lt_trichotomy x 0 with hneg | h0 | hpos
  · have hz : 0 < -x := by linarith
    have e1 : round x = - roundPos (-x) := by
      simp [round, hneg.ne, hneg]
    rw [e1]
    rcases eq_or_lt_of_le (roundPos_nonneg (-x) hz) with h0 | hp
    · rw [← h0]; simp [round]
    · have hn : - roundPos (-x) < 0 := by linarith
      simp only [round, hn.ne, hn, if_true, if_false, neg_neg]
      rw [roundPos_fixed (-x) hz hp]
  · rw [h0]; simp [round]
  · have e1 : round x = roundPos x := by
      simp [round, hpos.ne', not_lt.mpr hpos.le]
    rw [e1]
    exact key x hpos

end float64

namespace float64

theorem round_zero : round 0 = 0 := by
  simp [round]

theorem round_one : round 1 = 1 := by
  decide!

theorem round_pos_eq (x : ℚ) (hx : 0 < x) : round x = roundPos x := by
  simp [round, hx.ne', not_lt.mpr hx.le]

/-- The conversion of a positive `int` is at least 1. -/
theorem one_le_ofInt (w : ℤ) (hw : 0 < w) : 1 ≤ ofInt w := by
  have h1 : (1 : ℚ) ≤ (w : ℚ) := by exact_mod_cast hw
  have := round_mono 1 w (by norm_num) h1
  rwa [round_one] at this

/-- The conversion of a positive `int` up to `2 ^ 53` is exact. -/
theorem ofInt_exact (w : ℤ) (hw : 0 < w) (h : w ≤ 9007199254740992) : ofInt w = (w : ℚ) := by
  have hx : (0 : ℚ) < (w : ℚ) := by exact_mod_cast hw
  have h1 : (1 : ℚ) ≤ (w : ℚ) := by exact_mod_cast hw
  have h53 : (w : ℚ) ≤ (2 : ℚ) ^ (53 : ℤ) := by
    have : (w : ℚ) ≤ (9007199254740992 : ℚ) := by exact_mod_cast h
    refine le_trans this ?_
    norm_num
  obtain ⟨hb1, hb2⟩ := exponent_bounds (w : ℚ) hx
  have one : (1 : ℚ) < 2 := by norm_num
  have two : (2 : ℚ) ≠ 0 := by norm_num
  have he0 : 0 ≤ exponent (w : ℚ) := by
    have : (2 : ℚ) ^ (0 : ℤ) < (2 : ℚ) ^ (exponent (w : ℚ) + 1) := by
      rw [zpow_zero]; exact lt_of_le_of_lt h1 hb2
    have := (zpow_lt_zpow_iff_right₀ one).mp this
    omega
  have he53 : exponent (w : ℚ) ≤ 53 := by
    have : (2 : ℚ) ^ exponent (w : ℚ) < (2 : ℚ) ^ ((53 : ℤ) + 1) :=
      lt_of_le_of_lt (le_trans hb1 h53) ((zpow_lt_zpow_iff_right₀ one).mpr (by omega))
    have := (zpow_lt_zpow_iff_right₀ one).mp this
    omega
  have hc : max (exponent (w : ℚ)) (-1022) = exponent (w : ℚ) := by omega
  unfold ofInt
  rw [round_pos_eq _ hx]
  rcases lt_or_eq_of_le he53 with hlt | heq
  · obtain ⟨j, hj⟩ := Int.eq_ofNat_of_zero_le (show 0 ≤ 52 - exponent (w : ℚ) by omega)
    apply roundPos_exact (w : ℚ) (w * (2 : ℤ) ^ j)
    rw [hc, pow2_eq, show exponent (w : ℚ) - 52 = -(j : ℤ) by omega, zpow_neg, zpow_natCast]
    push_cast
    field_simp
  · apply roundPos_exact (w : ℚ) ((2 : ℤ) ^ 52)
    rw [hc, heq, pow2_eq]
    have hw53 : (w : ℚ) = (2 : ℚ) ^ (53 : ℤ) := by
      refine le_antisymm h53 ?_
      rw [heq] at hb1
      exact hb1
    rw [hw53]
    norm_num

/-- The quotient `1 / weight` of a weight that is at least 1 lies between 0 and 1. -/
theorem div_one_bounds (y : ℚ) (hy : 1 ≤ y) : 0 ≤ div 1 y ∧ div 1 y ≤ 1 := by
  have hpos : (0 : ℚ) < y := by linarith
  have h0 : (0 : ℚ) ≤ 1 / y := by positivity
  have h1 : 1 / y ≤ 1 := by
    rw [div_le_one hpos]; exact hy
  refine ⟨round_nonneg _ h0, ?_⟩
  have := round_mono (1 / y) 1 h0 h1
  rwa [round_one] at this

/-- Adding a non-negative number to a `float64` does not give less. -/
theorem le_add (d y : ℚ) (hd : 0 ≤ d) (hr : round d = d) (hy : 0 ≤ y) : d ≤ add d y := by
  have := round_mono d (d + y) hd (by linarith)
  rwa [hr] at this

/-- A sum of a number up to `2 ^ 53` and a number up to 1 does not pass `2 ^ 53`. -/
theorem add_le_max (d y : ℚ) (hd0 : 0 ≤ d) (hd : d ≤ 9007199254740992) (hy0 : 0 ≤ y)
    (hy : y ≤ 1) : add d y ≤ 9007199254740992 := by
  have h := round_mono (d + y) 9007199254740993 (by linarith) (by linarith)
  have e : round 9007199254740993 = 9007199254740992 := by decide!
  rw [e] at h
  exact h

/-- A sum is a `float64`. -/
theorem round_add (x y : ℚ) : round (add x y) = add x y :=
  round_round _

end float64

/-! ## The balancer in `float64` -/

namespace float64

theorem rotate_empty (b : Balancer) (h : b.handlers = []) : rotate b = none := by
  simp [rotate, h, heapPop_nil]

/-- On a non-empty slice a rotation pops the root and pushes it back with its
deadline advanced in `float64`. -/
theorem rotate_root (b : Balancer) (hne : b.handlers ≠ []) :
    ∃ rest, (b.handlers.getD 0 default :: rest).Perm b.handlers ∧
      (IsHeap b.handlers → IsHeap rest) ∧
      rotate b = some (advance (b.handlers.getD 0 default),
        { b with curDeadline := (b.handlers.getD 0 default).deadline,
                 handlers := heapPush rest (advance (b.handlers.getD 0 default)) }) := by
  obtain ⟨h, rest, hpop, hh, hperm, hheap⟩ := heapPop_spec b.handlers hne
  subst hh
  exact ⟨rest, hperm, hheap, by simp [rotate, hpop, advance]⟩

/-- Advancing a sound deadline gives a sound deadline that is not earlier. -/
theorem advance_sound (h : namedHandler) (hw : 1 ≤ h.weight) (h0 : 0 ≤ h.deadline)
    (hmax : h.deadline ≤ 9007199254740992) (hr : round h.deadline = h.deadline) :
    h.deadline ≤ (advance h).deadline ∧ (advance h).deadline ≤ 9007199254740992 ∧
      round (advance h).deadline = (advance h).deadline := by
  obtain ⟨hy0, hy1⟩ := div_one_bounds h.weight hw
  exact ⟨le_add _ _ h0 hr hy0, add_le_max _ _ h0 hmax hy0 hy1, round_add _ _⟩

/-- What one rotation does to the balancer. -/
theorem rotate_turned (b b1 : Balancer) (h : namedHandler) (hr : rotate b = some (h, b1)) :
    Turned b b1 := by
  have hne : b.handlers ≠ [] := by
    intro e; rw [rotate_empty b e] at hr; exact Option.noConfusion hr
  obtain ⟨rest, hperm, hheap, hrot⟩ := rotate_root b hne
  rw [hrot] at hr
  simp only [Option.some.injEq, Prod.mk.injEq] at hr
  obtain ⟨e1, e2⟩ := hr
  subst e1 e2
  have hroot := root_mem b.handlers hne
  have hpush := heapPush_perm rest (advance (b.handlers.getD 0 default))
  refine ⟨rfl, rfl, rfl, rfl, rfl, ?_, ?_, ?_⟩
  · refine ((hpush.map namedHandler.fixed).trans ?_).trans (hperm.map namedHandler.fixed)
    simp only [List.map_cons]
    exact List.Perm.of_eq rfl
  · intro hh
    exact heapPush_heap _ _ (hheap hh)
  · rintro hh ⟨hc0, hcmax, hcr, hall⟩
    obtain ⟨hw, hcd, hdmax, hdr⟩ := hall _ hroot
    have hd0 : 0 ≤ (b.handlers.getD 0 default).deadline := le_trans hc0 hcd
    obtain ⟨a1, a2, a3⟩ := advance_sound _ hw hd0 hdmax hdr
    refine ⟨⟨hd0, hdmax, hdr, ?_⟩, hcd⟩
    intro g hg
    have hg2 : g ∈ advance (b.handlers.getD 0 default) :: rest := hpush.subset hg
    rcases List.mem_cons.mp hg2 with e | hm
    · subst e
      exact ⟨hw, a1, a2, a3⟩
    · have hm2 : g ∈ b.handlers := hperm.subset (List.mem_cons_of_mem _ hm)
      obtain ⟨gw, _, gmax, gr⟩ := hall g hm2
      exact ⟨gw, mem_key_root_le b.handlers hh g hm2, gmax, gr⟩

theorem Turned.same (b : Balancer) : Turned b b :=
  ⟨rfl, rfl, rfl, rfl, rfl, List.Perm.refl _, id, fun _ hs => ⟨hs, le_refl _⟩⟩

theorem Turned.then {b b1 b2 : Balancer} (h1 : Turned b b1) (h2 : Turned b1 b2) :
    Turned b b2 :=
  ⟨h2.status.trans h1.status, h2.fenced.trans h1.fenced, h2.updaters.trans h1.updaters,
    h2.wantsHealthCheck.trans h1.wantsHealthCheck, h2.sticky.trans h1.sticky,
    h2.fixed.trans h1.fixed, fun hh => h2.heap (h1.heap hh),
    fun hh hs =>
      ⟨(h2.sound (h1.heap hh) (h1.sound hh hs).1).1,
        le_trans (h1.sound hh hs).2 (h2.sound (h1.heap hh) (h1.sound hh hs).1).2⟩⟩

/-- The names of the handlers are the same before and after. -/
theorem Turned.named {b b1 : Balancer} (hr : Turned b b1) (n : String) :
    (∃ h ∈ b1.handlers, h.name = n) ↔ (∃ h ∈ b.handlers, h.name = n) := by
  have key : ∀ l1 l2 : List namedHandler,
      (l1.map namedHandler.fixed).Perm (l2.map namedHandler.fixed) →
      (∃ h ∈ l1, h.name = n) → (∃ h ∈ l2, h.name = n) := by
    rintro l1 l2 hp ⟨h, hm, hn⟩
    have : h.fixed ∈ l2.map namedHandler.fixed := hp.subset (List.mem_map_of_mem _ hm)
    obtain ⟨g, hg, e⟩ := List.mem_map.mp this
    refine ⟨g, hg, ?_⟩
    have : g.fixed.2.1 = h.fixed.2.1 := by rw [e]
    exact this.trans hn
  exact ⟨key _ _ hr.fixed, key _ _ hr.fixed.symm⟩

/-- The loop of `nextServer`, when it returns, has only turned the heap. -/
theorem loop_turned (fuel : Nat) : ∀ (b b1 : Balancer) (h : namedHandler),
    nextServerLoop fuel b = .done (h, b1) → Turned b b1 := by
  induction fuel with
  | zero => intro b b1 h hl; simp [nextServerLoop] at hl
  | succ f ih =>
    intro b b1 h hl
    simp only [nextServerLoop] at hl
    cases hr : rotate b with
    | none => rw [hr] at hl; simp at hl
    | some p =>
      obtain ⟨h2, b2⟩ := p
      rw [hr] at hl
      have hrot := rotate_turned b b2 h2 hr
      simp only at hl
      split_ifs at hl with hc
      · simp only [Res.done.injEq, Prod.mk.injEq] at hl
        rw [← hl.2]
        exact hrot
      · exact hrot.then (ih b2 b1 h hl)

/-- Whatever `nextServer` returns, it has only turned the heap. -/
theorem nextServer_turned (fuel : Nat) (b b1 : Balancer) (r : Except String namedHandler)
    (h : nextServer fuel b = .done (r, b1)) : Turned b b1 := by
  simp only [nextServer] at h
  split_ifs at h with hc
  · simp only [Res.done.injEq, Prod.mk.injEq] at h
    rw [← h.2]
    exact Turned.same b
  · cases hl : nextServerLoop fuel b with
    | running => rw [hl] at h; simp at h
    | panicked => rw [hl] at h; simp at h
    | done p =>
      obtain ⟨g, b2⟩ := p
      rw [hl] at h
      simp only [Res.done.injEq, Prod.mk.injEq] at h
      rw [← h.2]
      exact loop_turned fuel b b2 g hl

/-- `Add` with a non-positive weight returns the balancer it was given. -/
theorem Add_ignored (b : Balancer) (name : String) (handler : Nat) (weight : Option Int)
    (fenced : Bool) (hw : effectiveWeight weight ≤ 0) : Add b name handler weight fenced = b := by
  simp only [Add, if_pos hw]

/-- `Add` with a positive effective weight: what it does to every field but the sticky maps. -/
theorem Add_fields (b : Balancer) (name : String) (handler : Nat) (weight : Option Int)
    (fenced : Bool) (hw : 0 < effectiveWeight weight) :
    (Add b name handler weight fenced).handlers
        = heapPush b.handlers (addedHandler b name handler weight) ∧
      (Add b name handler weight fenced).status = insert name b.status ∧
      (Add b name handler weight fenced).fenced
        = (if fenced then insert name b.fenced else b.fenced) ∧
      (Add b name handler weight fenced).curDeadline = b.curDeadline ∧
      (Add b name handler weight fenced).updaters = b.updaters ∧
      (Add b name handler weight fenced).wantsHealthCheck = b.wantsHealthCheck := by
  have hw2 : ¬ effectiveWeight weight ≤ 0 := by omega
  simp only [Add, if_neg hw2, addedHandler]
  cases hs : b.sticky with
  | none => simp
  | some s => simp

/-- `Add` keeps the heap property and the soundness of the deadlines. -/
theorem Add_sound (b : Balancer) (name : String) (handler : Nat) (weight : Option Int)
    (fenced : Bool) (hh : IsHeap b.handlers) (hs : Sound b) :
    IsHeap (Add b name handler weight fenced).handlers ∧
      Sound (Add b name handler weight fenced) := by
  by_cases hw : effectiveWeight weight ≤ 0
  · rw [Add_ignored b name handler weight fenced hw]; exact ⟨hh, hs⟩
  · have hp := Add_fields b name handler weight fenced (by omega)
    obtain ⟨hc0, hcmax, hcr, hall⟩ := hs
    have hw1 : 1 ≤ ofInt (effectiveWeight weight) := one_le_ofInt _ (by omega)
    obtain ⟨hy0, hy1⟩ := div_one_bounds _ hw1
    refine ⟨by rw [hp.1]; exact heapPush_heap _ _ hh, ?_⟩
    unfold Sound
    rw [hp.2.2.2.1, hp.1]
    refine ⟨hc0, hcmax, hcr, ?_⟩
    intro g hg
    rcases List.mem_cons.mp ((heapPush_perm _ _).subset hg) with e | hm
    · subst e
      exact ⟨hw1, le_add _ _ hc0 hcr hy0, add_le_max _ _ hc0 hcmax hy0 hy1, round_add _ _⟩
    · exact hall g hm

/-- In every state the balancer reaches in `float64`, the handlers are in heap
order and the deadlines are sound: `float64` numbers from `curDeadline` to
`2 ^ 53`, so that no sum overflows. -/
theorem reachable_sound (b : Balancer) (hb : Reachable b) : IsHeap b.handlers ∧ Sound b := by
  induction hb with
  | new sticky wantHealthCheck =>
    obtain ⟨h1, h2, _⟩ := New_fields sticky wantHealthCheck
    constructor
    · rw [h1]; exact IsHeap_nil
    · unfold Sound
      rw [h1, h2]
      refine ⟨le_rfl, by norm_num, round_zero, ?_⟩
      intro g hg
      simp at hg
  | add name handler weight fenced _ ih =>
    exact Add_sound _ name handler weight fenced ih.1 ih.2
  | setStatus childName up _ ih =>
    rw [SetStatus_fst]
    exact ih
  | nextServer fuel r _ hn ih =>
    have hrot := nextServer_turned fuel _ _ r hn
    exact ⟨hrot.heap ih.1, (hrot.sound ih.1 ih.2).1⟩

/-- Every fenced name is the name of a handler, in every state reached in `float64`. -/
theorem reachable_fenced (b : Balancer) (hb : Reachable b) :
    ∀ n ∈ b.fenced, ∃ h ∈ b.handlers, h.name = n := by
  induction hb with
  | new sticky wantHealthCheck =>
    intro n hn
    rw [(New_fields sticky wantHealthCheck).2.2.2.1] at hn
    simp at hn
  | @add b name handler weight fenced _ ih =>
    intro n hn
    by_cases hw : effectiveWeight weight ≤ 0
    · rw [Add_ignored b name handler weight fenced hw] at hn ⊢
      exact ih n hn
    · have hp := Add_fields b name handler weight fenced (by omega)
      have hperm := heapPush_perm b.handlers (addedHandler b name handler weight)
      have hold : ∀ m, (∃ h ∈ b.handlers, h.name = m) →
          ∃ h ∈ (Add b name handler weight fenced).handlers, h.name = m := by
        rintro m ⟨h, hm, e⟩
        rw [hp.1]
        exact ⟨h, hperm.symm.subset (List.mem_cons_of_mem _ hm), e⟩
      have hnew : ∃ h ∈ (Add b name handler weight fenced).handlers, h.name = name := by
        rw [hp.1]
        exact ⟨_, hperm.symm.subset (List.mem_cons_self _ _), rfl⟩
      rw [hp.2.2.1] at hn
      cases fenced with
      | false => exact hold n (ih n (by simpa using hn))
      | true =>
        rcases Finset.mem_insert.mp (by simpa using hn) with e | hm
        · rw [e]; exact hnew
        · exact hold n (ih n hm)
  | setStatus childName up _ ih =>
    rw [SetStatus_fst]
    exact ih
  | nextServer fuel r _ hn ih =>
    have hrot := nextServer_turned fuel _ _ r hn
    intro n hm
    rw [hrot.fenced] at hm
    exact (hrot.named n).mpr (ih n hm)

/-- When the pre-check passes and the root of the heap is healthy and not
fenced, `nextServer` returns after one rotation: the root, advanced. -/
theorem nextServer_root (b : Balancer) (fuel : Nat) (hf : 0 < fuel)
    (hpre : ¬ (b.handlers.length = 0 ∨ b.status.card = 0 ∨ b.fenced.card = b.handlers.length))
    (helig : (b.handlers.getD 0 default).name ∈ b.status ∧
      (b.handlers.getD 0 default).name ∉ b.fenced) :
    ∃ rest, (b.handlers.getD 0 default :: rest).Perm b.handlers ∧
      nextServer fuel b = .done (.ok (advance (b.handlers.getD 0 default)),
        { b with curDeadline := (b.handlers.getD 0 default).deadline,
                 handlers := heapPush rest (advance (b.handlers.getD 0 default)) }) := by
  have hbne : b.handlers ≠ [] := fun e => hpre (Or.inl (by rw [e]; rfl))
  obtain ⟨rest, hperm, _, hrot⟩ := rotate_root b hbne
  obtain ⟨f, rfl⟩ : ∃ f, fuel = f + 1 := ⟨fuel - 1, by omega⟩
  refine ⟨rest, hperm, ?_⟩
  have helig2 : (advance (b.handlers.getD 0 default)).name ∈ b.status ∧
      (advance (b.handlers.getD 0 default)).name ∉ b.fenced := helig
  simp only [nextServer, if_neg hpre, nextServerLoop, hrot]
  rw [if_pos helig2]

end float64

/-! ## Claims about the arithmetic of deadlines -/

namespace float64

/-- The exact reading and `float64` part ways: with weights 10 and 1 the sum of
ten times `1 / 10` is below 1 in `float64`, so the tenth pick returns `a`
again, where in exact arithmetic `a` has reached the deadline 1 of `b` and the
tenth pick returns `b`. -/
theorem tenth_pick_differs :
    (match picks 1 10 (seed (New none false) tenAndOne) with
      | .done (tr, _) => tr.map fun h => h.name
      | _ => []) = ["a", "a", "a", "a", "a", "a", "a", "a", "a", "a"] ∧
    (match wrr.picks 1 10 (wrr.seed (New none false) tenAndOne) with
      | .done (tr, _) => tr.map fun h => h.name
      | _ => []) = ["a", "a", "a", "a", "a", "a", "a", "a", "a", "b"] := by
  decide!

/-- C7 as stated fails: `Add` with weight 3 to a fresh balancer stores the
deadline `6004799503160661 / 2 ^ 54`, the `float64` nearest to `1 / 3`, not
`curDeadline + 1 / 3`; and `Add` with weight `2 ^ 53 + 1` stores the weight
`2 ^ 53`. -/
theorem Add_exact_sum_fails :
    (Add (New none false) "a" 0 (some 3) false).handlers.map (fun h => (h.name, h.deadline))
        = [("a", 6004799503160661 / 18014398509481984)] ∧
    (6004799503160661 / 18014398509481984 : ℚ) ≠ (New none false).curDeadline + 1 / 3 ∧
    (Add (New none false) "a" 0 (some 9007199254740993) false).handlers.map
        (fun h => (h.name, h.weight)) = [("a", 9007199254740992)] ∧
    (9007199254740992 : ℚ) ≠ ((9007199254740993 : ℤ) : ℚ) := by
  decide!

/-- C7, amended. `Add` with effective weight `w > 0` (1 when the pointer is
nil): afterwards `handlers` holds exactly one more entry, of the given name and
handler, its weight the conversion `float64(w)`, which is `w` itself when
`w ≤ 2 ^ 53`, and its deadline the `float64` sum of the prior `curDeadline` and
the `float64` quotient `1 / weight`, the other entries being those it held;
`name` is in `status`; `fenced` has gained `name` if fencing was requested and
is otherwise unchanged; `curDeadline` is unchanged. -/
theorem Add_registers_rounded (b : Balancer) (name : String) (handler : Nat)
    (weight : Option Int) (fenced : Bool) (hw : 0 < effectiveWeight weight) :
    ∃ h : namedHandler,
      h.name = name ∧ h.Handler = handler ∧ h.weight = ofInt (effectiveWeight weight) ∧
      (effectiveWeight weight ≤ 9007199254740992 → h.weight = (effectiveWeight weight : ℚ)) ∧
      h.deadline = add b.curDeadline (div 1 h.weight) ∧
      (Add b name handler weight fenced).handlers.Perm (h :: b.handlers) ∧
      (Add b name handler weight fenced).handlers.length = b.handlers.length + 1 ∧
      (Add b name handler weight fenced).status = insert name b.status ∧
      name ∈ (Add b name handler weight fenced).status ∧
      (Add b name handler weight fenced).fenced
        = (if fenced then insert name b.fenced else b.fenced) ∧
      (Add b name handler weight fenced).curDeadline = b.curDeadline := by
  obtain ⟨h1, h2, h3, h4, _, _⟩ := Add_fields b name handler weight fenced hw
  refine ⟨addedHandler b name handler weight, rfl, rfl, rfl, ?_, rfl, ?_, ?_, h2, ?_, h3, h4⟩
  · intro hle
    exact ofInt_exact _ hw hle
  · rw [h1]; exact heapPush_perm _ _
  · rw [h1]; exact heapPush_length _ _
  · rw [h2]; exact Finset.mem_insert_self _ _

/-- C7 amended, adding a fenced backend of weight 10 to the balancer that
holds `a` of weight 3: its deadline is the `float64` nearest to `1 / 10`. -/
theorem Add_registers_rounded_witness :
    0 < effectiveWeight (some 10) ∧
    add oneThird.curDeadline (div 1 (ofInt 10)) = 3602879701896397 / 36028797018963968 ∧
    ∃ h : namedHandler,
      h.name = "d" ∧ h.Handler = 7 ∧ h.weight = ofInt (effectiveWeight (some 10)) ∧
      (effectiveWeight (some 10) ≤ 9007199254740992 →
        h.weight = (effectiveWeight (some 10) : ℚ)) ∧
      h.deadline = add oneThird.curDeadline (div 1 h.weight) ∧
      (Add oneThird "d" 7 (some 10) true).handlers.Perm (h :: oneThird.handlers) ∧
      (Add oneThird "d" 7 (some 10) true).handlers.length = oneThird.handlers.length + 1 ∧
      (Add oneThird "d" 7 (some 10) true).status = insert "d" oneThird.status ∧
      "d" ∈ (Add oneThird "d" 7 (some 10) true).status ∧
      (Add oneThird "d" 7 (some 10) true).fenced
        = (if true then insert "d" oneThird.fenced else oneThird.fenced) ∧
      (Add oneThird "d" 7 (some 10) true).curDeadline = oneThird.curDeadline :=
  ⟨by decide, by decide!, Add_registers_rounded oneThird "d" 7 (some 10) true (by decide)⟩

/-- C26 as stated fails: the balancer `stalled` is reached by adding `a` of
weight 1, one `nextServer` call, and adding `c` of weight `2 ^ 53`; both are
healthy and none is fenced.  `nextServer` returns `c`, whose deadline was 1 and
is 1 afterwards: the `float64` sum `1 + 1 / 2 ^ 53` is 1, not the former
deadline plus `1 / weight`. -/
theorem stalled_deadline_not_advanced :
    Reachable stalled ∧ stalled.handlers ≠ [] ∧
    (∀ h ∈ stalled.handlers, h.name ∈ stalled.status ∧ h.name ∉ stalled.fenced) ∧
    stalledRoot ∈ stalled.handlers ∧
    nextServer 1 stalled = .done (.ok (advance stalledRoot), afterStalled) ∧
    stalledRoot.deadline = 1 ∧ (advance stalledRoot).deadline = 1 ∧
    (advance stalledRoot).deadline ≠ stalledRoot.deadline + 1 / stalledRoot.weight ∧
    afterStalled.handlers = stalled.handlers := by
  have hr : Reachable stalled :=
    Reachable.add "c" 1 (some 9007199254740992) false
      (Reachable.nextServer 1
        (.ok { Handler := 0, name := "a", hashedName := "", weight := 1, deadline := 2 })
        (Reachable.add "a" 0 none false (Reachable.new none false))
        (by with_unfolding_all rfl))
  obtain ⟨rest, _, hnext⟩ := nextServer_root stalled 1 (by decide) (by decide!) (by decide!)
  have hroot : stalled.handlers.getD 0 default = stalledRoot := by decide!
  rw [hroot] at hnext
  have hafter : nextServer 1 stalled = .done (.ok (advance stalledRoot), afterStalled) := by
    obtain ⟨b1, hb1⟩ : ∃ b1, nextServer 1 stalled = .done (.ok (advance stalledRoot), b1) :=
      ⟨_, hnext⟩
    have e : afterStalled = b1 := by
      unfold afterStalled
      rw [hb1]
    rw [e]
    exact hb1
  exact ⟨hr, by decide!, by decide!, by decide!, hafter, by decide!, by decide!,
    by decide!, by decide!⟩

/-- C26, amended. Earliest-deadline step: in every balancer state reached in
`float64` with at least one handler where every handler is healthy and none is
fenced, `nextServer` returns (one loop iteration is enough) a handler `h0`,
advanced, where `h0` is a handler whose deadline before the call was no later
than any handler's; `curDeadline` becomes that former deadline; the deadline
of the handler returned is the `float64` sum of the former one and the
`float64` quotient `1 / weight`, which is never below the former one and can
equal it; and the handlers afterwards are the advanced handler and the others,
unchanged, possibly in another order, so their number is the same. -/
theorem earliest_deadline_step_rounded (b : Balancer) (hb : Reachable b)
    (hne : b.handlers ≠ [])
    (hall : ∀ h ∈ b.handlers, h.name ∈ b.status ∧ h.name ∉ b.fenced) (fuel : Nat)
    (hf : 0 < fuel) :
    ∃ (h0 : namedHandler) (rest : List namedHandler) (b1 : Balancer),
      nextServer fuel b = .done (.ok (advance h0), b1) ∧
      (h0 :: rest).Perm b.handlers ∧
      (∀ g ∈ b.handlers, h0.deadline ≤ g.deadline) ∧
      b1.curDeadline = h0.deadline ∧
      (advance h0).deadline = add h0.deadline (div 1 h0.weight) ∧
      h0.deadline ≤ (advance h0).deadline ∧
      (advance h0).name = h0.name ∧ (advance h0).weight = h0.weight ∧
      b1.handlers.Perm (advance h0 :: rest) ∧
      b1.handlers.length = b.handlers.length := by
  have hroot := root_mem b.handlers hne
  obtain ⟨hheap, hc0, _, _, hsound⟩ := reachable_sound b hb
  have hfen : b.fenced = ∅ := by
    apply Finset.eq_empty_of_forall_not_mem
    intro n hn
    obtain ⟨h, hm, e⟩ := reachable_fenced b hb n hn
    exact (hall h hm).2 (e ▸ hn)
  have hlen : b.handlers.length ≠ 0 := fun e => hne (List.length_eq_zero.mp e)
  have hpre : ¬ (b.handlers.length = 0 ∨ b.status.card = 0 ∨
      b.fenced.card = b.handlers.length) := by
    rintro (h | h | h)
    · exact hlen h
    · rw [Finset.card_eq_zero] at h
      have := (hall _ hroot).1
      rw [h] at this
      simp at this
    · rw [hfen] at h
      simp at h
      exact hlen h.symm
  obtain ⟨rest, hperm, hnext⟩ := nextServer_root b fuel hf hpre (hall _ hroot)
  have hpush := heapPush_perm rest (advance (b.handlers.getD 0 default))
  obtain ⟨hw, hcd, hdmax, hdr⟩ := hsound _ hroot
  refine ⟨_, rest, _, hnext, hperm, ?_, rfl, rfl,
    (advance_sound _ hw (le_trans hc0 hcd) hdmax hdr).1, rfl, rfl, hpush, ?_⟩
  · intro g hg
    exact mem_key_root_le b.handlers hheap g hg
  · rw [hpush.length_eq, ← hperm.length_eq]
    rfl

/-- C26 amended, at one backend of weight 3: the deadline goes from the
`float64` nearest to `1 / 3` to twice that. -/
theorem earliest_deadline_step_rounded_witness :
    Reachable oneThird ∧ oneThird.handlers ≠ [] ∧
    (∀ h ∈ oneThird.handlers, h.name ∈ oneThird.status ∧ h.name ∉ oneThird.fenced) ∧
    afterOneThird.handlers.map (fun h => (h.name, h.deadline))
      = [("a", 6004799503160661 / 9007199254740992)] ∧
    ∃ (h0 : namedHandler) (rest : List namedHandler) (b1 : Balancer),
      nextServer 1 oneThird = .done (.ok (advance h0), b1) ∧
      (h0 :: rest).Perm oneThird.handlers ∧
      (∀ g ∈ oneThird.handlers, h0.deadline ≤ g.deadline) ∧
      b1.curDeadline = h0.deadline ∧
      (advance h0).deadline = add h0.deadline (div 1 h0.weight) ∧
      h0.deadline ≤ (advance h0).deadline ∧
      (advance h0).name = h0.name ∧ (advance h0).weight = h0.weight ∧
      b1.handlers.Perm (advance h0 :: rest) ∧
      b1.handlers.length = oneThird.handlers.length :=
  have hr : Reachable oneThird := Reachable.add "a" 0 (some 3) false (Reachable.new none false)
  ⟨hr, by decide!, by decide!, by decide!,
    earliest_deadline_step_rounded oneThird hr (by decide!) (by decide!) 1 (by decide)⟩

end float64

end wrr

namespace httputil

/-! ## The error classifier -/

mutual
/-- The traversal of `errors.Is` finds the target exactly when the error is or
wraps it. -/
theorem isChain_iff (e : GoError) (s : Sentinel) : isChain e s = true ↔ Wraps e s := by
  cases e with
  | sentinel t =>
    constructor
    · intro h
      have : t = s := by simpa [isChain] using h
      rw [this]; exact Wraps.self s
    · intro h
      cases h
      simp [isChain]
  | plain msg =>
    constructor
    · intro h; simp [isChain] at h
    · intro h; cases h
  | netError timeout unwrap =>
    rw [isChain, isChainAny_iff unwrap s]
    constructor
    · rintro ⟨e, he, hw⟩; exact Wraps.netError he hw
    · intro h
      cases h with
      | netError he hw => exact ⟨_, he, hw⟩
  | wrap msg unwrap =>
    rw [isChain, isChainAny_iff unwrap s]
    constructor
    · rintro ⟨e, he, hw⟩; exact Wraps.wrap he hw
    · intro h
      cases h with
      | wrap he hw => exact ⟨_, he, hw⟩
theorem isChainAny_iff (l : List GoError) (s : Sentinel) :
    isChainAny l s = true ↔ ∃ e ∈ l, Wraps e s := by
  cases l with
  | nil => simp [isChainAny]
  | cons e rest =>
    rw [isChainAny, Bool.or_eq_true, isChain_iff e s, isChainAny_iff rest s]
    simp
end

/-- `errors.Is(err, target)` holds exactly when `err` is not nil and is or
wraps the target. -/
theorem errorsIs_iff (err : Option GoError) (s : Sentinel) :
    errorsIs err s = true ↔ ∃ e, err = some e ∧ Wraps e s := by
  cases err with
  | none => simp [errorsIs]
  | some e => simp [errorsIs, isChain_iff]

mutual
/-- The traversal of `errors.As` stops at the `net.Error` the error exposes, and
finds nothing exactly when the tree holds no `net.Error`. -/
theorem asChain_iff (e : GoError) :
    (∀ t, asChain e = some t ↔ Exposes e t) ∧ (asChain e = none ↔ NoNetError e) := by
  cases e with
  | sentinel s =>
    refine ⟨fun t => ⟨fun h => ?_, fun h => ?_⟩, fun _ => NoNetError.sentinel s, fun _ => rfl⟩
    · simp [asChain] at h
    · cases h
  | plain msg =>
    refine ⟨fun t => ⟨fun h => ?_, fun h => ?_⟩, fun _ => NoNetError.plain msg, fun _ => rfl⟩
    · simp [asChain] at h
    · cases h
  | netError timeout unwrap =>
    refine ⟨fun t => ⟨fun h => ?_, fun h => ?_⟩, fun h => ?_, fun h => ?_⟩
    · have : timeout = t := by simpa [asChain] using h
      rw [← this]; exact Exposes.self
    · cases h; rfl
    · simp [asChain] at h
    · cases h
  | wrap msg unwrap =>
    obtain ⟨h1, h2⟩ := asChainAny_iff unwrap
    refine ⟨fun t => ?_, ?_⟩
    · rw [asChain, h1 t]
      constructor
      · rintro ⟨before, e, after, rfl, hb, he⟩; exact Exposes.wrap hb he
      · intro h
        cases h with
        | wrap hb he => exact ⟨_, _, _, rfl, hb, he⟩
    · rw [asChain, h2]
      constructor
      · intro h; exact NoNetError.wrap h
      · intro h
        cases h with
        | wrap h => exact h
theorem asChainAny_iff (l : List GoError) :
    (∀ t, asChainAny l = some t ↔
      ∃ before e after, l = before ++ e :: after ∧ (∀ x ∈ before, NoNetError x) ∧ Exposes e t) ∧
    (asChainAny l = none ↔ ∀ x ∈ l, NoNetError x) := by
  cases l with
  | nil =>
    refine ⟨fun t => ⟨fun h => ?_, ?_⟩, by simp [asChainAny]⟩
    · simp [asChainAny] at h
    · rintro ⟨before, e, after, h, _⟩
      simp at h
  | cons x rest =>
    obtain ⟨hx1, hx2⟩ := asChain_iff x
    obtain ⟨hr1, hr2⟩ := asChainAny_iff rest
    cases hax : asChain x with
    | some t1 =>
      have hex : Exposes x t1 := (hx1 t1).mp hax
      refine ⟨fun t => ?_, ?_⟩
      · simp only [asChainAny, hax]
        constructor
        · intro h
          have : t1 = t := by simpa using h
          exact ⟨[], x, rest, rfl, by simp, this ▸ hex⟩
        · rintro ⟨before, e, after, hl, hb, he⟩
          cases before with
          | nil =>
            simp only [List.nil_append, List.cons.injEq] at hl
            rw [← hl.1] at he
            rw [← hax, (hx1 t).mpr he]
          | cons y before1 =>
            simp only [List.cons_append, List.cons.injEq] at hl
            have hn : NoNetError x := hl.1 ▸ hb y (List.mem_cons_self _ _)
            rw [hx2.mpr hn] at hax
            exact Option.noConfusion hax
      · simp only [asChainAny, hax]
        constructor
        · intro h; exact Option.noConfusion h
        · intro h
          have := hx2.mpr (h x (List.mem_cons_self _ _))
          rw [this] at hax
          exact Option.noConfusion hax
    | none =>
      have hnx : NoNetError x := hx2.mp hax
      refine ⟨fun t => ?_, ?_⟩
      · simp only [asChainAny, hax]
        rw [hr1 t]
        constructor
        · rintro ⟨before, e, after, hl, hb, he⟩
          refine ⟨x :: before, e, after, by rw [hl]; rfl, ?_, he⟩
          intro y hy
          rcases List.mem_cons.mp hy with e1 | h1
          · rw [e1]; exact hnx
          · exact hb y h1
        · rintro ⟨before, e, after, hl, hb, he⟩
          cases before with
          | nil =>
            simp only [List.nil_append, List.cons.injEq] at hl
            rw [← hl.1] at he
            have := (hx1 t).mpr he
            rw [this] at hax
            exact Option.noConfusion hax
          | cons y before1 =>
            simp only [List.cons_append, List.cons.injEq] at hl
            exact ⟨before1, e, after, hl.2, fun z hz => hb z (List.mem_cons_of_mem _ hz), he⟩
      · simp only [asChainAny, hax]
        rw [hr2]
        constructor
        · intro h y hy
          rcases List.mem_cons.mp hy with e1 | h1
          · rw [e1]; exact hnx
          · exact h y h1
        · intro h y hy
          exact h y (List.mem_cons_of_mem _ hy)
end

/-- `errors.As(err, &netErr)` succeeds exactly when `err` is not nil and exposes
a `net.Error`, whose `Timeout()` it then reads; it fails exactly when `err` is
nil or holds no `net.Error`. -/
theorem errorsAs_iff (err : Option GoError) :
    (∀ t, errorsAs err = some t ↔ ∃ e, err = some e ∧ Exposes e t) ∧
    (errorsAs err = none ↔ ∀ e, err = some e → NoNetError e) := by
  cases err with
  | none => simp [errorsAs]
  | some e =>
    obtain ⟨h1, h2⟩ := asChain_iff e
    refine ⟨fun t => ?_, ?_⟩
    · simp [errorsAs, h1 t]
    · simp [errorsAs, h2]

/-- C17. `ComputeStatusCode` is total and returns, by first match: 502 when the
error is or wraps `io.EOF`; else 499 when it is or wraps `context.Canceled`;
else 504 when it exposes a `net.Error` whose `Timeout()` is true; else 502
when it exposes any other `net.Error`; else (no `net.Error` in it, or the nil
error) 500.  So every error maps to one code among 499, 500, 502, 504, and an
error that is a timing-out `net.Error` and wraps `io.EOF` yields 502, not 504,
while a timing-out `net.Error`, bare or wrapped, that wraps neither `io.EOF`
nor `context.Canceled` yields 504. -/
theorem ComputeStatusCode_first_match (err : Option GoError) :
    ((∃ e, err = some e ∧ Wraps e .EOF) → ComputeStatusCode err = 502) ∧
    ((¬ ∃ e, err = some e ∧ Wraps e .EOF) → (∃ e, err = some e ∧ Wraps e .Canceled) →
      ComputeStatusCode err = 499) ∧
    ((¬ ∃ e, err = some e ∧ Wraps e .EOF) → (¬ ∃ e, err = some e ∧ Wraps e .Canceled) →
      ((∃ e, err = some e ∧ Exposes e true) → ComputeStatusCode err = 504) ∧
      ((∃ e, err = some e ∧ Exposes e false) → ComputeStatusCode err = 502) ∧
      ((∀ e, err = some e → NoNetError e) → ComputeStatusCode err = 500)) ∧
    ComputeStatusCode none = 500 ∧
    (ComputeStatusCode err = 499 ∨ ComputeStatusCode err = 500 ∨ ComputeStatusCode err = 502 ∨
      ComputeStatusCode err = 504) ∧
    (∀ msg, ComputeStatusCode (some (.netError true [.wrap msg [.sentinel .EOF]])) = 502) ∧
    ComputeStatusCode (some (.netError true [])) = 504 ∧
    (∀ msg, ComputeStatusCode (some (.wrap msg [.plain "dial", .netError true []])) = 504) ∧
    ComputeStatusCode (some (.netError false [])) = 502 ∧
    (∀ msg, ComputeStatusCode
      (some (.wrap msg [.netError false [], .netError true []])) = 502) ∧
    (∀ msg, ComputeStatusCode (some (.plain msg)) = 500) ∧
    (∀ msg, ComputeStatusCode (some (.wrap msg [.sentinel .Canceled])) = 499) := by
  obtain ⟨has1, has2⟩ := errorsAs_iff err
  refine ⟨?_, ?_, ?_, rfl, ?_, fun msg => rfl, rfl, fun msg => rfl, rfl, fun msg => rfl,
    fun msg => rfl, fun msg => rfl⟩
  · intro h
    have := (errorsIs_iff err .EOF).mpr h
    simp [ComputeStatusCode, this, StatusBadGateway]
  · intro h1 h2
    have e1 : errorsIs err .EOF = false := by
      rw [← Bool.not_eq_true]; exact fun h => h1 ((errorsIs_iff err .EOF).mp h)
    have e2 := (errorsIs_iff err .Canceled).mpr h2
    simp [ComputeStatusCode, e1, e2, StatusClientClosedRequest]
  · intro h1 h2
    have e1 : errorsIs err .EOF = false := by
      rw [← Bool.not_eq_true]; exact fun h => h1 ((errorsIs_iff err .EOF).mp h)
    have e2 : errorsIs err .Canceled = false := by
      rw [← Bool.not_eq_true]; exact fun h => h2 ((errorsIs_iff err .Canceled).mp h)
    refine ⟨fun h => ?_, fun h => ?_, fun h => ?_⟩
    · have h3 := (has1 true).mpr h
      simp [ComputeStatusCode, e1, e2, h3, StatusGatewayTimeout]
    · have h3 := (has1 false).mpr h
      simp [ComputeStatusCode, e1, e2, h3, StatusBadGateway]
    · have h3 := has2.mpr h
      simp [ComputeStatusCode, e1, e2, h3, StatusInternalServerError]
  · unfold ComputeStatusCode
    split_ifs
    · right; right; left; rfl
    · left; rfl
    · cases errorsAs err with
      | none => right; left; rfl
      | some t => cases t <;> simp [StatusGatewayTimeout, StatusBadGateway]

end httputil

namespace httputil

/-! ## The director -/

/-- `cleanWebSocketHeaders` writes the header map only. -/
theorem cleanWebSocketHeaders_frame (req : Request) :
    (cleanWebSocketHeaders req).URL = req.URL ∧
    (cleanWebSocketHeaders req).RequestURI = req.RequestURI ∧
    (cleanWebSocketHeaders req).Proto = req.Proto ∧
    (cleanWebSocketHeaders req).ProtoMajor = req.ProtoMajor ∧
    (cleanWebSocketHeaders req).ProtoMinor = req.ProtoMinor ∧
    (cleanWebSocketHeaders req).Host = req.Host := by
  unfold cleanWebSocketHeaders
  split_ifs <;> exact ⟨rfl, rfl, rfl, rfl, rfl, rfl⟩

/-- The raw query the director writes. -/
theorem directorBuilder_RawQuery (ParseRequestURI : String → Option URL) (target : URL)
    (passHostHeader : Bool) (outReq : Request) :
    (directorBuilder ParseRequestURI target passHostHeader outReq).URL.RawQuery
      = ReplaceAll (sourceRawQuery ParseRequestURI outReq) ';' '&' := by
  unfold directorBuilder sourceRawQuery
  simp only [(cleanWebSocketHeaders_frame _).1]
  by_cases hu : outReq.RequestURI ≠ ""
  · cases hp : ParseRequestURI outReq.RequestURI with
    | none => cases passHostHeader <;> simp [hu, hp]
    | some p => cases passHostHeader <;> simp [hu, hp]
  · cases passHostHeader <;> simp [hu]

/-- C18. After the director runs, the request's `URL.RawQuery` contains no `;`:
it is the source raw query (that of the parsed `RequestURI` when `RequestURI`
is not empty and parses, that of the request's URL otherwise) with every `;`
replaced by `&`, every other character and the length unchanged. -/
theorem director_replaces_semicolons (ParseRequestURI : String → Option URL) (target : URL)
    (passHostHeader : Bool) (outReq : Request) :
    ';' ∉ (directorBuilder ParseRequestURI target passHostHeader outReq).URL.RawQuery.data ∧
    (directorBuilder ParseRequestURI target passHostHeader outReq).URL.RawQuery.length
      = (sourceRawQuery ParseRequestURI outReq).length ∧
    ∀ (i : Nat) (c : Char), (sourceRawQuery ParseRequestURI outReq).data[i]? = some c →
      (directorBuilder ParseRequestURI target passHostHeader outReq).URL.RawQuery.data[i]?
        = some (if c = ';' then '&' else c) := by
  rw [directorBuilder_RawQuery]
  refine ⟨?_, ?_, ?_⟩
  · simp only [ReplaceAll, List.mem_map, not_exists, not_and]
    intro c _
    split_ifs with h
    · decide
    · exact h
  · simp only [ReplaceAll, String.length, List.length_map]
  · intro i c hc
    simp [ReplaceAll, List.getElem?_map, hc]

/-- C19. The director sets `URL.Scheme` and `URL.Host` to the target's, clears
`RequestURI` and forces protocol `HTTP/1.1` (major 1, minor 1); with
`passHostHeader` false the request's `Host` afterwards is `target.Host`, with
`passHostHeader` true it is what it was before. -/
theorem director_target_and_host (ParseRequestURI : String → Option URL) (target : URL)
    (passHostHeader : Bool) (outReq : Request) :
    (directorBuilder ParseRequestURI target passHostHeader outReq).URL.Scheme = target.Scheme ∧
    (directorBuilder ParseRequestURI target passHostHeader outReq).URL.Host = target.Host ∧
    (directorBuilder ParseRequestURI target passHostHeader outReq).RequestURI = "" ∧
    (directorBuilder ParseRequestURI target passHostHeader outReq).Proto = "HTTP/1.1" ∧
    (directorBuilder ParseRequestURI target passHostHeader outReq).ProtoMajor = 1 ∧
    (directorBuilder ParseRequestURI target passHostHeader outReq).ProtoMinor = 1 ∧
    (passHostHeader = false →
      (directorBuilder ParseRequestURI target passHostHeader outReq).Host = target.Host) ∧
    (passHostHeader = true →
      (directorBuilder ParseRequestURI target passHostHeader outReq).Host = outReq.Host) := by
  unfold directorBuilder
  simp only [(cleanWebSocketHeaders_frame _).1, (cleanWebSocketHeaders_frame _).2.1,
    (cleanWebSocketHeaders_frame _).2.2.1, (cleanWebSocketHeaders_frame _).2.2.2.1,
    (cleanWebSocketHeaders_frame _).2.2.2.2.1, (cleanWebSocketHeaders_frame _).2.2.2.2.2]
  cases passHostHeader <;> simp

end httputil

namespace httputil

/-! ## WebSocket header repair -/

/-- The header map `cleanWebSocketHeaders` leaves on an upgrade request, key by key. -/
theorem cleanWebSocketHeaders_Header (req : Request) (hup : isWebSocketUpgrade req = true) :
    (∀ p ∈ webSocketKeys,
      (cleanWebSocketHeaders req).Header p.2 = none ∧
      (cleanWebSocketHeaders req).Header p.1 = some (Header.values req.Header p.2)) ∧
    ∀ k, (∀ p ∈ webSocketKeys, k ≠ p.1 ∧ k ≠ p.2) →
      (cleanWebSocketHeaders req).Header k = req.Header k := by
  have hne : ¬ ¬ isWebSocketUpgrade req = true := fun h => h hup
  unfold cleanWebSocketHeaders
  rw [if_neg hne]
  constructor
  · intro p hp
    simp only [webSocketKeys, List.mem_cons, List.mem_singleton, List.not_mem_nil, or_false] at hp
    rcases hp with rfl | rfl | rfl | rfl | rfl <;>
      simp [moveHeader, Function.update_apply, Header.values]
  · intro k hk
    simp only [webSocketKeys, List.mem_cons, List.mem_singleton, List.not_mem_nil, or_false,
      forall_eq_or_imp, forall_eq] at hk
    obtain ⟨⟨a1, a2⟩, ⟨b1, b2⟩, ⟨c1, c2⟩, ⟨d1, d2⟩, ⟨e1, e2⟩⟩ := hk
    simp [moveHeader, Function.update_apply, a1, a2, b1, b2, c1, c2, d1, d2, e1, e2]

/-- C20 as stated fails: a value already stored under `Sec-WebSocket-Key` is
overwritten by the (absent) values of `Sec-Websocket-Key` and is in the header
map no more. -/
theorem stored_canonical_value_lost :
    ¬ ∀ req : Request, isWebSocketUpgrade req = true →
      (∀ p ∈ webSocketKeys, (cleanWebSocketHeaders req).Header p.2 = none) ∧
      (∀ k v, v ∈ Header.values req.Header k →
        ∃ k1, v ∈ Header.values (cleanWebSocketHeaders req).Header k1) ∧
      (∀ p ∈ webSocketKeys,
        Header.values (cleanWebSocketHeaders req).Header p.1 = Header.values req.Header p.2) := by
  intro hall
  have hup : isWebSocketUpgrade repairedRequest = true := by decide
  obtain ⟨k1, hk1⟩ := (hall repairedRequest hup).2.1 "Sec-WebSocket-Key"
    "dGhlIHNhbXBsZSBub25jZQ==" (by decide)
  obtain ⟨hkeys, hother⟩ := cleanWebSocketHeaders_Header repairedRequest hup
  by_cases hk : ∀ p ∈ webSocketKeys, k1 ≠ p.1 ∧ k1 ≠ p.2
  · rw [Header.values, hother k1 hk] at hk1
    have h1 : k1 ≠ "Sec-WebSocket-Key" := (hk ("Sec-WebSocket-Key", "Sec-Websocket-Key") (by decide)).1
    simp only [repairedRequest, upgradeRequest] at hk1
    split_ifs at hk1 <;> simp at hk1
  · push_neg at hk
    obtain ⟨p, hp, hpk⟩ := hk
    have h2 := hkeys p hp
    by_cases e : k1 = p.1
    · rw [Header.values, e, h2.2] at hk1
      simp only [webSocketKeys, List.mem_cons, List.mem_singleton, List.not_mem_nil,
        or_false] at hp
      rcases hp with rfl | rfl | rfl | rfl | rfl <;> revert hk1 <;> decide
    · rw [Header.values, hpk e, h2.1] at hk1
      simp at hk1

/-- C20, amended. For every request that is a WebSocket upgrade,
`cleanWebSocketHeaders` removes the five keys `Sec-Websocket-X`, makes each
`Sec-WebSocket-X` hold the values formerly under `Sec-Websocket-X`, and leaves
every other key as it was; so every value that was under a key
`Sec-Websocket-X` or under a key other than the five `Sec-WebSocket-X` is
still present.  Values stored under `Sec-WebSocket-X` before are replaced. -/
theorem cleanWebSocketHeaders_repairs (req : Request) (hup : isWebSocketUpgrade req = true) :
    (∀ p ∈ webSocketKeys, (cleanWebSocketHeaders req).Header p.2 = none) ∧
    (∀ p ∈ webSocketKeys,
      (cleanWebSocketHeaders req).Header p.1 = some (Header.values req.Header p.2)) ∧
    (∀ k, (∀ p ∈ webSocketKeys, k ≠ p.1 ∧ k ≠ p.2) →
      (cleanWebSocketHeaders req).Header k = req.Header k) ∧
    (∀ k v, (∀ p ∈ webSocketKeys, k ≠ p.1) → v ∈ Header.values req.Header k →
      ∃ k1, v ∈ Header.values (cleanWebSocketHeaders req).Header k1) := by
  obtain ⟨hkeys, hother⟩ := cleanWebSocketHeaders_Header req hup
  refine ⟨fun p hp => (hkeys p hp).1, fun p hp => (hkeys p hp).2, hother, ?_⟩
  intro k v hk hv
  by_cases hw : ∃ p ∈ webSocketKeys, k = p.2
  · obtain ⟨p, hp, e⟩ := hw
    refine ⟨p.1, ?_⟩
    rw [Header.values, (hkeys p hp).2, ← e]
    exact hv
  · push_neg at hw
    refine ⟨k, ?_⟩
    rw [Header.values, hother k fun p hp => ⟨hk p hp, hw p hp⟩]
    exact hv

/-- C20 amended, at an upgrade request with a key and a version: both move to
the `Sec-WebSocket-` spelling. -/
theorem cleanWebSocketHeaders_repairs_witness :
    isWebSocketUpgrade upgradeRequest = true ∧
    (cleanWebSocketHeaders upgradeRequest).Header "Sec-WebSocket-Version" = some ["13"] ∧
    (∀ p ∈ webSocketKeys, (cleanWebSocketHeaders upgradeRequest).Header p.2 = none) ∧
    (∀ p ∈ webSocketKeys,
      (cleanWebSocketHeaders upgradeRequest).Header p.1
        = some (Header.values upgradeRequest.Header p.2)) ∧
    (∀ k, (∀ p ∈ webSocketKeys, k ≠ p.1 ∧ k ≠ p.2) →
      (cleanWebSocketHeaders upgradeRequest).Header k = upgradeRequest.Header k) ∧
    (∀ k v, (∀ p ∈ webSocketKeys, k ≠ p.1) → v ∈ Header.values upgradeRequest.Header k →
      ∃ k1, v ∈ Header.values (cleanWebSocketHeaders upgradeRequest).Header k1) :=
  ⟨by decide, by decide, cleanWebSocketHeaders_repairs upgradeRequest (by decide)⟩

end httputil

namespace api

/-! ## `getProviders` -/

/-- The loop appends the names of the populated fields, in order. -/
theorem getProvidersLoop_eq (fields : List StructField) : ∀ providers : List String,
    getProvidersLoop fields providers
      = providers ++ (fields.filter populated).map fun f => f.Name := by
  induction fields with
  | nil => intro providers; simp [getProvidersLoop]
  | cons field rest ih =>
    intro providers
    obtain ⟨name, value⟩ := field
    cases value with
    | zero => simp [getProvidersLoop, populated, Value.Kind, ih]
    | other kind => 
      cases kind <;> simp [getProvidersLoop, populated, Value.Kind, Value.Elem, ih]
    | nilPointer => simp [getProvidersLoop, populated, Value.Kind, Value.Elem, ih]
    | pointer v =>
      have hk : (Value.pointer v).Kind = Kind.Ptr := rfl
      have he : (Value.pointer v).Elem = v := rfl
      have hn : (Value.pointer v).IsNil = false := rfl
      by_cases hv : v.Kind = Kind.Struct
      · simp [getProvidersLoop, populated, hk, he, hn, hv, ih]
      · simp [getProvidersLoop, populated, hk, he, hv, ih]

/-- C21. `getProviders` returns nil when `conf.Providers` is nil, and otherwise
exactly the names of the fields of the `Providers` struct that are non-nil
pointers to a struct, each once, in field declaration order; a name is in the
result only if some field of that name is populated, so, field names being
distinct, a field that is nil or not a pointer to a struct never appears. -/
theorem getProviders_populated (fields : List StructField) :
    getProviders { Providers := none } = [] ∧
    getProviders { Providers := some fields }
      = (fields.filter fun f => populated f).map (fun f => f.Name) ∧
    (∀ f, populated f = true ↔ ∃ v, f.Value = .pointer v ∧ v.Kind = Kind.Struct) ∧
    (∀ n, n ∈ getProviders { Providers := some fields } ↔
      ∃ f ∈ fields, f.Name = n ∧ populated f = true) ∧
    ((fields.map fun f => f.Name).Nodup →
      (getProviders { Providers := some fields }).Nodup ∧
      ∀ f ∈ fields, populated f = false → f.Name ∉ getProviders { Providers := some fields }) := by
  have heq : getProviders { Providers := some fields }
      = (fields.filter fun f => populated f).map (fun f => f.Name) := by
    simp [getProviders, getProvidersLoop_eq]
  have hmem : ∀ n, n ∈ getProviders { Providers := some fields } ↔
      ∃ f ∈ fields, f.Name = n ∧ populated f = true := by
    intro n
    rw [heq]
    simp only [List.mem_map, List.mem_filter]
    constructor
    · rintro ⟨f, ⟨hf, hp⟩, e⟩; exact ⟨f, hf, e, hp⟩
    · rintro ⟨f, hf, e, hp⟩; exact ⟨f, ⟨hf, hp⟩, e⟩
  refine ⟨rfl, heq, ?_, hmem, ?_⟩
  · intro f
    obtain ⟨name, value⟩ := f
    cases value with
    | zero => simp [populated]
    | other kind => simp [populated]
    | nilPointer => simp [populated]
    | pointer v => simp [populated]
  · intro hnd
    constructor
    · rw [heq]
      exact (List.Nodup.sublist (List.Sublist.map _ (List.filter_sublist _)) hnd)
    · intro f hf hp hin
      obtain ⟨g, hg, e, hpg⟩ := (hmem f.Name).mp hin
      have : g = f := List.inj_on_of_nodup_map hnd hg hf e
      rw [this, hp] at hpg
      exact Bool.noConfusion hpg

/-- The providers of a configuration with `File` and `Rest` set. -/
theorem getProviders_example :
    getProviders { Providers := some someProviders } = ["File", "Rest"] := by
  decide

end api

namespace server

/-! ## `sanitizePath` -/

/-- The model agrees with every row of `TestSanitizePath`. -/
theorem canonicalPath_tests : ∀ r ∈ sanitizePathTests, canonicalPath r.1 = r.2 := by
  decide

theorem segments_ne_nil (cs : List Char) : segments cs ≠ [] := by
  cases cs with
  | nil => simp [segments]
  | cons c cs =>
    unfold segments
    split_ifs
    · simp
    · split <;> simp

/-- No segment holds a `/`. -/
theorem segments_noSlash (cs : List Char) : ∀ seg ∈ segments cs, '/' ∉ seg := by
  induction cs with
  | nil => simp [segments]
  | cons c cs ih =>
    intro seg hseg
    unfold segments at hseg
    split_ifs at hseg with hc
    · rcases List.mem_cons.mp hseg with h | h
      · simp [h]
      · exact ih seg h
    · split at hseg
      · rename_i hnil
        exact absurd hnil (segments_ne_nil cs)
      · rename_i s rest heq
        rcases List.mem_cons.mp hseg with h | h
        · subst h
          have hs : '/' ∉ s := ih s (by rw [heq]; exact List.mem_cons_self _ _)
          intro hmem
          rcases List.mem_cons.mp hmem with h1 | h1
          · exact hc h1.symm
          · exact hs h1
        · exact ih seg (by rw [heq]; exact List.mem_cons_of_mem _ h)

/-- A piece without `/` joins the first segment of what follows it. -/
theorem segments_append (seg : List Char) (hseg : '/' ∉ seg) (cs h : List Char)
    (r : List (List Char)) (hcs : segments cs = h :: r) :
    segments (seg ++ cs) = (seg ++ h) :: r := by
  induction seg with
  | nil => simpa using hcs
  | cons c seg ih =>
    have hc : c ≠ '/' := fun e => hseg (by simp [e])
    have hs : '/' ∉ seg := fun e => hseg (List.mem_cons_of_mem _ e)
    show segments (c :: (seg ++ cs)) = _
    unfold segments
    rw [if_neg hc, ih hs]
    rfl

/-- Splitting a rendered path gives back its segments, after the empty piece
before the first `/` and before the empty piece after a closing `/`. -/
theorem segments_render (segs : List (List Char)) (trailing : Bool)
    (hsegs : ∀ seg ∈ segs, '/' ∉ seg) :
    segments (render segs trailing) = [] :: (segs ++ if trailing then [[]] else []) := by
  induction segs with
  | nil => cases trailing <;> simp [render, segments]
  | cons seg segs ih =>
    have hrec : render (seg :: segs) trailing = '/' :: (seg ++ render segs trailing) := by
      simp [render]
    rw [hrec]
    unfold segments
    rw [if_pos rfl,
      segments_append seg (hsegs seg (List.mem_cons_self _ _)) _ _ _
        (ih fun s hs => hsegs s (List.mem_cons_of_mem _ hs))]
    simp

/-- Resolving keeps only proper segments. -/
theorem resolve_proper (input : List (List Char)) : ∀ stack : List (List Char),
    (∀ seg ∈ stack, ProperSegment seg) → (∀ seg ∈ input, '/' ∉ seg) →
    ∀ seg ∈ resolve stack input, ProperSegment seg := by
  induction input with
  | nil =>
    intro stack hstack _ seg hseg
    simp only [resolve, List.mem_reverse] at hseg
    exact hstack seg hseg
  | cons s rest ih =>
    intro stack hstack hin seg hseg
    have hrest : ∀ seg ∈ rest, '/' ∉ seg := fun x hx => hin x (List.mem_cons_of_mem _ hx)
    unfold resolve at hseg
    split_ifs at hseg with h1 h2
    · exact ih stack hstack hrest seg hseg
    · exact ih stack.tail (fun x hx => hstack x (List.mem_of_mem_tail hx)) hrest seg hseg
    · refine ih (s :: stack) ?_ hrest seg hseg
      intro x hx
      rcases List.mem_cons.mp hx with e | hx
      · subst e
        exact ⟨fun e => h1 (Or.inl e), fun e => h1 (Or.inr e), h2,
          hin x (List.mem_cons_self _ _)⟩
      · exact hstack x hx

/-- The segments that remain of a path are proper. -/
theorem resolve_segments_proper (p : String) :
    ∀ seg ∈ resolve [] (segments p.data), ProperSegment seg :=
  resolve_proper _ [] (fun _ h => absurd h (List.not_mem_nil _)) (segments_noSlash _)

theorem chain_noSlash (seg : List Char) (hseg : '/' ∉ seg) : ∀ a : Char,
    List.Chain (fun a b => ¬ (a = '/' ∧ b = '/')) a seg := by
  induction seg with
  | nil => intro a; exact List.Chain.nil
  | cons c seg ih =>
    intro a
    have hc : c ≠ '/' := fun e => hseg (by simp [e])
    exact List.Chain.cons (fun h => hc h.2) (ih (fun e => hseg (List.mem_cons_of_mem _ e)) c)

/-- A path rendered from proper segments has no repeated `/`. -/
theorem render_noRepeatedSlash (segs : List (List Char)) (trailing : Bool)
    (hsegs : ∀ seg ∈ segs, ProperSegment seg) :
    List.Chain' (fun a b => ¬ (a = '/' ∧ b = '/')) (render segs trailing) := by
  induction segs with
  | nil => cases trailing <;> simp [render]
  | cons seg segs ih =>
    have hrec : render (seg :: segs) trailing = ('/' :: seg) ++ render segs trailing := by
      simp [render]
    obtain ⟨hne, -, -, hns⟩ := hsegs seg (List.mem_cons_self _ _)
    rw [hrec]
    refine List.Chain'.append (chain_noSlash seg hns '/')
      (ih fun s hs => hsegs s (List.mem_cons_of_mem _ hs)) ?_
    intro x hx y _ hxy
    obtain ⟨c, cs, rfl⟩ := List.exists_cons_of_ne_nil hne
    rw [List.getLast?_cons_cons] at hx
    exact hns (hxy.1 ▸ List.mem_of_mem_getLast? hx)

/-- A path rendered from at least one proper segment ends with `/` exactly
when a closing `/` was asked for. -/
theorem render_getLast (segs : List (List Char)) (trailing : Bool)
    (hsegs : ∀ seg ∈ segs, ProperSegment seg) (hne : segs ≠ []) :
    (render segs trailing).getLast? = some '/' ↔ trailing = true := by
  cases trailing with
  | true => simp [render, List.getLast?_concat]
  | false =>
    simp only [render, Bool.false_eq_true, if_false, List.append_nil, iff_false]
    intro h
    rcases List.eq_nil_or_concat segs with e | ⟨init, last, rfl⟩
    · exact hne e
    · simp only [List.concat_eq_append] at *
      obtain ⟨hlne, -, -, hns⟩ := hsegs last (by simp)
      rcases List.eq_nil_or_concat last with e | ⟨l, c, rfl⟩
      · exact hlne e
      · simp only [List.concat_eq_append] at *
        have hc : c ≠ '/' := fun e => hns (by simp [e])
        have : (List.map (fun seg => '/' :: seg) (init ++ [l ++ [c]])).flatten
            = ((List.map (fun seg => '/' :: seg) init).flatten ++ '/' :: l) ++ [c] := by
          simp
        rw [this, List.getLast?_concat] at h
        exact hc (Option.some.inj h)

theorem render_head (segs : List (List Char)) (trailing : Bool) (hne : segs ≠ []) :
    (render segs trailing).head? = some '/' := by
  obtain ⟨seg, rest, rfl⟩ := List.exists_cons_of_ne_nil hne
  simp [render]

/-- The canonical form begins with `/`, splits into proper segments between
the empty piece before its first `/` and its last piece, has no repeated `/`,
and, unless it is the root, ends with `/` exactly when the path does. -/
theorem canonicalPath_spec (p : String) :
    (canonicalPath p).data.head? = some '/' ∧
    (∀ seg ∈ segments (canonicalPath p).data, seg ≠ ['.'] ∧ seg ≠ ['.', '.']) ∧
    (∀ seg ∈ (segments (canonicalPath p).data).tail.dropLast, ProperSegment seg) ∧
    NoRepeatedSlash (canonicalPath p) ∧
    (canonicalPath p ≠ "/" →
      (endsWithSlash (canonicalPath p) = true ↔ endsWithSlash p = true)) := by
  have hprop := resolve_segments_proper p
  have hns : ∀ seg ∈ resolve [] (segments p.data), '/' ∉ seg :=
    fun s hs => (hprop s hs).2.2.2
  by_cases hnil : resolve [] (segments p.data) = []
  · have hroot : canonicalPath p = "/" := by simp [canonicalPath, hnil]
    rw [hroot]
    refine ⟨by decide, by decide, ?_, ?_, fun h => absurd rfl h⟩
    · intro seg hseg
      have : (segments "/".data).tail.dropLast = [] := by decide
      rw [this] at hseg
      exact absurd hseg (List.not_mem_nil _)
    · show List.Chain' _ ['/']
      exact List.chain'_singleton _
  · have hcan : canonicalPath p
        = ⟨render (resolve [] (segments p.data)) (endsWithSlash p)⟩ := by
      simp [canonicalPath, hnil]
    rw [hcan]
    refine ⟨render_head _ _ hnil, ?_, ?_, render_noRepeatedSlash _ _ hprop, fun _ => ?_⟩
    · intro seg hseg
      rw [segments_render _ _ hns] at hseg
      rcases List.mem_cons.mp hseg with e | hseg
      · subst e; exact ⟨by decide, by decide⟩
      · rcases List.mem_append.mp hseg with h | h
        · exact ⟨(hprop seg h).2.1, (hprop seg h).2.2.1⟩
        · split_ifs at h
          · rw [List.mem_singleton.mp h]; exact ⟨by decide, by decide⟩
          · exact absurd h (List.not_mem_nil _)
    · intro seg hseg
      rw [segments_render _ _ hns] at hseg
      refine hprop seg ?_
      cases hts : endsWithSlash p
      · rw [hts] at hseg
        simp only [Bool.false_eq_true, if_false, List.append_nil, List.tail_cons] at hseg
        exact List.mem_of_mem_dropLast hseg
      · rw [hts] at hseg
        simpa using hseg
    · show decide ((render _ _).getLast? = some '/') = true ↔ _
      simp only [decide_eq_true_eq]
      exact render_getLast _ _ hprop hnil

/-- C23, counterexample. For the path `/a/..`, which does not end with a
slash, the canonical form is the root `/`, which does; so is it for `/..`. -/
theorem root_gets_trailing_slash :
    sanitizePath { Method := "GET", Path := "/a/..", RawQuery := "" }
      = [{ Method := "GET", Path := "/", RawQuery := "" }] ∧
    ("/a/..".data.head? = some '/') ∧
    endsWithSlash "/a/.." = false ∧ endsWithSlash (canonicalPath "/a/..") = true ∧
    ¬ (endsWithSlash (canonicalPath "/a/..") = true ↔ endsWithSlash "/a/.." = true) ∧
    canonicalPath "/.." = "/" ∧
    ¬ (endsWithSlash (canonicalPath "/..") = true ↔ endsWithSlash "/.." = true) := by
  decide

/-- C23, amended. For every request whose path `p` begins with `/`,
`sanitizePath` calls the downstream handler exactly once, with the request
unchanged but for the path, which is the canonical form of `p`: it begins
with `/`, has no `.` or `..` segment, no repeated `/`, and, unless it is the
root `/` itself, ends with a slash if and only if `p` does
(`/a/../../../c/../b` gives `/b`, `/..///b///` gives `/b/`, `/a/b/..` gives
`/a`). -/
theorem sanitizePath_canonical (req : Request) (_hp : req.Path.data.head? = some '/') :
    ∃ out, sanitizePath req = [out] ∧
      out.Method = req.Method ∧ out.RawQuery = req.RawQuery ∧
      out.Path = canonicalPath req.Path ∧
      out.Path.data.head? = some '/' ∧
      (∀ seg ∈ segments out.Path.data, seg ≠ ['.'] ∧ seg ≠ ['.', '.']) ∧
      (∀ seg ∈ (segments out.Path.data).tail.dropLast, ProperSegment seg) ∧
      NoRepeatedSlash out.Path ∧
      (out.Path ≠ "/" →
        (endsWithSlash out.Path = true ↔ endsWithSlash req.Path = true)) ∧
      canonicalPath "/a/../../../c/../b" = "/b" ∧
      canonicalPath "/..///b///" = "/b/" ∧
      canonicalPath "/a/b/.." = "/a" := by
  obtain ⟨h1, h2, h3, h4, h5⟩ := canonicalPath_spec req.Path
  exact ⟨_, rfl, rfl, rfl, rfl, h1, h2, h3, h4, h5, by decide, by decide, by decide⟩

/-- C23, witness: the request `GET /a/../../../c/../b?x=1`. -/
theorem sanitizePath_canonical_witness :
    ("/a/../../../c/../b".data.head? = some '/') ∧
    ∃ out, sanitizePath { Method := "GET", Path := "/a/../../../c/../b", RawQuery := "x=1" } = [out] ∧
      out.Method = "GET" ∧ out.RawQuery = "x=1" ∧
      out.Path = canonicalPath "/a/../../../c/../b" ∧
      out.Path.data.head? = some '/' ∧
      (∀ seg ∈ segments out.Path.data, seg ≠ ['.'] ∧ seg ≠ ['.', '.']) ∧
      (∀ seg ∈ (segments out.Path.data).tail.dropLast, ProperSegment seg) ∧
      NoRepeatedSlash out.Path ∧
      (out.Path ≠ "/" →
        (endsWithSlash out.Path = true ↔ endsWithSlash "/a/../../../c/../b" = true)) ∧
      canonicalPath "/a/../../../c/../b" = "/b" ∧
      canonicalPath "/..///b///" = "/b/" ∧
      canonicalPath "/a/b/.." = "/a" :=
  ⟨by decide,
   sanitizePath_canonical { Method := "GET", Path := "/a/../../../c/../b", RawQuery := "x=1" }
     (by decide)⟩

end server
